import Mathlib

/-!
# Loopy belief propagation on a 4-connected MRF (stereo vision)

A shallow embedding of `main.cpp`: the data model (`Pixel`, `MRF2D`), the cost
functions (`DataCostStereo`, `SmoothnessCost`), the initialiser (`InitDataCost`),
the message update (`SendMsg`), the directional sweep (`BP`), the decoder (`MAP`)
and the loop of `main`, followed by theorems about them.

Conventions of the embedding.

* `TYPE` is `unsigned int`: values are natural numbers and every `+=` on a
  `TYPE` variable is followed by `u32`, reduction modulo `2^32`.
* `int` values (coordinates, dimensions, labels, `best_assignment`) are `Int`;
  loop counters that only take non-negative values are `Nat`.  Index arithmetic
  such as `y*width + x` is not wrapped: grids are assumed small enough for
  `int`.
* `LABELS` is a compile time constant of the program.  The functions of the
  embedding take the number of labels as their first argument `L` (at least 1,
  as the array type `msg[5][LABELS]` requires); the program is the instance
  `L = LABELS = 16`.
* An access `mrf.grid[idx]` outside `[0, grid.size())`, an access `msg[s][l]`
  with `l` outside `[0, L)` and a failed `assert` have no defined result: the
  functions return `none` there.
* An image is a `Mat`: its dimensions, whether it was loaded, and the byte that
  `at<uchar>(row, col)` returns.  `DataCostStereo` is total; the coordinates it
  reads are listed by `DataCostStereo_reads`, so that whether they are inside
  the image is a property of that list.
-/

namespace LBP

/-! ## Data model -/

/-- The source enum `DIRECTION`: the four neighbour slots and the data slot. -/
inductive DIRECTION where
  | LEFT
  | RIGHT
  | UP
  | DOWN
  | DATA
  deriving DecidableEq, Repr

open DIRECTION

/-- The largest `unsigned int`, `2^32 - 1`. -/
def UINT_MAX : Nat := 4294967295

/-- Reduction of a natural number to `unsigned int`. -/
def u32 (n : Nat) : Nat := n % 4294967296

/-- The source constant `BP_ITERATIONS`. -/
def BP_ITERATIONS : Nat := 40

/-- The source constant `LABELS`. -/
def LABELS : Nat := 16

/-- The source constant `LAMBDA`. -/
def LAMBDA : Nat := 20

/-- The source constant `SMOOTHNESS_TRUNC`. -/
def SMOOTHNESS_TRUNC : Nat := 2

/-- The source struct `Pixel`: `msg[5][LABELS]` as a function of slot and label,
and `best_assignment`. -/
structure Pixel where
  msg : DIRECTION → Nat → Nat
  best_assignment : Int

/-- A value-initialised `Pixel` (what `std::vector::resize` inserts). -/
instance : Inhabited Pixel := ⟨⟨fun _ _ => 0, 0⟩⟩

/-- The source struct `MRF2D`. -/
structure MRF2D where
  grid : List Pixel
  width : Int
  height : Int

/-- The element `mrf.grid[idx]`, when `idx` is a valid index. -/
def MRF2D.get? (mrf : MRF2D) (idx : Int) : Option Pixel :=
  if 0 ≤ idx then mrf.grid[idx.toNat]? else none

/-- The grid with `mrf.grid[idx]` replaced. -/
def MRF2D.set (mrf : MRF2D) (idx : Int) (p : Pixel) : MRF2D :=
  { mrf with grid := mrf.grid.set idx.toNat p }

/-- The pixel with `msg[slot][i] = new_msg[i]` executed for `i = 0 .. L-1`; `tbl` holds
the array `new_msg`. -/
def Pixel.setMsg (L : Nat) (p : Pixel) (slot : DIRECTION) (new_msg : Nat → Nat) : Pixel :=
  let tbl := (List.range L).map new_msg
  { p with msg := fun s i => if s = slot ∧ i < L then tbl.getD i 0 else p.msg s i }

/-- The second loop of `SendMsg` for one `case`: `mrf.grid[idx].msg[slot][i] = new_msg[i]`
for every `i`. -/
def MRF2D.storeMsg (L : Nat) (mrf : MRF2D) (idx : Int) (slot : DIRECTION)
    (new_msg : Nat → Nat) : Option MRF2D :=
  match mrf.get? idx with
  | none => none
  | some dst => some (mrf.set idx (dst.setMsg L slot new_msg))

/-- The part of an 8-bit single-channel `cv::Mat` that the program uses: the
dimensions, whether `data` is non-null, and the byte `at<uchar>(row, col)` reads.
Inside the image that byte is the pixel; outside it is whatever the accessor
finds in memory, which the embedding leaves unconstrained. -/
structure Mat where
  rows : Nat
  cols : Nat
  data : Bool
  pixel : Int → Int → Nat

/-- The read `at<uchar>(row, col)`: a byte. -/
def Mat.at_uchar (m : Mat) (row col : Int) : Nat := m.pixel row col % 256

/-- The values taken by `v` in `for(int v = lo; v < hi; v++)`. -/
def intRange (lo hi : Int) : List Int :=
  (List.range (hi - lo).toNat).map fun (k : Nat) => lo + (k : Int)

/-! ## Cost model -/

/-- The local constant `wradius` of `DataCostStereo`. -/
def wradius : Int := 2

/-- The pairs `(dy, dx)` visited by the two loops of `DataCostStereo`, in order. -/
def DataCostStereo_offsets : List (Int × Int) :=
  (intRange (-wradius) (wradius + 1)).flatMap fun dy =>
    (intRange (-wradius) (wradius + 1)).map fun dx => (dy, dx)

/-- The reads of `DataCostStereo(left, right, x, y, label)` in order: for each offset the
`(row, col)` read from `left` and the `(row, col)` read from `right`. -/
def DataCostStereo_reads (x y label : Int) : List ((Int × Int) × (Int × Int)) :=
  DataCostStereo_offsets.map fun d => ((y + d.1, x + d.2), (y + d.1, x + d.2 - label))

/-- The source function `DataCostStereo`. -/
def DataCostStereo (left right : Mat) (x y label : Int) : Nat :=
  let sum := (DataCostStereo_reads x y label).foldl
    (fun (sum : Int) rd =>
      let a : Int := left.at_uchar rd.1.1 rd.1.2
      let b : Int := right.at_uchar rd.2.1 rd.2.2
      sum + |a - b|)
    0
  let avg := sum / ((wradius * 2 + 1) * (wradius * 2 + 1))
  avg.toNat

/-- The source function `SmoothnessCost`: `LAMBDA * min(abs(i - j), SMOOTHNESS_TRUNC)`. -/
def SmoothnessCost (i j : Int) : Nat :=
  let d := i - j
  LAMBDA * min d.natAbs SMOOTHNESS_TRUNC

/-! ## Initialiser -/

/-- The effect of `mrf.grid.resize(total)`: the first `total` elements are kept and
value-initialised pixels are appended up to `total`. -/
def resize (grid : List Pixel) (total : Nat) : List Pixel :=
  grid.take total ++ List.replicate (total - grid.length) default

/-- The pixel after `msg[j][k] = 0` for every slot `j` and label `k`. -/
def Pixel.zeroMsg (L : Nat) (p : Pixel) : Pixel :=
  { p with msg := fun s k => if k < L then 0 else p.msg s k }

/-- The source function `InitDataCost`, applied to the two images `imread` returned
(read with flag 0, hence single-channel, which is what the `assert` checks).
The result is `none` when the program exits with status 1. -/
def InitDataCost (L : Nat) (left right : Mat) (mrf : MRF2D) : Option MRF2D :=
  if !left.data then none
  else if !right.data then none
  else
    let mrf := { mrf with width := (left.cols : Int), height := (left.rows : Int) }
    let total := mrf.width * mrf.height
    let mrf := { mrf with grid := resize mrf.grid total.toNat }
    let mrf := { mrf with grid := mrf.grid.map (Pixel.zeroMsg L) }
    let border : Int := L
    (intRange border (mrf.height - border)).foldlM
      (fun (m : MRF2D) (y : Int) =>
        (intRange border (mrf.width - border)).foldlM
          (fun (m : MRF2D) (x : Int) =>
            m.storeMsg L (y * (left.cols : Int) + x) DATA
              (fun (i : Nat) => DataCostStereo left right x y (i : Int)))
          m)
      mrf

/-- The program state before `InitDataCost`: the default-constructed `MRF2D mrf` of `main`
(its `width` and `height` are not initialised; the embedding takes 0). -/
def MRF2D.empty : MRF2D := { grid := [], width := 0, height := 0 }

/-! ## Message update -/

/-- The value of `p` at the end of the body of the inner loop of `SendMsg`, for
outgoing label `i` and source label `j`, read from the pixel `src`. -/
def SendMsg_p (src : Pixel) (direction : DIRECTION) (i j : Nat) : Nat :=
  let p := 0
  let p := u32 (p + SmoothnessCost i j)
  let p := u32 (p + src.msg DATA j)
  let p := if direction ≠ LEFT then u32 (p + src.msg LEFT j) else p
  let p := if direction ≠ RIGHT then u32 (p + src.msg RIGHT j) else p
  let p := if direction ≠ UP then u32 (p + src.msg UP j) else p
  let p := if direction ≠ DOWN then u32 (p + src.msg DOWN j) else p
  p

/-- The entry `new_msg[i]` computed by the first loop nest of `SendMsg`. -/
def SendMsg_new_msg (L : Nat) (src : Pixel) (direction : DIRECTION) (i : Nat) : Nat :=
  (List.range L).foldl (fun min_val j => min min_val (SendMsg_p src direction i j)) UINT_MAX

/-- The source function `SendMsg`. -/
def SendMsg (L : Nat) (mrf : MRF2D) (x y : Int) (direction : DIRECTION) : Option MRF2D :=
  let width := mrf.width
  match mrf.get? (y * width + x) with
  | none => none
  | some src =>
    let new_msg := SendMsg_new_msg L src direction
    match direction with
    | LEFT => mrf.storeMsg L (y * width + x - 1) RIGHT new_msg
    | RIGHT => mrf.storeMsg L (y * width + x + 1) LEFT new_msg
    | UP => mrf.storeMsg L ((y - 1) * width + x) DOWN new_msg
    | DOWN => mrf.storeMsg L ((y + 1) * width + x) UP new_msg
    | DATA => none

/-! ## Directional sweep -/

/-- The inner loop of a sweep: `SendMsg` at each listed coordinate in turn. -/
def BP_loop (L : Nat) (direction : DIRECTION) (cs : List (Int × Int)) (mrf : MRF2D) :
    Option MRF2D :=
  cs.foldlM (fun m c => SendMsg L m c.1 c.2 direction) mrf

/-- The source function `BP`. -/
def BP (L : Nat) (mrf : MRF2D) (direction : DIRECTION) : Option MRF2D :=
  let width := mrf.width
  let height := mrf.height
  match direction with
  | RIGHT =>
    (List.range height.toNat).foldlM
      (fun (m : MRF2D) (y : Nat) => BP_loop L direction
        ((List.range (width - 1).toNat).map fun (x : Nat) => ((x : Int), (y : Int))) m) mrf
  | LEFT =>
    (List.range height.toNat).foldlM
      (fun (m : MRF2D) (y : Nat) => BP_loop L direction
        ((List.range (width - 1).toNat).reverse.map fun (x : Nat) => ((x : Int) + 1, (y : Int)))
        m) mrf
  | DOWN =>
    (List.range width.toNat).foldlM
      (fun (m : MRF2D) (x : Nat) => BP_loop L direction
        ((List.range (height - 1).toNat).map fun (y : Nat) => ((x : Int), (y : Int))) m) mrf
  | UP =>
    (List.range width.toNat).foldlM
      (fun (m : MRF2D) (x : Nat) => BP_loop L direction
        ((List.range (height - 1).toNat).reverse.map fun (y : Nat) => ((x : Int), (y : Int) + 1))
        m) mrf
  | DATA => none

/-- The four sweeps of one iteration of the loop of `main`, in order. -/
def BP_sweeps (L : Nat) (mrf : MRF2D) : Option MRF2D := do
  let mrf ← BP L mrf RIGHT
  let mrf ← BP L mrf LEFT
  let mrf ← BP L mrf UP
  let mrf ← BP L mrf DOWN
  pure mrf

/-- The message passing of the first `k` iterations of the loop of `main`.  (`MAP`, called
at the end of each iteration, writes `best_assignment` only, which no sweep reads.) -/
def BP_iterations (L : Nat) (k : Nat) (mrf : MRF2D) : Option MRF2D :=
  match k with
  | 0 => some mrf
  | k + 1 =>
    match BP_sweeps L mrf with
    | none => none
    | some mrf => BP_iterations L k mrf

/-! ## Decoder -/

/-- The value of `cost` for label `j` in the first loop of `MAP`. -/
def MAP_cost (p : Pixel) (j : Nat) : Nat :=
  let cost := 0
  let cost := u32 (cost + p.msg LEFT j)
  let cost := u32 (cost + p.msg RIGHT j)
  let cost := u32 (cost + p.msg UP j)
  let cost := u32 (cost + p.msg DOWN j)
  let cost := u32 (cost + p.msg DATA j)
  cost

/-- The inner loop of the first phase of `MAP` on one pixel: the state is the
pair of `best` and the pixel. -/
def MAP_pixel_loop (js : List Nat) (st : Nat × Pixel) : Nat × Pixel :=
  js.foldl
    (fun st j =>
      let cost := MAP_cost st.2 j
      if cost < st.1 then (cost, { st.2 with best_assignment := (j : Int) }) else st)
    st

/-- The body of the outer loop of the first phase of `MAP` on one pixel. -/
def MAP_pixel (L : Nat) (p : Pixel) : Pixel :=
  (MAP_pixel_loop (List.range L) (UINT_MAX, p)).2

/-- The first phase of `MAP`: the MAP assignment of every element of the grid. -/
def MAP_assign (L : Nat) (mrf : MRF2D) : MRF2D :=
  { mrf with grid := mrf.grid.map (MAP_pixel L) }

/-- The read `msg[DATA][cur_label]`, defined for `cur_label` in `[0, L)`. -/
def Pixel.data? (L : Nat) (p : Pixel) (cur_label : Int) : Option Nat :=
  if 0 ≤ cur_label ∧ cur_label < L then some (p.msg DATA cur_label.toNat) else none

/-- The statement `if(c) energy += SmoothnessCost(cur_label, mrf.grid[idx].best_assignment);`. -/
def MAP_smooth (mrf : MRF2D) (c : Bool) (cur_label : Int) (idx : Int) (energy : Nat) :
    Option Nat :=
  if c then
    match mrf.get? idx with
    | none => none
    | some q => some (u32 (energy + SmoothnessCost cur_label q.best_assignment))
  else some energy

/-- The body of the energy loop of `MAP` at `(x, y)`. -/
def MAP_energy_step (L : Nat) (mrf : MRF2D) (x y : Int) (energy : Nat) : Option Nat := do
  let width := mrf.width
  let height := mrf.height
  let cur ← mrf.get? (y * width + x)
  let cur_label := cur.best_assignment
  let d ← cur.data? L cur_label
  let energy := u32 (energy + d)
  let energy ← MAP_smooth mrf (decide (x - 1 ≥ 0)) cur_label (y * width + x - 1) energy
  let energy ← MAP_smooth mrf (decide (x + 1 < width)) cur_label (y * width + x + 1) energy
  let energy ← MAP_smooth mrf (decide (y - 1 ≥ 0)) cur_label ((y - 1) * width + x) energy
  let energy ← MAP_smooth mrf (decide (y + 1 < height)) cur_label ((y + 1) * width + x) energy
  pure energy

/-- The second phase of `MAP`: the energy of the current assignment. -/
def MAP_energy (L : Nat) (mrf : MRF2D) : Option Nat :=
  (List.range mrf.height.toNat).foldlM
    (fun (energy : Nat) (y : Nat) =>
      (List.range mrf.width.toNat).foldlM
        (fun (energy : Nat) (x : Nat) => MAP_energy_step L mrf (x : Int) (y : Int) energy) energy)
    0

/-- The source function `MAP`: the grid after the assignment phase and the
returned energy. -/
def MAP (L : Nat) (mrf : MRF2D) : Option (MRF2D × Nat) :=
  let mrf1 := MAP_assign L mrf
  match MAP_energy L mrf1 with
  | none => none
  | some energy => some (mrf1, energy)

/-! ## The loop of `main` -/

/-- The first `k` iterations of the loop of `main`: in each iteration the four sweeps and
then `MAP`.  The result is the grid and the energies that the iterations print, in
order. -/
def main_loop (L : Nat) (k : Nat) (mrf : MRF2D) : Option (MRF2D × List Nat) :=
  match k with
  | 0 => some (mrf, [])
  | k + 1 =>
    match BP_sweeps L mrf with
    | none => none
    | some mrf =>
      match MAP L mrf with
      | none => none
      | some (mrf, energy) =>
        match main_loop L k mrf with
        | none => none
        | some (mrf, energies) => some (mrf, energy :: energies)

/-! ## Vocabulary of the statements -/

/-- The grid vector has exactly `width * height` elements, with non-negative dimensions. -/
def MRF2D.WF (mrf : MRF2D) : Prop :=
  0 ≤ mrf.width ∧ 0 ≤ mrf.height ∧ (mrf.grid.length : Int) = mrf.width * mrf.height

/-- The coordinate `(x, y)` lies inside the grid. -/
def MRF2D.InGrid (mrf : MRF2D) (x y : Int) : Prop :=
  0 ≤ x ∧ x < mrf.width ∧ 0 ≤ y ∧ y < mrf.height

/-- The pixel at `(x, y)`, i.e. `mrf.grid[y*width + x]` (a zero pixel outside the vector). -/
def MRF2D.pix (mrf : MRF2D) (x y : Int) : Pixel :=
  (mrf.get? (y * mrf.width + x)).getD default

/-- The label `best_assignment` of the pixel at `(x, y)`. -/
def MRF2D.label (mrf : MRF2D) (x y : Int) : Int := (mrf.pix x y).best_assignment

/-- Every element of the grid has its `best_assignment` in `[0, L)`. -/
def MRF2D.LabelsIn (L : Nat) (mrf : MRF2D) : Prop :=
  ∀ p ∈ mrf.grid, 0 ≤ p.best_assignment ∧ p.best_assignment < L

/-- The neighbour of `(x, y)` in direction `d`. -/
def DIRECTION.nbr (d : DIRECTION) (x y : Int) : Int × Int :=
  match d with
  | LEFT => (x - 1, y)
  | RIGHT => (x + 1, y)
  | UP => (x, y - 1)
  | DOWN => (x, y + 1)
  | DATA => (x, y)

/-- The slot of the neighbour that receives a message sent in direction `d`. -/
def DIRECTION.recv (d : DIRECTION) : DIRECTION :=
  match d with
  | LEFT => RIGHT
  | RIGHT => LEFT
  | UP => DOWN
  | DOWN => UP
  | DATA => DATA

/-- The neighbour slots other than `d`. -/
def otherSlots (d : DIRECTION) : List DIRECTION :=
  [LEFT, RIGHT, UP, DOWN].filter (fun s => s ≠ d)

/-- The cavity cost `SmoothnessCost(i, j) + msg[Data][j] + Σ msg[s][j]` over the
slots `s` other than `d`, as an unbounded natural number. -/
def cavitySum (src : Pixel) (d : DIRECTION) (i j : Nat) : Nat :=
  SmoothnessCost i j + src.msg DATA j + ((otherSlots d).map fun s => src.msg s j).sum

/-- The decode cost of label `j` at a pixel as an unbounded natural number: the sum of
the five slots at `j`. -/
def decodeSum (p : Pixel) (j : Nat) : Nat :=
  p.msg LEFT j + p.msg RIGHT j + p.msg UP j + p.msg DOWN j + p.msg DATA j

/-- The contribution of the pixel `(x, y)` to the energy: its data cost at its label plus
the smoothness cost towards each existing 4-neighbour. -/
def pixelEnergy (mrf : MRF2D) (x y : Nat) : Nat :=
  (mrf.pix x y).msg DATA (mrf.label x y).toNat
  + (if 1 ≤ x then SmoothnessCost (mrf.label x y) (mrf.label ((x : Int) - 1) y) else 0)
  + (if (x : Int) + 1 < mrf.width then
      SmoothnessCost (mrf.label x y) (mrf.label ((x : Int) + 1) y) else 0)
  + (if 1 ≤ y then SmoothnessCost (mrf.label x y) (mrf.label x ((y : Int) - 1)) else 0)
  + (if (y : Int) + 1 < mrf.height then
      SmoothnessCost (mrf.label x y) (mrf.label x ((y : Int) + 1)) else 0)

/-- The sum of the data costs of all pixels at their labels. -/
def dataEnergy (mrf : MRF2D) : Nat :=
  ∑ y ∈ Finset.range mrf.height.toNat, ∑ x ∈ Finset.range mrf.width.toNat,
    (mrf.pix x y).msg DATA (mrf.label x y).toNat

/-- The sum of the smoothness costs over the undirected 4-neighbour edges of the grid:
the horizontal edges `(x, y) - (x+1, y)` and the vertical edges `(x, y) - (x, y+1)`. -/
def edgeEnergy (mrf : MRF2D) : Nat :=
  (∑ y ∈ Finset.range mrf.height.toNat, ∑ x ∈ Finset.range (mrf.width.toNat - 1),
    SmoothnessCost (mrf.label x y) (mrf.label ((x : Int) + 1) y))
  + ∑ y ∈ Finset.range (mrf.height.toNat - 1), ∑ x ∈ Finset.range mrf.width.toNat,
    SmoothnessCost (mrf.label x y) (mrf.label x ((y : Int) + 1))

/-- The condition under which `(row, col)` is a pixel of the image. -/
def Mat.Inside (m : Mat) (row col : Int) : Prop :=
  0 ≤ row ∧ row < m.rows ∧ 0 ≤ col ∧ col < m.cols

/-- The byte `at<uchar>(row, col)` lies in the pixel buffer of the image: the images that
`imread` returns are continuous, so the byte is at offset `row * cols + col`, and the
buffer holds the offsets `0 .. rows * cols - 1`. -/
def Mat.InBuffer (m : Mat) (row col : Int) : Prop :=
  0 ≤ row * (m.cols : Int) + col ∧ row * (m.cols : Int) + col < (m.rows : Int) * (m.cols : Int)

/-- The pixel `(x, y)` is outside the border of width `L`. -/
def Interior (L : Nat) (W H : Nat) (x y : Int) : Prop :=
  (L : Int) ≤ x ∧ x < (W : Int) - L ∧ (L : Int) ≤ y ∧ y < (H : Int) - L

instance (L W H : Nat) (x y : Int) : Decidable (Interior L W H x y) := by
  unfold Interior; infer_instance

/-- The source coordinates of the sweep `BP(d)` on a `W x H` grid, in the order in which
`SendMsg` is called. -/
def BP_coords (d : DIRECTION) (W H : Int) : List (Int × Int) :=
  match d with
  | RIGHT => (List.range H.toNat).flatMap fun (y : Nat) =>
      (List.range (W - 1).toNat).map fun (x : Nat) => ((x : Int), (y : Int))
  | LEFT => (List.range H.toNat).flatMap fun (y : Nat) =>
      (List.range (W - 1).toNat).reverse.map fun (x : Nat) => ((x : Int) + 1, (y : Int))
  | DOWN => (List.range W.toNat).flatMap fun (x : Nat) =>
      (List.range (H - 1).toNat).map fun (y : Nat) => ((x : Int), (y : Int))
  | UP => (List.range W.toNat).flatMap fun (x : Nat) =>
      (List.range (H - 1).toNat).reverse.map fun (y : Nat) => ((x : Int), (y : Int) + 1)
  | DATA => []

/-- The order condition of a sweep: sources are distinct and no source is the neighbour of
a later source. -/
def SweepOrdered (d : DIRECTION) (cs : List (Int × Int)) : Prop :=
  cs.Pairwise fun c c1 => c ≠ c1 ∧ d.nbr c1.1 c1.2 ≠ c

/-- The sum over the 25 window offsets of `|left(x+dx, y+dy) - right(x+dx-l, y+dy)|`. -/
def windowSAD (left right : Mat) (x y l : Int) : Nat :=
  ∑ dy ∈ Finset.Icc (-2 : Int) 2, ∑ dx ∈ Finset.Icc (-2 : Int) 2,
    ((left.at_uchar (y + dy) (x + dx) : Int) - (right.at_uchar (y + dy) (x + dx - l) : Int)).natAbs

/-- Every pixel of the image has the gray value `v`. -/
def Mat.Uniform (m : Mat) (v : Nat) : Prop :=
  ∀ row col, m.Inside row col → m.pixel row col = v

/-- The sum over all pixels of the data cost that `InitDataCost` stores at label 0: the
data cost of label 0 inside the border of width `L`, and 0 on the border. -/
def dataCostSum (L : Nat) (left right : Mat) : Nat :=
  ∑ y ∈ Finset.range left.rows, ∑ x ∈ Finset.range left.cols,
    if Interior L left.cols left.rows x y then DataCostStereo left right x y 0 else 0

/-- The cavity cost without the smoothness term: `msg[Data][j]` plus the three slots other
than `d` at `j`. -/
def cavityBase (src : Pixel) (d : DIRECTION) (j : Nat) : Nat :=
  src.msg DATA j + ((otherSlots d).map fun s => src.msg s j).sum

/-- The pixel `(x, y)` has no source in the sweep of direction `d`: it lies in column 0 for
Right, column `W-1` for Left, row `H-1` for Up, row 0 for Down. -/
def DIRECTION.noSource (d : DIRECTION) (mrf : MRF2D) (x y : Int) : Prop :=
  match d with
  | RIGHT => x = 0
  | LEFT => x = mrf.width - 1
  | UP => y = mrf.height - 1
  | DOWN => y = 0
  | DATA => True

/-! ## Sweeps row by row -/

/-- The rows (for Left and Right) or columns (for Up and Down) of a `W x H` grid, in the
order in which the outer loop of `BP` visits them. -/
def BP_lines (d : DIRECTION) (W H : Int) : List Nat :=
  match d with
  | LEFT => List.range H.toNat
  | RIGHT => List.range H.toNat
  | UP => List.range W.toNat
  | DOWN => List.range W.toNat
  | DATA => []

/-- The sources of the sweep `BP(d)` in row (or column) `a`, in the order of the inner loop
of `BP`. -/
def BP_line_coords (d : DIRECTION) (W H : Int) (a : Nat) : List (Int × Int) :=
  match d with
  | RIGHT => (List.range (W - 1).toNat).map fun (x : Nat) => ((x : Int), (a : Int))
  | LEFT => (List.range (W - 1).toNat).reverse.map fun (x : Nat) => ((x : Int) + 1, (a : Int))
  | DOWN => (List.range (H - 1).toNat).map fun (y : Nat) => ((a : Int), (y : Int))
  | UP => (List.range (H - 1).toNat).reverse.map fun (y : Nat) => ((a : Int), (y : Int) + 1)
  | DATA => []

/-- The sweep of the single row (or column) `a`: the inner loop of `BP` for that row. -/
def BP_line (L : Nat) (d : DIRECTION) (W H : Int) (a : Nat) (mrf : MRF2D) : Option MRF2D :=
  BP_loop L d (BP_line_coords d W H a) mrf

/-- The per-row (or per-column) sweeps applied in the order `lines`. -/
def BP_in_order (L : Nat) (d : DIRECTION) (lines : List Nat) (mrf : MRF2D) : Option MRF2D :=
  lines.foldlM (fun (m : MRF2D) (a : Nat) => BP_line L d mrf.width mrf.height a m) mrf

/-- The pixel `(x, y)` lies in row `a` (for Left and Right) or in column `a` (for Up and
Down). -/
def DIRECTION.onLine (d : DIRECTION) (a : Nat) (x y : Int) : Prop :=
  match d with
  | LEFT => y = a
  | RIGHT => y = a
  | UP => x = a
  | DOWN => x = a
  | DATA => False

/-! ## Bounds on the messages along the sweeps -/

/-- The steps `(a_k, b_k)` of the bound on the messages after `k` iterations on a `W x H`
grid: `a_0 = b_0 = 0`, `a_{k+1} = 255 + (H-1) * b_k` and `b_{k+1} = 255 + (W-1) * a_{k+1}`. -/
def growthSteps (W H : Nat) : Nat → Nat × Nat
  | 0 => (0, 0)
  | k + 1 =>
    let a := 255 + (H - 1) * (growthSteps W H k).2
    (a, 255 + (W - 1) * a)

/-- The bound on the messages along the sweeps, with step `a` per column and `b` per row:
at the pixel `(x, y)` every Data entry is at most 255, every Left entry at most `x * a`,
every Right entry at most `(W-1-x) * a`, every Up entry at most `y * b` and every Down entry
at most `(H-1-y) * b`. -/
def MRF2D.MsgGrowth (L : Nat) (mrf : MRF2D) (a b : Nat) : Prop :=
  ∀ x y, mrf.InGrid x y → ∀ l < L,
    (mrf.pix x y).msg DATA l ≤ 255 ∧
    (mrf.pix x y).msg LEFT l ≤ x.toNat * a ∧
    (mrf.pix x y).msg RIGHT l ≤ (mrf.width - 1 - x).toNat * a ∧
    (mrf.pix x y).msg UP l ≤ y.toNat * b ∧
    (mrf.pix x y).msg DOWN l ≤ (mrf.height - 1 - y).toNat * b

/-- The condition on the steps under which the updates of direction `d` keep the bound. -/
def DIRECTION.stepOK (d : DIRECTION) (mrf : MRF2D) (a b : Nat) : Prop :=
  match d with
  | LEFT => 255 + (mrf.height - 1).toNat * b ≤ a
  | RIGHT => 255 + (mrf.height - 1).toNat * b ≤ a
  | UP => 255 + (mrf.width - 1).toNat * a ≤ b
  | DOWN => 255 + (mrf.width - 1).toNat * a ≤ b
  | DATA => True

/-- Every sum that the sweep `BP(d)` forms on `mrf` is at most `N`: for each source `c` of
the sweep, the calls of `SendMsg` at the sources before `c` return a grid, the one in which
`SendMsg` is called at `c`, and there every sum
`SmoothnessCost(i, j) + msg[Data][j] +` the three slots other than `d` at `j`, taken without
reduction, is at most `N`. -/
def SweepSumsLe (L : Nat) (d : DIRECTION) (mrf : MRF2D) (N : Nat) : Prop :=
  ∀ pre c post, BP_coords d mrf.width mrf.height = pre ++ c :: post →
    ∃ m, BP_loop L d pre mrf = some m ∧
      ∀ i < L, ∀ j < L, cavitySum (m.pix c.1 c.2) d i j ≤ N

/-- Every sum that the four sweeps of one iteration started on `mrf` form is at most `N`. -/
def IterationSumsLe (L : Nat) (mrf : MRF2D) (N : Nat) : Prop :=
  ∃ m1 m2 m3, BP L mrf RIGHT = some m1 ∧ BP L m1 LEFT = some m2 ∧ BP L m2 UP = some m3 ∧
    SweepSumsLe L RIGHT mrf N ∧ SweepSumsLe L LEFT m1 N ∧ SweepSumsLe L UP m2 N ∧
    SweepSumsLe L DOWN m3 N

/-- A sum that the sweep `BP(d)` forms on `mrf` reaches `N`: for some source `c` of the
sweep, in the grid in which `SendMsg` is called at `c` (after the calls at the sources
before `c`), a sum `SmoothnessCost(i, j) + msg[Data][j] +` the three slots other than `d`
at `j`, taken without reduction, is at least `N`. -/
def SweepSumReaches (L : Nat) (d : DIRECTION) (mrf : MRF2D) (N : Nat) : Prop :=
  ∃ pre c post m i j, BP_coords d mrf.width mrf.height = pre ++ c :: post ∧
    BP_loop L d pre mrf = some m ∧ i < L ∧ j < L ∧ N ≤ cavitySum (m.pix c.1 c.2) d i j

/-- A sum that one of the four sweeps of one iteration started on `mrf` forms reaches `N`. -/
def IterationSumReaches (L : Nat) (mrf : MRF2D) (N : Nat) : Prop :=
  ∃ m1 m2 m3, BP L mrf RIGHT = some m1 ∧ BP L m1 LEFT = some m2 ∧ BP L m2 UP = some m3 ∧
    (SweepSumReaches L RIGHT mrf N ∨ SweepSumReaches L LEFT m1 N ∨
      SweepSumReaches L UP m2 N ∨ SweepSumReaches L DOWN m3 N)

/-! ## Concrete inputs -/

/-- A pixel with pairwise different message entries, for the concrete instances. -/
def samplePixel (k : Nat) : Pixel :=
  { msg := fun s j =>
      k + 7 * j + (match s with | LEFT => 1 | RIGHT => 2 | UP => 3 | DOWN => 4 | DATA => 5)
    best_assignment := 0 }

/-- A `2 x 2` grid of sample pixels, for the concrete instances. -/
def sampleGrid : MRF2D :=
  { grid := [samplePixel 0, samplePixel 100, samplePixel 200, samplePixel 300]
    width := 2
    height := 2 }

/-- A pixel whose decode cost is `UINT_MAX` at every label, with a `best_assignment`
outside the label range. -/
def saturatedPixel : Pixel :=
  { msg := fun s _ => match s with | DATA => 4294967295 | _ => 0
    best_assignment := 99 }

/-- A `1 x 1` grid holding `saturatedPixel`. -/
def saturatedGrid : MRF2D :=
  { grid := [saturatedPixel], width := 1, height := 1 }

/-- A `1 x 1` grid whose pixel has decode cost `UINT_MAX` at every label and the prior
`best_assignment` 5, inside the label range. -/
def saturatedGridInRange : MRF2D :=
  { grid := [{ saturatedPixel with best_assignment := 5 }], width := 1, height := 1 }

/-- An image of the given size whose every byte is `v`. -/
def constImage (rows cols v : Nat) : Mat :=
  { rows := rows, cols := cols, data := true, pixel := fun _ _ => v }

/-- A `2 x 1` grid whose left pixel has `msg[Data][j] = 2^32 - 1` and `msg[Up][j] = 1` at
every label, so that every cavity sum sent to the right reaches `2^32`. -/
def wrapGrid : MRF2D :=
  { grid := [{ msg := fun s _ => match s with | DATA => 4294967295 | UP => 1 | _ => 0
               best_assignment := 0 }, default]
    width := 2
    height := 1 }

/-! # Theorems -/

/-! ## Machine arithmetic -/

theorem u32_of_lt {n : Nat} (h : n < 4294967296) : u32 n = n := Nat.mod_eq_of_lt h

theorem u32_le (n : Nat) : u32 n ≤ n := Nat.mod_le _ _

theorem u32_lt (n : Nat) : u32 n < 4294967296 := Nat.mod_lt _ (by norm_num)

theorem u32_le_UINT_MAX (n : Nat) : u32 n ≤ UINT_MAX := by
  have := u32_lt n
  unfold UINT_MAX; omega

theorem u32_add_u32 (a b : Nat) : u32 (u32 a + b) = u32 (a + b) := by
  unfold u32; omega

theorem SendMsg_p_eq_u32 (src : Pixel) (d : DIRECTION) (hd : d ≠ DATA) (i j : Nat) :
    SendMsg_p src d i j = u32 (cavitySum src d i j) := by
  cases d <;> first | exact absurd rfl hd | (simp [SendMsg_p, cavitySum, otherSlots, u32_add_u32]; congr 1; try omega)

theorem SendMsg_p_of_lt (src : Pixel) (d : DIRECTION) (hd : d ≠ DATA) (i j : Nat)
    (h : cavitySum src d i j < 4294967296) : SendMsg_p src d i j = cavitySum src d i j := by
  rw [SendMsg_p_eq_u32 src d hd, u32_of_lt h]


/-! ## Writing a message slot -/

theorem Pixel.setMsg_msg (L : Nat) (p : Pixel) (slot : DIRECTION) (v : Nat → Nat)
    (s : DIRECTION) (i : Nat) :
    (p.setMsg L slot v).msg s i = if s = slot ∧ i < L then v i else p.msg s i := by
  unfold Pixel.setMsg
  by_cases h : s = slot ∧ i < L
  · simp [h, List.getD_eq_getElem?_getD, List.getElem?_map, List.getElem?_range h.2]
  · simp only [h, if_false]

theorem Pixel.setMsg_best_assignment (L : Nat) (p : Pixel) (slot : DIRECTION) (v : Nat → Nat) :
    (p.setMsg L slot v).best_assignment = p.best_assignment := rfl

/-! ## The running minimum -/

theorem foldl_min_le_init (f : Nat → Nat) (js : List Nat) (a : Nat) :
    js.foldl (fun m j => min m (f j)) a ≤ a := by
  induction js generalizing a with
  | nil => simp
  | cons j js ih => exact le_trans (ih _) (min_le_left _ _)

theorem foldl_min_le_mem (f : Nat → Nat) (js : List Nat) (a : Nat) (j : Nat) (hj : j ∈ js) :
    js.foldl (fun m j => min m (f j)) a ≤ f j := by
  induction js generalizing a with
  | nil => cases hj
  | cons k js ih =>
    rcases List.mem_cons.1 hj with rfl | h
    · exact le_trans (foldl_min_le_init f js _) (min_le_right _ _)
    · exact ih _ h

theorem foldl_min_attained (f : Nat → Nat) (js : List Nat) (a : Nat) :
    js.foldl (fun m j => min m (f j)) a = a ∨
      ∃ j ∈ js, js.foldl (fun m j => min m (f j)) a = f j := by
  induction js generalizing a with
  | nil => simp
  | cons k js ih =>
    rcases ih (min a (f k)) with h | ⟨j, hj, h⟩
    · rcases min_choice a (f k) with h2 | h2
      · left; rw [List.foldl_cons, h, h2]
      · right; exact ⟨k, List.mem_cons_self _ _, by rw [List.foldl_cons, h, h2]⟩
    · right; exact ⟨j, List.mem_cons_of_mem _ hj, by simpa using h⟩

/-- With at least one label and no wrapped sum, `new_msg[i]` is attained by a
source label. -/
theorem SendMsg_new_msg_attained (L : Nat) (hL : 0 < L) (src : Pixel) (d : DIRECTION) (i : Nat) :
    ∃ j < L, SendMsg_new_msg L src d i = SendMsg_p src d i j := by
  unfold SendMsg_new_msg
  rcases foldl_min_attained (SendMsg_p src d i) (List.range L) UINT_MAX with h | ⟨j, hj, h⟩
  · refine ⟨0, hL, ?_⟩
    have h1 := foldl_min_le_mem (SendMsg_p src d i) (List.range L) UINT_MAX 0 (List.mem_range.2 hL)
    have h2 : SendMsg_p src d i 0 ≤ UINT_MAX := by
      cases d <;> simp only [SendMsg_p, ne_eq, not_true_eq_false, not_false_eq_true, if_true,
        if_false, reduceCtorEq] <;> exact u32_le_UINT_MAX _
    omega
  · exact ⟨j, List.mem_range.1 hj, h⟩

theorem SendMsg_new_msg_le (L : Nat) (src : Pixel) (d : DIRECTION) (i j : Nat) (hj : j < L) :
    SendMsg_new_msg L src d i ≤ SendMsg_p src d i j :=
  foldl_min_le_mem _ _ _ _ (List.mem_range.2 hj)

/-! ## Grid access -/

theorem index_bounds {W H x y : Int} (hx0 : 0 ≤ x) (hx : x < W) (hy0 : 0 ≤ y) (hy : y < H) :
    0 ≤ y * W + x ∧ y * W + x < W * H := by
  constructor
  · have : 0 ≤ y * W := mul_nonneg hy0 (by omega)
    omega
  · have h1 : (y + 1) * W ≤ H * W := mul_le_mul_of_nonneg_right (by omega) (by omega)
    nlinarith

theorem index_inj {W x y x' y' : Int} (hx0 : 0 ≤ x) (hx : x < W) (hx0' : 0 ≤ x') (hx' : x' < W)
    (h : y * W + x = y' * W + x') : x = x' ∧ y = y' := by
  have hW : 0 < W := by omega
  have e1 : (y * W + x) % W = x := by
    rw [add_comm, Int.add_mul_emod_self, Int.emod_eq_of_lt hx0 hx]
  have e2 : (y' * W + x') % W = x' := by
    rw [add_comm, Int.add_mul_emod_self, Int.emod_eq_of_lt hx0' hx']
  have hxx : x = x' := by rw [← e1, ← e2, h]
  subst hxx
  have : y * W = y' * W := by omega
  exact ⟨rfl, Int.eq_of_mul_eq_mul_right (by omega) this⟩

theorem MRF2D.get?_eq_some_of_lt (mrf : MRF2D) (idx : Int) (h0 : 0 ≤ idx)
    (h : idx < mrf.grid.length) : ∃ p, mrf.get? idx = some p := by
  have : idx.toNat < mrf.grid.length := by omega
  exact ⟨mrf.grid[idx.toNat], by simp [MRF2D.get?, h0, this]⟩

theorem MRF2D.get?_inGrid (mrf : MRF2D) (hwf : mrf.WF) (x y : Int) (h : mrf.InGrid x y) :
    mrf.get? (y * mrf.width + x) = some (mrf.pix x y) := by
  obtain ⟨hx0, hx, hy0, hy⟩ := h
  have hb := index_bounds hx0 hx hy0 hy
  obtain ⟨p, hp⟩ := mrf.get?_eq_some_of_lt _ hb.1 (by rw [hwf.2.2]; exact hb.2)
  simp [MRF2D.pix, hp]

theorem MRF2D.get?_set (mrf : MRF2D) (idx k : Int) (p : Pixel) (h0 : 0 ≤ idx) (hk : 0 ≤ k) :
    (mrf.set idx p).get? k =
      if idx = k then (if idx < mrf.grid.length then some p else none) else mrf.get? k := by
  simp only [MRF2D.get?, MRF2D.set, hk, if_true, List.getElem?_set]
  by_cases h : idx = k
  · subst h
    have e : (idx.toNat < mrf.grid.length) = (idx < (mrf.grid.length : Int)) := by
      apply propext; omega
    simp [e]
  · have : idx.toNat ≠ k.toNat := by omega
    simp [h, this]


theorem MRF2D.set_width (mrf : MRF2D) (idx : Int) (p : Pixel) :
    (mrf.set idx p).width = mrf.width := rfl

theorem MRF2D.set_height (mrf : MRF2D) (idx : Int) (p : Pixel) :
    (mrf.set idx p).height = mrf.height := rfl

theorem MRF2D.set_length (mrf : MRF2D) (idx : Int) (p : Pixel) :
    (mrf.set idx p).grid.length = mrf.grid.length := by
  simp [MRF2D.set]

theorem MRF2D.set_WF (mrf : MRF2D) (idx : Int) (p : Pixel) (h : mrf.WF) : (mrf.set idx p).WF := by
  unfold MRF2D.WF at *
  rw [MRF2D.set_width, MRF2D.set_height, MRF2D.set_length]
  exact h

theorem MRF2D.pix_set (mrf : MRF2D) (hwf : mrf.WF) (x y x' y' : Int) (p : Pixel)
    (h : mrf.InGrid x y) (h' : mrf.InGrid x' y') :
    (mrf.set (y * mrf.width + x) p).pix x' y' = if x = x' ∧ y = y' then p else mrf.pix x' y' := by
  obtain ⟨hx0, hx, hy0, hy⟩ := h
  obtain ⟨hx0', hx', hy0', hy'⟩ := h'
  have hb := index_bounds hx0 hx hy0 hy
  have hb' := index_bounds hx0' hx' hy0' hy'
  unfold MRF2D.pix
  rw [MRF2D.set_width, MRF2D.get?_set _ _ _ _ hb.1 hb'.1]
  by_cases e : y * mrf.width + x = y' * mrf.width + x'
  · have := index_inj hx0 hx hx0' hx' e
    have hlt : y * mrf.width + x < (mrf.grid.length : Int) := by rw [hwf.2.2]; exact hb.2
    simp [e, this, hlt]
    rw [← e]; simp [hlt]
  · have : ¬ (x = x' ∧ y = y') := by
      rintro ⟨rfl, rfl⟩; exact e rfl
    simp [e, this]

/-- The result of `SendMsg` when the source and its neighbour are inside the grid:
the neighbour's receiving slot is overwritten with `new_msg`. -/
theorem SendMsg_eq (L : Nat) (mrf : MRF2D) (hwf : mrf.WF) (x y : Int) (d : DIRECTION)
    (hd : d ≠ DATA) (hs : mrf.InGrid x y) (ht : mrf.InGrid (d.nbr x y).1 (d.nbr x y).2) :
    SendMsg L mrf x y d =
      some (mrf.set ((d.nbr x y).2 * mrf.width + (d.nbr x y).1)
        ((mrf.pix (d.nbr x y).1 (d.nbr x y).2).setMsg L d.recv
          (SendMsg_new_msg L (mrf.pix x y) d))) := by
  have h1 := mrf.get?_inGrid hwf x y hs
  have h2 := mrf.get?_inGrid hwf _ _ ht
  unfold SendMsg
  simp only [h1]
  cases d
  · have e : y * mrf.width + x - 1 = y * mrf.width + (x - 1) := by ring
    simp only [DIRECTION.nbr] at h2 ⊢
    simp only [MRF2D.storeMsg, e, h2, DIRECTION.recv]
  · have e : y * mrf.width + x + 1 = y * mrf.width + (x + 1) := by ring
    simp only [DIRECTION.nbr] at h2 ⊢
    simp only [MRF2D.storeMsg, e, h2, DIRECTION.recv]
  · simp only [DIRECTION.nbr] at h2 ⊢
    simp only [MRF2D.storeMsg, h2, DIRECTION.recv]
  · simp only [DIRECTION.nbr] at h2 ⊢
    simp only [MRF2D.storeMsg, h2, DIRECTION.recv]
  · exact absurd rfl hd

theorem DIRECTION.nbr_ne (d : DIRECTION) (hd : d ≠ DATA) (x y : Int) :
    ¬ ((d.nbr x y).1 = x ∧ (d.nbr x y).2 = y) := by
  cases d <;> simp only [DIRECTION.nbr] <;> first | omega | exact absurd rfl hd

/-- General form of the cavity update for any positive number of labels. -/
theorem SendMsg_cavity (L : Nat) (hL : 0 < L) (mrf : MRF2D) (hwf : mrf.WF) (x y : Int)
    (d : DIRECTION) (hd : d ≠ DATA) (hs : mrf.InGrid x y)
    (ht : mrf.InGrid (d.nbr x y).1 (d.nbr x y).2)
    (hno : ∀ i < L, ∀ j < L, cavitySum (mrf.pix x y) d i j < 4294967296) :
    ∃ mrf1, SendMsg L mrf x y d = some mrf1 ∧
      ∀ i < L,
        (∀ j < L, (mrf1.pix (d.nbr x y).1 (d.nbr x y).2).msg d.recv i
            ≤ cavitySum (mrf.pix x y) d i j) ∧
        (∃ j < L, (mrf1.pix (d.nbr x y).1 (d.nbr x y).2).msg d.recv i
            = cavitySum (mrf.pix x y) d i j) := by
  refine ⟨_, SendMsg_eq L mrf hwf x y d hd hs ht, ?_⟩
  intro i hi
  rw [MRF2D.pix_set mrf hwf _ _ _ _ _ ht ht]
  simp only [and_self, if_true, Pixel.setMsg_msg, hi]
  constructor
  · intro j hj
    have := SendMsg_new_msg_le L (mrf.pix x y) d i j hj
    rwa [SendMsg_p_of_lt _ _ hd _ _ (hno i hi j hj)] at this
  · obtain ⟨j, hj, e⟩ := SendMsg_new_msg_attained L hL (mrf.pix x y) d i
    exact ⟨j, hj, by rw [e, SendMsg_p_of_lt _ _ hd _ _ (hno i hi j hj)]⟩

/-! ## The message update `SendMsg` -/

/-- C1: on a `W*H` grid, for a direction `d` among Left, Right, Up, Down and a pixel
`(x, y)` whose neighbour in direction `d` is inside the grid, `SendMsg` returns, and
afterwards entry `i` of the neighbour's receiving slot is the minimum over `j < 16` of
`SmoothnessCost(i, j) + msg[Data][j] +` the three slots other than `d` at `j`, read from
`(x, y)` before the call (it is a lower bound of these sums and equals one of them),
provided none of the sums reaches `2^32`. -/
theorem C1_SendMsg_cavity_update (mrf : MRF2D) (x y : Int) (d : DIRECTION)
    (hd : d = LEFT ∨ d = RIGHT ∨ d = UP ∨ d = DOWN)
    (hwf : mrf.WF) (hs : mrf.InGrid x y) (ht : mrf.InGrid (d.nbr x y).1 (d.nbr x y).2)
    (hno : ∀ i < LABELS, ∀ j < LABELS, cavitySum (mrf.pix x y) d i j < 2 ^ 32) :
    ∃ mrf1, SendMsg LABELS mrf x y d = some mrf1 ∧
      ∀ i < LABELS,
        (∀ j < LABELS, (mrf1.pix (d.nbr x y).1 (d.nbr x y).2).msg d.recv i
            ≤ cavitySum (mrf.pix x y) d i j) ∧
        (∃ j < LABELS, (mrf1.pix (d.nbr x y).1 (d.nbr x y).2).msg d.recv i
            = cavitySum (mrf.pix x y) d i j) :=
  SendMsg_cavity LABELS (by decide) mrf hwf x y d (by rcases hd with h | h | h | h <;> simp [h])
    hs ht hno

/-- C1 at `sampleGrid`, source `(0, 0)`, direction Right. -/
theorem C1_SendMsg_cavity_update_witness :
    sampleGrid.WF ∧ sampleGrid.InGrid 0 0 ∧
    (∀ i < LABELS, ∀ j < LABELS, cavitySum (sampleGrid.pix 0 0) RIGHT i j < 2 ^ 32) ∧
    ∃ mrf1, SendMsg LABELS sampleGrid 0 0 RIGHT = some mrf1 ∧
      ∀ i < LABELS,
        (∀ j < LABELS, (mrf1.pix 1 0).msg LEFT i ≤ cavitySum (sampleGrid.pix 0 0) RIGHT i j) ∧
        (∃ j < LABELS, (mrf1.pix 1 0).msg LEFT i = cavitySum (sampleGrid.pix 0 0) RIGHT i j) :=
  ⟨by unfold MRF2D.WF; decide, by unfold MRF2D.InGrid; decide, by decide,
    C1_SendMsg_cavity_update sampleGrid 0 0 RIGHT (by decide) (by unfold MRF2D.WF; decide)
      (by unfold MRF2D.InGrid; decide) (by unfold MRF2D.InGrid; decide) (by decide)⟩

/-- General form of the frame property of `SendMsg` for any number of labels. -/
theorem SendMsg_frame (L : Nat) (mrf : MRF2D) (hwf : mrf.WF) (x y : Int) (d : DIRECTION)
    (hd : d ≠ DATA) (hs : mrf.InGrid x y) (ht : mrf.InGrid (d.nbr x y).1 (d.nbr x y).2) :
    ∃ mrf1 dst dst1, SendMsg L mrf x y d = some mrf1 ∧
      mrf1.width = mrf.width ∧ mrf1.height = mrf.height ∧
      mrf1.grid.length = mrf.grid.length ∧
      mrf.get? ((d.nbr x y).2 * mrf.width + (d.nbr x y).1) = some dst ∧
      mrf1.get? ((d.nbr x y).2 * mrf.width + (d.nbr x y).1) = some dst1 ∧
      dst1.best_assignment = dst.best_assignment ∧
      (∀ i < L, dst1.msg d.recv i = SendMsg_new_msg L (mrf.pix x y) d i) ∧
      (∀ s j, s ≠ d.recv → dst1.msg s j = dst.msg s j) ∧
      (∀ k : Int, k ≠ (d.nbr x y).2 * mrf.width + (d.nbr x y).1 → mrf1.get? k = mrf.get? k) := by
  obtain ⟨hx0, hx, hy0, hy⟩ := ht
  have hb := index_bounds hx0 hx hy0 hy
  have hlt : (d.nbr x y).2 * mrf.width + (d.nbr x y).1 < (mrf.grid.length : Int) := by
    rw [hwf.2.2]; exact hb.2
  refine ⟨_, mrf.pix (d.nbr x y).1 (d.nbr x y).2,
    (mrf.pix (d.nbr x y).1 (d.nbr x y).2).setMsg L d.recv (SendMsg_new_msg L (mrf.pix x y) d),
    SendMsg_eq L mrf hwf x y d hd hs ⟨hx0, hx, hy0, hy⟩, rfl, rfl, MRF2D.set_length _ _ _,
    mrf.get?_inGrid hwf _ _ ⟨hx0, hx, hy0, hy⟩, ?_, rfl, ?_, ?_, ?_⟩
  · rw [MRF2D.get?_set _ _ _ _ hb.1 hb.1]; simp [hlt]
  · intro i hi; simp [Pixel.setMsg_msg, hi]
  · intro s j hs; simp [Pixel.setMsg_msg, hs]
  · intro k hk
    by_cases hk0 : 0 ≤ k
    · rw [MRF2D.get?_set _ _ _ _ hb.1 hk0, if_neg (Ne.symm hk)]
    · simp [MRF2D.get?, hk0]

/-- C2: under the same conditions `SendMsg` returns a grid with the same width, height
and length, in which the element at the neighbour's index has its receiving slot
(`Left` for Right, `Right` for Left, `Down` for Up, `Up` for Down) overwritten with
`new_msg`, keeps every other slot and its `best_assignment`, and every other element of
the grid is unchanged. -/
theorem C2_SendMsg_frame (mrf : MRF2D) (x y : Int) (d : DIRECTION)
    (hd : d = LEFT ∨ d = RIGHT ∨ d = UP ∨ d = DOWN)
    (hwf : mrf.WF) (hs : mrf.InGrid x y) (ht : mrf.InGrid (d.nbr x y).1 (d.nbr x y).2) :
    ∃ mrf1 dst dst1, SendMsg LABELS mrf x y d = some mrf1 ∧
      mrf1.width = mrf.width ∧ mrf1.height = mrf.height ∧
      mrf1.grid.length = mrf.grid.length ∧
      mrf.get? ((d.nbr x y).2 * mrf.width + (d.nbr x y).1) = some dst ∧
      mrf1.get? ((d.nbr x y).2 * mrf.width + (d.nbr x y).1) = some dst1 ∧
      dst1.best_assignment = dst.best_assignment ∧
      (∀ i < LABELS, dst1.msg d.recv i = SendMsg_new_msg LABELS (mrf.pix x y) d i) ∧
      (∀ s j, s ≠ d.recv → dst1.msg s j = dst.msg s j) ∧
      (∀ k : Int, k ≠ (d.nbr x y).2 * mrf.width + (d.nbr x y).1 → mrf1.get? k = mrf.get? k) :=
  SendMsg_frame LABELS mrf hwf x y d (by rcases hd with h | h | h | h <;> simp [h]) hs ht

/-- C2 at `sampleGrid`, source `(1, 1)`, direction Up. -/
theorem C2_SendMsg_frame_witness :
    sampleGrid.WF ∧ sampleGrid.InGrid 1 1 ∧ sampleGrid.InGrid 1 0 ∧
    ∃ mrf1 dst dst1, SendMsg LABELS sampleGrid 1 1 UP = some mrf1 ∧
      mrf1.width = 2 ∧ mrf1.height = 2 ∧ mrf1.grid.length = 4 ∧
      sampleGrid.get? 1 = some dst ∧ mrf1.get? 1 = some dst1 ∧
      dst1.best_assignment = dst.best_assignment ∧
      (∀ i < LABELS, dst1.msg DOWN i = SendMsg_new_msg LABELS (sampleGrid.pix 1 1) UP i) ∧
      (∀ s j, s ≠ DOWN → dst1.msg s j = dst.msg s j) ∧
      (∀ k : Int, k ≠ 1 → mrf1.get? k = sampleGrid.get? k) :=
  ⟨by unfold MRF2D.WF; decide, by unfold MRF2D.InGrid; decide, by unfold MRF2D.InGrid; decide,
    C2_SendMsg_frame sampleGrid 1 1 UP (by decide) (by unfold MRF2D.WF; decide)
      (by unfold MRF2D.InGrid; decide) (by unfold MRF2D.InGrid; decide)⟩

/-! ## The assignment phase of `MAP` -/

theorem MAP_cost_eq_u32 (p : Pixel) (j : Nat) : MAP_cost p j = u32 (decodeSum p j) := by
  simp [MAP_cost, decodeSum, u32_add_u32]

theorem MAP_cost_le_UINT_MAX (p : Pixel) (j : Nat) : MAP_cost p j ≤ UINT_MAX := by
  rw [MAP_cost_eq_u32]; exact u32_le_UINT_MAX _

theorem MAP_cost_congr (p q : Pixel) (h : q.msg = p.msg) (j : Nat) :
    MAP_cost q j = MAP_cost p j := by
  simp [MAP_cost, h]

theorem MAP_pixel_loop_append (js ks : List Nat) (st : Nat × Pixel) :
    MAP_pixel_loop (js ++ ks) st = MAP_pixel_loop ks (MAP_pixel_loop js st) := by
  simp [MAP_pixel_loop, List.foldl_append]

theorem MAP_pixel_loop_msg (js : List Nat) (st : Nat × Pixel) :
    (MAP_pixel_loop js st).2.msg = st.2.msg := by
  induction js generalizing st with
  | nil => rfl
  | cons j js ih =>
    simp only [MAP_pixel_loop, List.foldl_cons] at ih ⊢
    rw [ih]
    split <;> rfl

theorem MAP_pixel_msg (L : Nat) (p : Pixel) : (MAP_pixel L p).msg = p.msg :=
  MAP_pixel_loop_msg _ _

/-- The state of the first loop of `MAP` after the labels `0 .. n-1`, when one of them
has a cost below `UINT_MAX`: `best` is the least cost and `best_assignment` the first
label that attains it. -/
theorem MAP_pixel_loop_range (p : Pixel) (n : Nat) (h : ∃ j < n, MAP_cost p j < UINT_MAX) :
    ∃ b < n, MAP_pixel_loop (List.range n) (UINT_MAX, p)
        = (MAP_cost p b, { p with best_assignment := (b : Int) }) ∧
      MAP_cost p b < UINT_MAX ∧
      (∀ j < n, MAP_cost p b ≤ MAP_cost p j) ∧ ∀ j < b, MAP_cost p b < MAP_cost p j := by
  induction n with
  | zero => obtain ⟨j, hj, _⟩ := h; omega
  | succ n ih =>
    rw [List.range_succ, MAP_pixel_loop_append]
    by_cases hprev : ∃ j < n, MAP_cost p j < UINT_MAX
    · obtain ⟨b, hb, e, hlt, hmin, hfirst⟩ := ih hprev
      rw [e]
      by_cases hc : MAP_cost p n < MAP_cost p b
      · refine ⟨n, by omega, ?_, by omega, ?_, ?_⟩
        · have e2 : MAP_cost { p with best_assignment := (b : Int) } n = MAP_cost p n := rfl
          simp [MAP_pixel_loop, e2, hc]
        · intro j hj
          rcases Nat.lt_succ_iff_lt_or_eq.1 hj with h1 | h1
          · have := hmin j h1; omega
          · subst h1; exact le_refl _
        · intro j hj; have := hmin j hj; omega
      · refine ⟨b, by omega, ?_, hlt, ?_, hfirst⟩
        · have e2 : MAP_cost { p with best_assignment := (b : Int) } n = MAP_cost p n := rfl
          simp [MAP_pixel_loop, e2, hc]
        · intro j hj
          rcases Nat.lt_succ_iff_lt_or_eq.1 hj with h1 | h1
          · exact hmin j h1
          · subst h1; omega
    · have hall : ∀ j < n, MAP_cost p j = UINT_MAX := by
        intro j hj
        have h1 := MAP_cost_le_UINT_MAX p j
        have h2 : ¬ MAP_cost p j < UINT_MAX := fun h3 => hprev ⟨j, hj, h3⟩
        omega
      have hn : MAP_cost p n < UINT_MAX := by
        obtain ⟨j, hj, hj2⟩ := h
        rcases Nat.lt_succ_iff_lt_or_eq.1 hj with h1 | h1
        · have := hall j h1; omega
        · subst h1; exact hj2
      have e : MAP_pixel_loop (List.range n) (UINT_MAX, p) = (UINT_MAX, p) := by
        clear ih h hprev hn
        induction n with
        | zero => rfl
        | succ m ihm =>
          rw [List.range_succ, MAP_pixel_loop_append, ihm (fun j hj => hall j (by omega))]
          have := hall m (by omega)
          simp [MAP_pixel_loop, this]
      rw [e]
      refine ⟨n, by omega, ?_, hn, ?_, ?_⟩
      · simp [MAP_pixel_loop, hn]
      · intro j hj
        rcases Nat.lt_succ_iff_lt_or_eq.1 hj with h1 | h1
        · have := hall j h1; omega
        · subst h1; exact le_refl _
      · intro j hj; have := hall j hj; omega

/-- When every label costs `UINT_MAX`, the first loop of `MAP` leaves the pixel as it is. -/
theorem MAP_pixel_loop_saturated (p : Pixel) (n : Nat) (h : ∀ j < n, MAP_cost p j = UINT_MAX) :
    MAP_pixel_loop (List.range n) (UINT_MAX, p) = (UINT_MAX, p) := by
  induction n with
  | zero => rfl
  | succ m ihm =>
    rw [List.range_succ, MAP_pixel_loop_append, ihm (fun j hj => h j (by omega))]
    have := h m (by omega)
    simp [MAP_pixel_loop, this]

/-- The decoded label of a pixel at which no five-slot sum reaches `UINT_MAX`. -/
theorem MAP_pixel_argmin (L : Nat) (hL : 0 < L) (p : Pixel)
    (h : ∀ j < L, decodeSum p j < 4294967295) :
    ∃ b < L, (MAP_pixel L p).best_assignment = (b : Int) ∧
      (∀ j < L, decodeSum p b ≤ decodeSum p j) ∧ ∀ j < b, decodeSum p b < decodeSum p j := by
  have hc : ∀ j < L, MAP_cost p j = decodeSum p j := fun j hj => by
    rw [MAP_cost_eq_u32, u32_of_lt (by have := h j hj; omega)]
  obtain ⟨b, hb, e, _, hmin, hfirst⟩ :=
    MAP_pixel_loop_range p L ⟨0, hL, by rw [hc 0 hL]; exact h 0 hL⟩
  refine ⟨b, hb, by simp [MAP_pixel, e], ?_, ?_⟩
  · intro j hj; rw [← hc b hb, ← hc j hj]; exact hmin j hj
  · intro j hj; rw [← hc b hb, ← hc j (by omega)]; exact hfirst j hj

/-- The decoded label lies in `[0, L)` when the prior one does or some label costs less
than `UINT_MAX`. -/
theorem MAP_pixel_range (L : Nat) (p : Pixel)
    (h : (0 ≤ p.best_assignment ∧ p.best_assignment < L) ∨ ∃ j < L, MAP_cost p j < UINT_MAX) :
    0 ≤ (MAP_pixel L p).best_assignment ∧ (MAP_pixel L p).best_assignment < L := by
  by_cases hex : ∃ j < L, MAP_cost p j < UINT_MAX
  · obtain ⟨b, hb, e, _⟩ := MAP_pixel_loop_range p L hex
    simp only [MAP_pixel, e]
    omega
  · rcases h with h | h
    · have hall : ∀ j < L, MAP_cost p j = UINT_MAX := by
        intro j hj
        have h1 := MAP_cost_le_UINT_MAX p j
        have h2 : ¬ MAP_cost p j < UINT_MAX := fun h3 => hex ⟨j, hj, h3⟩
        omega
      simp only [MAP_pixel, MAP_pixel_loop_saturated p L hall]
      exact h
    · exact absurd h hex

/-! ## The energy phase of `MAP` -/

theorem MRF2D.pix_mem (mrf : MRF2D) (hwf : mrf.WF) (x y : Int) (h : mrf.InGrid x y) :
    mrf.pix x y ∈ mrf.grid := by
  have h1 := mrf.get?_inGrid hwf x y h
  unfold MRF2D.get? at h1
  split at h1
  · exact List.getElem?_mem h1
  · cases h1

theorem MAP_smooth_eq (mrf : MRF2D) (hwf : mrf.WF) (c : Prop) [Decidable c] (cur : Int)
    (x y : Int) (idx : Int) (hidx : idx = y * mrf.width + x) (h : c → mrf.InGrid x y)
    (energy : Nat) :
    MAP_smooth mrf (decide c) cur idx energy
      = some (if c then u32 (energy + SmoothnessCost cur (mrf.label x y)) else energy) := by
  unfold MAP_smooth
  by_cases hc : c
  · simp only [hc, decide_True, if_true, hidx, mrf.get?_inGrid hwf x y (h hc), MRF2D.label]
  · simp [hc]

theorem u32_u32 (a : Nat) : u32 (u32 a) = u32 a := by
  unfold u32; omega

theorem MAP_energy_step_eq (L : Nat) (mrf : MRF2D) (hwf : mrf.WF) (hlab : mrf.LabelsIn L)
    (x y : Nat) (hx : (x : Int) < mrf.width) (hy : (y : Int) < mrf.height) (energy : Nat) :
    MAP_energy_step L mrf x y energy = some (u32 (energy + pixelEnergy mrf x y)) := by
  have hin : mrf.InGrid x y := ⟨by omega, hx, by omega, hy⟩
  have hl := hlab _ (mrf.pix_mem hwf x y hin)
  unfold MAP_energy_step
  simp only [mrf.get?_inGrid hwf x y hin, Option.bind_eq_bind, Option.some_bind, Pixel.data?, hl,
    and_self, if_true]
  rw [MAP_smooth_eq mrf hwf _ _ ((x : Int) - 1) y _ (by ring)
      (fun h => ⟨by omega, by omega, by omega, hy⟩)]
  simp only [Option.some_bind]
  rw [MAP_smooth_eq mrf hwf _ _ ((x : Int) + 1) y _ (by ring)
      (fun h => ⟨by omega, by omega, by omega, hy⟩)]
  simp only [Option.some_bind]
  rw [MAP_smooth_eq mrf hwf _ _ (x : Int) ((y : Int) - 1) _ rfl
      (fun h => ⟨by omega, hx, by omega, by omega⟩)]
  simp only [Option.some_bind]
  rw [MAP_smooth_eq mrf hwf _ _ (x : Int) ((y : Int) + 1) _ rfl
      (fun h => ⟨by omega, hx, by omega, by omega⟩)]
  simp only [Option.some_bind, pure, pixelEnergy, MRF2D.label]
  have c1 : ((x : Int) - 1 ≥ 0) = (1 ≤ x) := by apply propext; omega
  have c2 : ((y : Int) - 1 ≥ 0) = (1 ≤ y) := by apply propext; omega
  simp only [c1, c2]
  congr 1
  split_ifs <;> simp only [u32_add_u32, u32_u32, add_zero, add_assoc]

theorem SmoothnessCost_comm (i j : Int) : SmoothnessCost i j = SmoothnessCost j i := by
  unfold SmoothnessCost
  have : (i - j).natAbs = (j - i).natAbs := by omega
  simp only [this]

theorem foldlM_range_u32 (f : Nat → Nat → Option Nat) (t : Nat → Nat) (n : Nat)
    (h : ∀ x < n, ∀ e, e < 4294967296 → f e x = some (u32 (e + t x)))
    (e : Nat) (he : e < 4294967296) :
    (List.range n).foldlM f e = some (u32 (e + ∑ x ∈ Finset.range n, t x)) := by
  induction n with
  | zero => simp [u32_of_lt he]
  | succ n ih =>
    rw [List.range_succ, List.foldlM_append, ih (fun x hx => h x (by omega))]
    simp only [Option.bind_eq_bind, Option.some_bind, List.foldlM_cons, List.foldlM_nil]
    rw [h n (by omega) _ (u32_lt _), u32_add_u32, Finset.sum_range_succ]
    simp [add_assoc]

theorem sum_range_if_one_le (g : Nat → Nat) (n : Nat) :
    ∑ x ∈ Finset.range n, (if 1 ≤ x then g x else 0) = ∑ x ∈ Finset.range (n - 1), g (x + 1) := by
  cases n with
  | zero => simp
  | succ m =>
    rw [Finset.sum_range_succ']
    simp

theorem sum_range_if_succ_lt (g : Nat → Nat) (n : Nat) :
    ∑ x ∈ Finset.range n, (if x + 1 < n then g x else 0) = ∑ x ∈ Finset.range (n - 1), g x := by
  cases n with
  | zero => simp
  | succ m =>
    rw [Finset.sum_range_succ]
    simp only [lt_self_iff_false, if_false, add_zero, Nat.add_sub_cancel]
    apply Finset.sum_congr rfl
    intro x hx
    have := Finset.mem_range.1 hx
    simp [this]

/-- The directed-edge sum of the energy loop counts every undirected edge twice. -/
theorem sum_pixelEnergy (mrf : MRF2D) (hW : 0 ≤ mrf.width) (hH : 0 ≤ mrf.height) :
    ∑ y ∈ Finset.range mrf.height.toNat, ∑ x ∈ Finset.range mrf.width.toNat, pixelEnergy mrf x y
      = dataEnergy mrf + 2 * edgeEnergy mrf := by
  have cW : ∀ x : Nat, ((x : Int) + 1 < mrf.width) = (x + 1 < mrf.width.toNat) := fun x => by
    apply propext; omega
  have cH : ∀ y : Nat, ((y : Int) + 1 < mrf.height) = (y + 1 < mrf.height.toNat) := fun y => by
    apply propext; omega
  unfold pixelEnergy dataEnergy edgeEnergy
  simp only [Finset.sum_add_distrib, cW, cH]
  have hl : ∀ y : Nat, ∑ x ∈ Finset.range mrf.width.toNat,
      (if 1 ≤ x then SmoothnessCost (mrf.label x y) (mrf.label ((x : Int) - 1) y) else 0)
      = ∑ x ∈ Finset.range (mrf.width.toNat - 1),
        SmoothnessCost (mrf.label x y) (mrf.label ((x : Int) + 1) y) := by
    intro y
    rw [sum_range_if_one_le (fun x => SmoothnessCost (mrf.label x y) (mrf.label ((x : Int) - 1) y))]
    apply Finset.sum_congr rfl
    intro x _
    rw [SmoothnessCost_comm]
    simp
  have hr : ∀ y : Nat, ∑ x ∈ Finset.range mrf.width.toNat,
      (if x + 1 < mrf.width.toNat then
        SmoothnessCost (mrf.label x y) (mrf.label ((x : Int) + 1) y) else 0)
      = ∑ x ∈ Finset.range (mrf.width.toNat - 1),
        SmoothnessCost (mrf.label x y) (mrf.label ((x : Int) + 1) y) := fun y =>
    sum_range_if_succ_lt _ _
  have hu : ∑ y ∈ Finset.range mrf.height.toNat, ∑ x ∈ Finset.range mrf.width.toNat,
      (if 1 ≤ y then SmoothnessCost (mrf.label x y) (mrf.label x ((y : Int) - 1)) else 0)
      = ∑ y ∈ Finset.range (mrf.height.toNat - 1), ∑ x ∈ Finset.range mrf.width.toNat,
        SmoothnessCost (mrf.label x y) (mrf.label x ((y : Int) + 1)) := by
    have e : ∀ y : Nat, ∑ x ∈ Finset.range mrf.width.toNat,
        (if 1 ≤ y then SmoothnessCost (mrf.label x y) (mrf.label x ((y : Int) - 1)) else 0)
        = if 1 ≤ y then ∑ x ∈ Finset.range mrf.width.toNat,
          SmoothnessCost (mrf.label x y) (mrf.label x ((y : Int) - 1)) else 0 := by
      intro y; split_ifs <;> simp
    simp only [e]
    rw [sum_range_if_one_le (fun y => ∑ x ∈ Finset.range mrf.width.toNat,
      SmoothnessCost (mrf.label x y) (mrf.label x ((y : Int) - 1)))]
    apply Finset.sum_congr rfl
    intro y _
    apply Finset.sum_congr rfl
    intro x _
    rw [SmoothnessCost_comm]
    simp
  have hd : ∑ y ∈ Finset.range mrf.height.toNat, ∑ x ∈ Finset.range mrf.width.toNat,
      (if y + 1 < mrf.height.toNat then
        SmoothnessCost (mrf.label x y) (mrf.label x ((y : Int) + 1)) else 0)
      = ∑ y ∈ Finset.range (mrf.height.toNat - 1), ∑ x ∈ Finset.range mrf.width.toNat,
        SmoothnessCost (mrf.label x y) (mrf.label x ((y : Int) + 1)) := by
    have e : ∀ y : Nat, ∑ x ∈ Finset.range mrf.width.toNat,
        (if y + 1 < mrf.height.toNat then
          SmoothnessCost (mrf.label x y) (mrf.label x ((y : Int) + 1)) else 0)
        = if y + 1 < mrf.height.toNat then ∑ x ∈ Finset.range mrf.width.toNat,
          SmoothnessCost (mrf.label x y) (mrf.label x ((y : Int) + 1)) else 0 := by
      intro y; split_ifs <;> simp
    simp only [e]
    exact sum_range_if_succ_lt _ _
  simp only [hl, hr]
  rw [hu, hd]
  ring

/-- The energy phase of `MAP` returns on a `W*H` grid with labels in range: its result is
the sum of the per-pixel contributions modulo `2^32`. -/
theorem MAP_energy_eq (L : Nat) (mrf : MRF2D) (hwf : mrf.WF) (hlab : mrf.LabelsIn L) :
    MAP_energy L mrf = some (u32 (dataEnergy mrf + 2 * edgeEnergy mrf)) := by
  unfold MAP_energy
  rw [foldlM_range_u32 _
    (fun y => ∑ x ∈ Finset.range mrf.width.toNat, pixelEnergy mrf x y) _ _ 0 (by norm_num)]
  · rw [Nat.zero_add, sum_pixelEnergy mrf hwf.1 hwf.2.1]
  · intro y hy e he
    apply foldlM_range_u32 _ _ _ _ e he
    intro x hx e2 _
    exact MAP_energy_step_eq L mrf hwf hlab x y (by omega) (by omega) e2

/-! ## The decoder `MAP` -/

theorem MAP_assign_WF (L : Nat) (mrf : MRF2D) (h : mrf.WF) : (MAP_assign L mrf).WF := by
  unfold MRF2D.WF MAP_assign at *
  simpa using h

theorem MAP_eq (L : Nat) (mrf : MRF2D) (hwf : mrf.WF) (hlab : (MAP_assign L mrf).LabelsIn L) :
    MAP L mrf = some (MAP_assign L mrf,
      u32 (dataEnergy (MAP_assign L mrf) + 2 * edgeEnergy (MAP_assign L mrf))) := by
  unfold MAP
  simp only [MAP_energy_eq L _ (MAP_assign_WF L mrf hwf) hlab]

theorem MAP_fst (L : Nat) (mrf m1 : MRF2D) (e : Nat) (h : MAP L mrf = some (m1, e)) :
    m1 = MAP_assign L mrf := by
  unfold MAP at h
  cases he : MAP_energy L (MAP_assign L mrf) with
  | none => simp [he] at h
  | some e1 =>
    simp only [he, Option.some.injEq, Prod.mk.injEq] at h
    exact h.1.symm

/-- C3: on a grid in which every five-slot sum is below `2^32 - 1`, the grid after `MAP`
is the grid after its assignment phase (and `MAP` returns when the grid is `W*H`); there the
`best_assignment` of every element is a label `b < 16` whose five-slot sum is least among
all labels and strictly less than that of every smaller label. -/
theorem C3_MAP_argmin (mrf : MRF2D)
    (h : ∀ p ∈ mrf.grid, ∀ j < LABELS, decodeSum p j < 2 ^ 32 - 1) :
    (mrf.WF → ∃ e, MAP LABELS mrf = some (MAP_assign LABELS mrf, e)) ∧
    (∀ m1 e, MAP LABELS mrf = some (m1, e) → m1 = MAP_assign LABELS mrf) ∧
    (MAP_assign LABELS mrf).grid.length = mrf.grid.length ∧
    ∀ (k : Nat) (p : Pixel), mrf.grid[k]? = some p →
      ∃ (q : Pixel) (b : Nat), (MAP_assign LABELS mrf).grid[k]? = some q ∧ q.best_assignment = (b : Int) ∧
        b < LABELS ∧ (∀ j < LABELS, decodeSum p b ≤ decodeSum p j) ∧
        ∀ j < b, decodeSum p b < decodeSum p j := by
  refine ⟨fun hwf => ⟨_, MAP_eq LABELS mrf hwf ?_⟩, fun m1 e he => MAP_fst _ _ _ _ he, ?_, ?_⟩
  · intro q hq
    simp only [MAP_assign, List.mem_map] at hq
    obtain ⟨p, hp, rfl⟩ := hq
    obtain ⟨b, hb, e, _⟩ := MAP_pixel_argmin LABELS (by decide) p (h p hp)
    rw [e]; omega
  · simp [MAP_assign]
  · intro k p hk
    obtain ⟨b, hb, e, h1, h2⟩ := MAP_pixel_argmin LABELS (by decide) p (h p (List.getElem?_mem hk))
    exact ⟨MAP_pixel LABELS p, b, by simp [MAP_assign, hk], e, hb, h1, h2⟩

set_option maxRecDepth 100000 in
/-- C3 at `sampleGrid`. -/
theorem C3_MAP_argmin_witness :
    (∀ p ∈ sampleGrid.grid, ∀ j < LABELS, decodeSum p j < 2 ^ 32 - 1) ∧ sampleGrid.WF ∧
    (∃ e, MAP LABELS sampleGrid = some (MAP_assign LABELS sampleGrid, e)) ∧
    ∀ (k : Nat) (p : Pixel), sampleGrid.grid[k]? = some p →
      ∃ (q : Pixel) (b : Nat), (MAP_assign LABELS sampleGrid).grid[k]? = some q ∧ q.best_assignment = (b : Int) ∧
        b < LABELS ∧ (∀ j < LABELS, decodeSum p b ≤ decodeSum p j) ∧
        ∀ j < b, decodeSum p b < decodeSum p j :=
  ⟨by decide, by unfold MRF2D.WF; decide,
    (C3_MAP_argmin sampleGrid (by decide)).1 (by unfold MRF2D.WF; decide),
    (C3_MAP_argmin sampleGrid (by decide)).2.2.2⟩

set_option maxRecDepth 100000 in
/-- C4 (counterexample): on the `1 x 1` grid whose only pixel has decode cost `UINT_MAX` at
every label and prior `best_assignment = 99`, the assignment phase of `MAP` leaves
`best_assignment = 99`, outside `[0, 16)`, and the energy phase then reads
`msg[DATA][99]`, outside the array, so `MAP` has no defined result. -/
theorem C4_MAP_saturated_label_out_of_range :
    saturatedGrid.WF ∧
    (∀ p ∈ saturatedGrid.grid, ∀ s, ∀ j < LABELS, p.msg s j < 2 ^ 32) ∧
    (MAP_assign LABELS saturatedGrid).grid.map Pixel.best_assignment = [99] ∧
    ¬ (MAP_assign LABELS saturatedGrid).LabelsIn LABELS ∧
    (MAP LABELS saturatedGrid).isNone = true := by
  refine ⟨by unfold MRF2D.WF; decide, ?_, by decide, ?_, by decide⟩
  · intro p hp s j _
    simp only [saturatedGrid, List.mem_singleton] at hp
    subst hp
    cases s <;> simp [saturatedPixel]
  · unfold MRF2D.LabelsIn; decide

/-- C5: on a `W*H` grid on which `MAP` assigns every pixel a label in `[0, 16)`, `MAP`
returns, and the returned energy is, modulo `2^32`, the sum over all pixels of
`msg[Data][best_assignment]` plus twice the sum of `SmoothnessCost` over the undirected
4-neighbour edges. -/
theorem C5_MAP_energy (mrf : MRF2D) (hwf : mrf.WF)
    (hlab : (MAP_assign LABELS mrf).LabelsIn LABELS) :
    ∃ e, MAP LABELS mrf = some (MAP_assign LABELS mrf, e) ∧
      e = (dataEnergy (MAP_assign LABELS mrf) + 2 * edgeEnergy (MAP_assign LABELS mrf)) % 2 ^ 32 :=
  ⟨_, MAP_eq LABELS mrf hwf hlab, rfl⟩

set_option maxRecDepth 100000 in
/-- C5 at `sampleGrid`. -/
theorem C5_MAP_energy_witness :
    sampleGrid.WF ∧ (MAP_assign LABELS sampleGrid).LabelsIn LABELS ∧
    ∃ e, MAP LABELS sampleGrid = some (MAP_assign LABELS sampleGrid, e) ∧
      e = (dataEnergy (MAP_assign LABELS sampleGrid)
            + 2 * edgeEnergy (MAP_assign LABELS sampleGrid)) % 2 ^ 32 :=
  ⟨by unfold MRF2D.WF; decide, by unfold MRF2D.LabelsIn; decide,
    C5_MAP_energy sampleGrid (by unfold MRF2D.WF; decide) (by unfold MRF2D.LabelsIn; decide)⟩

/-! ## Loops -/

theorem mem_intRange (lo hi k : Int) : k ∈ intRange lo hi ↔ lo ≤ k ∧ k < hi := by
  unfold intRange
  simp only [List.mem_map, List.mem_range]
  constructor
  · rintro ⟨n, hn, rfl⟩; omega
  · intro h; exact ⟨(k - lo).toNat, by omega, by omega⟩

theorem foldlM_flatMap {α β γ : Type} (f : β → α → Option β) (g : γ → List α) (ys : List γ)
    (b : β) :
    ys.foldlM (fun b y => (g y).foldlM f b) b = (ys.flatMap g).foldlM f b := by
  induction ys generalizing b with
  | nil => rfl
  | cons y ys ih =>
    rw [List.foldlM_cons, List.flatMap_cons, List.foldlM_append]
    cases h : (g y).foldlM f b with
    | none => rfl
    | some b1 => simp only [Option.bind_eq_bind, Option.some_bind, ih]

/-! ## Stores -/

theorem MRF2D.storeMsg_eq (L : Nat) (mrf : MRF2D) (hwf : mrf.WF) (x y : Int)
    (h : mrf.InGrid x y) (s : DIRECTION) (v : Nat → Nat) :
    mrf.storeMsg L (y * mrf.width + x) s v
      = some (mrf.set (y * mrf.width + x) ((mrf.pix x y).setMsg L s v)) := by
  unfold MRF2D.storeMsg
  simp only [mrf.get?_inGrid hwf x y h]

theorem MRF2D.set_InGrid (mrf : MRF2D) (idx : Int) (p : Pixel) (x y : Int) :
    (mrf.set idx p).InGrid x y ↔ mrf.InGrid x y := Iff.rfl

/-- A loop of stores whose slot and values depend on the coordinate only. -/
theorem foldlM_storeMsg (L : Nat) (s : DIRECTION) (val : Int → Int → Nat → Nat)
    (cs : List (Int × Int)) (mrf : MRF2D) (hwf : mrf.WF)
    (hcs : ∀ c ∈ cs, mrf.InGrid c.1 c.2) :
    ∃ m1, cs.foldlM (fun (m : MRF2D) (c : Int × Int) =>
          m.storeMsg L (c.2 * mrf.width + c.1) s (val c.1 c.2)) mrf = some m1 ∧
      m1.width = mrf.width ∧ m1.height = mrf.height ∧ m1.WF ∧
      ∀ x y, mrf.InGrid x y →
        (m1.pix x y).best_assignment = (mrf.pix x y).best_assignment ∧
        ∀ t l, (m1.pix x y).msg t l
          = if (x, y) ∈ cs ∧ t = s ∧ l < L then val x y l else (mrf.pix x y).msg t l := by
  induction cs generalizing mrf with
  | nil => exact ⟨mrf, rfl, rfl, rfl, hwf, fun x y _ => ⟨rfl, fun t l => by simp⟩⟩
  | cons c cs ih =>
    have hc := hcs c (List.mem_cons_self _ _)
    have hstep := mrf.storeMsg_eq L hwf c.1 c.2 hc s (val c.1 c.2)
    obtain ⟨m1, h1, hw, hh, hwf1, hpix⟩ := ih (mrf.set (c.2 * mrf.width + c.1)
      ((mrf.pix c.1 c.2).setMsg L s (val c.1 c.2))) (MRF2D.set_WF _ _ _ hwf)
      (fun d hd => hcs d (List.mem_cons_of_mem _ hd))
    refine ⟨m1, ?_, hw, hh, hwf1, ?_⟩
    · rw [List.foldlM_cons, hstep]
      exact h1
    · intro x y hxy
      obtain ⟨hb, hm⟩ := hpix x y hxy
      rw [MRF2D.pix_set mrf hwf _ _ _ _ _ hc hxy] at hb hm
      by_cases e : c.1 = x ∧ c.2 = y
      · obtain ⟨rfl, rfl⟩ := e
        simp only [and_self, if_true] at hb hm
        refine ⟨hb, fun t l => ?_⟩
        rw [hm]
        by_cases hts : t = s ∧ l < L
        · simp [hts, Pixel.setMsg_msg]
        · have : ¬ ((c.1, c.2) ∈ cs ∧ t = s ∧ l < L) := fun h => hts h.2
          have h2 : ¬ ((c.1, c.2) ∈ c :: cs ∧ t = s ∧ l < L) := fun h => hts h.2
          rw [if_neg this, if_neg h2]
          simp only [Pixel.setMsg_msg, hts, if_false]
      · simp only [e, if_false] at hb hm
        refine ⟨hb, fun t l => ?_⟩
        rw [hm]
        have : (x, y) ∈ c :: cs ↔ (x, y) ∈ cs := by
          rw [List.mem_cons]
          constructor
          · rintro (h | h)
            · exact absurd ⟨(congrArg Prod.fst h).symm, (congrArg Prod.snd h).symm⟩ e
            · exact h
          · exact Or.inr
        simp only [this]

/-! ## The initialiser `InitDataCost` -/

theorem resize_length (grid : List Pixel) (total : Nat) : (resize grid total).length = total := by
  simp only [resize, List.length_append, List.length_take, List.length_replicate]
  omega

/-- The grid of `InitDataCost` after the resize and the zeroing loop. -/
theorem InitDataCost_zeroed_WF (L : Nat) (W H : Nat) (grid : List Pixel) :
    MRF2D.WF { grid := (resize grid ((W : Int) * (H : Int)).toNat).map (Pixel.zeroMsg L),
               width := (W : Int), height := (H : Int) } := by
  refine ⟨by simp, by simp, ?_⟩
  simp only [List.length_map, resize_length]
  have : 0 ≤ (W : Int) * (H : Int) := by positivity
  omega

theorem InitDataCost_eq (L : Nat) (left right : Mat) (mrf0 : MRF2D)
    (hl : left.data = true) (hr : right.data = true) :
    ∃ mrf, InitDataCost L left right mrf0 = some mrf ∧
      mrf.width = (left.cols : Int) ∧ mrf.height = (left.rows : Int) ∧ mrf.WF ∧
      ∀ x y, mrf.InGrid x y → ∀ t l, l < L →
        (mrf.pix x y).msg t l
          = if Interior L left.cols left.rows x y ∧ t = DATA
              then DataCostStereo left right x y l else 0 := by
  unfold InitDataCost
  simp only [hl, hr, Bool.not_true, Bool.false_eq_true, if_false]
  have hwf0 := InitDataCost_zeroed_WF L left.cols left.rows mrf0.grid
  generalize hm0 : MRF2D.mk
      (List.map (Pixel.zeroMsg L) (resize mrf0.grid ((left.cols : Int) * (left.rows : Int)).toNat))
      (left.cols : Int) (left.rows : Int) = m0 at hwf0
  have hw0 : m0.width = (left.cols : Int) := by rw [← hm0]
  have hh0 : m0.height = (left.rows : Int) := by rw [← hm0]
  have hz : ∀ p ∈ m0.grid, ∀ t l, l < L → p.msg t l = 0 := by
    intro p hp t l hlt
    rw [← hm0] at hp
    simp only [List.mem_map] at hp
    obtain ⟨q, _, rfl⟩ := hp
    simp [Pixel.zeroMsg, hlt]
  have hflat := foldlM_flatMap
    (fun (m : MRF2D) (c : Int × Int) => m.storeMsg L (c.2 * m0.width + c.1) DATA
      (fun (i : Nat) => DataCostStereo left right c.1 c.2 (i : Int)))
    (fun (y : Int) => (intRange (L : Int) (m0.width - L)).map fun (x : Int) => (x, y))
    (intRange (L : Int) (m0.height - L)) m0
  simp only [List.foldlM_map] at hflat
  obtain ⟨m1, h1, hw1, hh1, hwf1, hpix⟩ := foldlM_storeMsg L DATA
    (fun x y (i : Nat) => DataCostStereo left right x y (i : Int))
    ((intRange (L : Int) (m0.height - L)).flatMap
      fun (y : Int) => (intRange (L : Int) (m0.width - L)).map fun (x : Int) => (x, y))
    m0 hwf0 (by
      intro c hc
      simp only [List.mem_flatMap, List.mem_map, mem_intRange] at hc
      obtain ⟨y, hy, x, hx, rfl⟩ := hc
      exact ⟨by omega, by omega, by omega, by omega⟩)
  refine ⟨m1, ?_, by rw [hw1, hw0], by rw [hh1, hh0], hwf1, ?_⟩
  · rw [← h1, ← hflat, hw0, hh0]
  · intro x y hxy t l hlt
    have hxy0 : m0.InGrid x y := by
      unfold MRF2D.InGrid at hxy ⊢
      rwa [hw1, hh1] at hxy
    rw [(hpix x y hxy0).2 t l]
    have hmem : (x, y) ∈ ((intRange (L : Int) (m0.height - L)).flatMap
        fun (y : Int) => (intRange (L : Int) (m0.width - L)).map fun (x : Int) => (x, y))
        ↔ Interior L left.cols left.rows x y := by
      simp only [List.mem_flatMap, List.mem_map, mem_intRange, Prod.mk.injEq, hw0, hh0, Interior]
      constructor
      · rintro ⟨y1, hy1, x1, hx1, rfl, rfl⟩; exact ⟨hx1.1, hx1.2, hy1.1, hy1.2⟩
      · rintro ⟨h1, h2, h3, h4⟩; exact ⟨y, ⟨h3, h4⟩, x, ⟨h1, h2⟩, rfl, rfl⟩
    simp only [hmem, hlt, and_true, hz _ (m0.pix_mem hwf0 x y hxy0) t l hlt]

/-! ## The data cost -/

theorem Mat.at_uchar_le (m : Mat) (row col : Int) : m.at_uchar row col ≤ 255 := by
  unfold Mat.at_uchar; omega

theorem DataCostStereo_sum_bounds (left right : Mat) (rds : List ((Int × Int) × (Int × Int)))
    (s : Int) :
    s ≤ rds.foldl (fun (sum : Int) rd =>
        sum + |(left.at_uchar rd.1.1 rd.1.2 : Int) - (right.at_uchar rd.2.1 rd.2.2 : Int)|) s ∧
    rds.foldl (fun (sum : Int) rd =>
        sum + |(left.at_uchar rd.1.1 rd.1.2 : Int) - (right.at_uchar rd.2.1 rd.2.2 : Int)|) s
      ≤ s + 255 * rds.length := by
  induction rds generalizing s with
  | nil => simp
  | cons rd rds ih =>
    have ha := left.at_uchar_le rd.1.1 rd.1.2
    have hb := right.at_uchar_le rd.2.1 rd.2.2
    have h1 : |(left.at_uchar rd.1.1 rd.1.2 : Int) - (right.at_uchar rd.2.1 rd.2.2 : Int)| ≤ 255 := by
      rw [abs_le]; constructor <;> omega
    have h0 : 0 ≤ |(left.at_uchar rd.1.1 rd.1.2 : Int) - (right.at_uchar rd.2.1 rd.2.2 : Int)| :=
      abs_nonneg _
    obtain ⟨l1, l2⟩ := ih (s + |(left.at_uchar rd.1.1 rd.1.2 : Int) - (right.at_uchar rd.2.1 rd.2.2 : Int)|)
    simp only [List.foldl_cons, List.length_cons, Nat.cast_add, Nat.cast_one]
    constructor <;> omega

theorem DataCostStereo_reads_length (x y label : Int) :
    (DataCostStereo_reads x y label).length = 25 := by
  simp only [DataCostStereo_reads, List.length_map]
  decide

/-- The data cost is at most 255. -/
theorem DataCostStereo_le (left right : Mat) (x y label : Int) :
    DataCostStereo left right x y label ≤ 255 := by
  unfold DataCostStereo
  obtain ⟨h1, h2⟩ := DataCostStereo_sum_bounds left right (DataCostStereo_reads x y label) 0
  rw [DataCostStereo_reads_length] at h2
  simp only [wradius]
  omega

/-- The reads of `DataCostStereo` stay inside two images of size `W x H` when the window
and the shifted window do. -/
theorem DataCostStereo_reads_inside (left right : Mat) (x y label : Int)
    (hrows : right.rows = left.rows) (hcols : right.cols = left.cols)
    (hx : 2 + label ≤ x) (hl : 0 ≤ label) (hx2 : x + 2 < left.cols)
    (hy : 2 ≤ y) (hy2 : y + 2 < left.rows) :
    ∀ rd ∈ DataCostStereo_reads x y label,
      left.Inside rd.1.1 rd.1.2 ∧ right.Inside rd.2.1 rd.2.2 := by
  intro rd hrd
  simp only [DataCostStereo_reads, DataCostStereo_offsets, List.mem_map, List.mem_flatMap,
    mem_intRange, wradius] at hrd
  obtain ⟨d, ⟨dy, hdy, dx, hdx, rfl⟩, rfl⟩ := hrd
  simp only [Mat.Inside, hrows, hcols]
  omega

/-! ## Elements and coordinates; the claims on the initialiser -/

theorem MAP_assign_pix (L : Nat) (mrf : MRF2D) (hwf : mrf.WF) (x y : Int) (h : mrf.InGrid x y) :
    (MAP_assign L mrf).pix x y = MAP_pixel L (mrf.pix x y) := by
  have h1 := mrf.get?_inGrid hwf x y h
  unfold MRF2D.pix
  unfold MRF2D.get? at h1 ⊢
  have hw : (MAP_assign L mrf).width = mrf.width := rfl
  rw [hw]
  split at h1
  · rename_i h0
    simp only [h0, if_true, MAP_assign, List.getElem?_map, h1, Option.map_some', Option.getD_some]
  · cases h1

theorem MRF2D.mem_grid_pix (mrf : MRF2D) (hwf : mrf.WF) (p : Pixel) (hp : p ∈ mrf.grid) :
    ∃ x y, mrf.InGrid x y ∧ p = mrf.pix x y := by
  obtain ⟨k, hk⟩ := List.getElem?_of_mem hp
  have hklt : k < mrf.grid.length := by
    by_contra hge
    rw [List.getElem?_eq_none (by omega)] at hk
    cases hk
  obtain ⟨hW, hH, hlen⟩ := hwf
  have hk2 : (k : Int) < mrf.width * mrf.height := by rw [← hlen]; exact_mod_cast hklt
  have hWpos : 0 < mrf.width := by
    rcases hW.lt_or_eq with h | h
    · exact h
    · rw [← h] at hk2; simp at hk2; omega
  refine ⟨(k : Int) % mrf.width, (k : Int) / mrf.width,
    ⟨Int.emod_nonneg _ (by omega), Int.emod_lt_of_pos _ hWpos,
      Int.ediv_nonneg (by omega) hW, Int.ediv_lt_of_lt_mul hWpos (by rw [mul_comm]; exact hk2)⟩, ?_⟩
  have e : (k : Int) / mrf.width * mrf.width + (k : Int) % mrf.width = k := by
    rw [mul_comm]; exact Int.ediv_add_emod _ _
  simp [MRF2D.pix, MRF2D.get?, e, hk]

/-- C6 (failing input): for a `33 x 33` image pair the pixel `(16, 16)` is inside the range
`16 <= x < W-16`, `16 <= y < H-16` and `15` is a label, yet `DataCostStereo` at
`(16, 16)` with label `15` reads the right image at row `14`, column `-1`. -/
theorem C6_DataCostStereo_reads_column_minus_one :
    Interior LABELS 33 33 16 16 ∧ (15 : Int) < LABELS ∧
    ((14, 14), (14, -1)) ∈ DataCostStereo_reads 16 16 15 ∧
    ¬ (constImage 33 33 0).Inside 14 (-1) := by
  refine ⟨by decide, by decide, by decide, ?_⟩
  unfold Mat.Inside; decide

/-- C7: for images that were loaded, `InitDataCost` returns a grid of the width and height
of the left image with exactly `W*H` elements, in which every entry of the Left, Right,
Up and Down slots is 0, the Data slot is 0 at every pixel outside `16 <= x < W-16`,
`16 <= y < H-16`, and `msg[Data][l] = DataCostStereo(left, right, x, y, l)` inside it. -/
theorem C7_InitDataCost_state (left right : Mat) (mrf0 : MRF2D)
    (hl : left.data = true) (hr : right.data = true) :
    ∃ mrf, InitDataCost LABELS left right mrf0 = some mrf ∧
      mrf.width = (left.cols : Int) ∧ mrf.height = (left.rows : Int) ∧
      mrf.grid.length = left.cols * left.rows ∧
      ∀ x y, mrf.InGrid x y → ∀ l < LABELS,
        (∀ s, s ≠ DATA → (mrf.pix x y).msg s l = 0) ∧
        (¬ Interior LABELS left.cols left.rows x y → (mrf.pix x y).msg DATA l = 0) ∧
        (Interior LABELS left.cols left.rows x y →
          (mrf.pix x y).msg DATA l = DataCostStereo left right x y l) := by
  obtain ⟨mrf, h, hw, hh, hwf, hpix⟩ := InitDataCost_eq LABELS left right mrf0 hl hr
  refine ⟨mrf, h, hw, hh, ?_, ?_⟩
  · have := hwf.2.2
    rw [hw, hh] at this
    exact_mod_cast this
  · intro x y hxy l hlt
    refine ⟨fun s hs => ?_, fun hi => ?_, fun hi => ?_⟩
    · rw [hpix x y hxy s l hlt]; simp [hs]
    · rw [hpix x y hxy DATA l hlt]; simp [hi]
    · rw [hpix x y hxy DATA l hlt]; simp [hi]

/-- C7 at a uniform `35 x 34` image pair. -/
theorem C7_InitDataCost_state_witness :
    (constImage 34 35 200).data = true ∧ (constImage 34 35 90).data = true ∧
    ∃ mrf, InitDataCost LABELS (constImage 34 35 200) (constImage 34 35 90) MRF2D.empty
        = some mrf ∧
      mrf.width = 35 ∧ mrf.height = 34 ∧ mrf.grid.length = 35 * 34 ∧
      ∀ x y, mrf.InGrid x y → ∀ l < LABELS,
        (∀ s, s ≠ DATA → (mrf.pix x y).msg s l = 0) ∧
        (¬ Interior LABELS 35 34 x y → (mrf.pix x y).msg DATA l = 0) ∧
        (Interior LABELS 35 34 x y →
          (mrf.pix x y).msg DATA l
            = DataCostStereo (constImage 34 35 200) (constImage 34 35 90) x y l) :=
  ⟨rfl, rfl, C7_InitDataCost_state (constImage 34 35 200) (constImage 34 35 90) MRF2D.empty rfl rfl⟩

set_option maxRecDepth 100000 in
/-- C8 (counterexample): a loaded `2 x 3` left image and a loaded `5 x 4` right image have
different dimensions, and `InitDataCost` returns a grid. -/
theorem C8_InitDataCost_accepts_different_sizes :
    (constImage 2 3 7).data = true ∧ (constImage 5 4 9).data = true ∧
    (constImage 2 3 7).rows ≠ (constImage 5 4 9).rows ∧
    (constImage 2 3 7).cols ≠ (constImage 5 4 9).cols ∧
    (InitDataCost LABELS (constImage 2 3 7) (constImage 5 4 9) MRF2D.empty).isSome = true := by
  decide

/-! ## The sweep `BP` -/

theorem BP_eq_BP_loop (L : Nat) (mrf : MRF2D) (d : DIRECTION) (hd : d ≠ DATA) :
    BP L mrf d = BP_loop L d (BP_coords d mrf.width mrf.height) mrf := by
  cases d
  · exact foldlM_flatMap (fun (m : MRF2D) (c : Int × Int) => SendMsg L m c.1 c.2 LEFT) _ _ _
  · exact foldlM_flatMap (fun (m : MRF2D) (c : Int × Int) => SendMsg L m c.1 c.2 RIGHT) _ _ _
  · exact foldlM_flatMap (fun (m : MRF2D) (c : Int × Int) => SendMsg L m c.1 c.2 UP) _ _ _
  · exact foldlM_flatMap (fun (m : MRF2D) (c : Int × Int) => SendMsg L m c.1 c.2 DOWN) _ _ _
  · exact absurd rfl hd

/-- Every source of a sweep and its neighbour in the sweep direction are inside the grid. -/
theorem BP_coords_inGrid (d : DIRECTION) (mrf : MRF2D) (c : Int × Int)
    (hc : c ∈ BP_coords d mrf.width mrf.height) :
    mrf.InGrid c.1 c.2 ∧ mrf.InGrid (d.nbr c.1 c.2).1 (d.nbr c.1 c.2).2 := by
  cases d <;>
    simp only [BP_coords, List.mem_flatMap, List.mem_map, List.mem_range, List.mem_reverse,
      List.not_mem_nil] at hc
  all_goals
    obtain ⟨a, ha, b, hb, rfl⟩ := hc
    simp only [MRF2D.InGrid, DIRECTION.nbr]
    omega

/-- A loop of `SendMsg` calls whose sources and neighbours are inside the grid returns;
it keeps the dimensions, every `best_assignment` and every slot other than the receiving
one, and the receiving slot of every pixel that is not a neighbour of a source. -/
theorem BP_loop_frame (L : Nat) (d : DIRECTION) (hd : d ≠ DATA) (cs : List (Int × Int))
    (mrf : MRF2D) (hwf : mrf.WF)
    (hcs : ∀ c ∈ cs, mrf.InGrid c.1 c.2 ∧ mrf.InGrid (d.nbr c.1 c.2).1 (d.nbr c.1 c.2).2) :
    ∃ m1, BP_loop L d cs mrf = some m1 ∧ m1.width = mrf.width ∧ m1.height = mrf.height ∧
      m1.WF ∧
      ∀ x y, mrf.InGrid x y →
        (m1.pix x y).best_assignment = (mrf.pix x y).best_assignment ∧
        ∀ s l, (s ≠ d.recv ∨ ∀ c ∈ cs, d.nbr c.1 c.2 ≠ (x, y)) →
          (m1.pix x y).msg s l = (mrf.pix x y).msg s l := by
  induction cs generalizing mrf with
  | nil => exact ⟨mrf, rfl, rfl, rfl, hwf, fun x y _ => ⟨rfl, fun _ _ _ => rfl⟩⟩
  | cons c cs ih =>
    obtain ⟨hc, hn⟩ := hcs c (List.mem_cons_self _ _)
    have hstep := SendMsg_eq L mrf hwf c.1 c.2 d hd hc hn
    obtain ⟨m1, h1, hw, hh, hwf1, hpix⟩ := ih _ (MRF2D.set_WF _ _ _ hwf)
      (fun e he => hcs e (List.mem_cons_of_mem _ he))
    refine ⟨m1, ?_, hw, hh, hwf1, ?_⟩
    · unfold BP_loop at h1 ⊢
      rw [List.foldlM_cons, hstep]
      exact h1
    · intro x y hxy
      obtain ⟨hb, hm⟩ := hpix x y hxy
      rw [MRF2D.pix_set mrf hwf _ _ _ _ _ hn hxy] at hb hm
      constructor
      · rw [hb]
        split
        · rename_i heq
          obtain ⟨rfl, rfl⟩ := heq
          rfl
        · rfl
      · intro s l hsl
        rw [hm s l (by
          rcases hsl with h | h
          · exact Or.inl h
          · exact Or.inr fun e he => h e (List.mem_cons_of_mem _ he))]
        split
        · rename_i heq
          rcases hsl with h | h
          · simp only [Pixel.setMsg_msg, h, false_and, if_false]
            obtain ⟨rfl, rfl⟩ := heq
            rfl
          · exact absurd (Prod.ext heq.1 heq.2) (h c (List.mem_cons_self _ _))
        · rfl

theorem DIRECTION.nbr_inj (d : DIRECTION) (x y x1 y1 : Int) (h : d.nbr x y = d.nbr x1 y1) :
    (x, y) = (x1, y1) := by
  cases d <;> simp only [DIRECTION.nbr, Prod.mk.injEq] at h ⊢ <;> omega

theorem SendMsg_p_congr (p q : Pixel) (h : ∀ s l, p.msg s l = q.msg s l) (d : DIRECTION)
    (i j : Nat) : SendMsg_p p d i j = SendMsg_p q d i j := by
  simp only [SendMsg_p, h]

theorem SendMsg_new_msg_congr (L : Nat) (p q : Pixel) (h : ∀ s l, p.msg s l = q.msg s l)
    (d : DIRECTION) (i : Nat) : SendMsg_new_msg L p d i = SendMsg_new_msg L q d i := by
  have : SendMsg_p p d i = SendMsg_p q d i := funext fun j => SendMsg_p_congr p q h d i j
  simp only [SendMsg_new_msg, this]

/-- After a loop of `SendMsg` calls in sweep order, the receiving slot of the neighbour of
every source holds the message computed from the source as it is after the loop. -/
theorem BP_loop_values (L : Nat) (d : DIRECTION) (hd : d ≠ DATA) (cs : List (Int × Int))
    (mrf : MRF2D) (hwf : mrf.WF)
    (hcs : ∀ c ∈ cs, mrf.InGrid c.1 c.2 ∧ mrf.InGrid (d.nbr c.1 c.2).1 (d.nbr c.1 c.2).2)
    (hord : SweepOrdered d cs) (m1 : MRF2D) (h1 : BP_loop L d cs mrf = some m1) :
    ∀ c ∈ cs, ∀ l < L,
      (m1.pix (d.nbr c.1 c.2).1 (d.nbr c.1 c.2).2).msg d.recv l
        = SendMsg_new_msg L (m1.pix c.1 c.2) d l := by
  induction cs generalizing mrf with
  | nil => intro c hc; cases hc
  | cons c cs ih =>
    obtain ⟨hc, hn⟩ := hcs c (List.mem_cons_self _ _)
    have hstep := SendMsg_eq L mrf hwf c.1 c.2 d hd hc hn
    have hcs1 := fun e he => hcs e (List.mem_cons_of_mem _ he)
    unfold SweepOrdered at hord
    rw [List.pairwise_cons] at hord
    unfold BP_loop at h1
    rw [List.foldlM_cons, hstep] at h1
    simp only [Option.bind_eq_bind, Option.some_bind] at h1
    obtain ⟨m2, h2, _, _, _, hpix⟩ := BP_loop_frame L d hd cs _ (MRF2D.set_WF _ _ _ hwf) hcs1
    have hm : m2 = m1 := by
      unfold BP_loop at h2
      rw [h1] at h2
      exact (Option.some.inj h2).symm
    subst hm
    intro e he l hl
    rcases List.mem_cons.1 he with rfl | he1
    · have hsrc : ∀ s k, (m2.pix e.1 e.2).msg s k = (mrf.pix e.1 e.2).msg s k := by
        intro s k
        rw [(hpix e.1 e.2 hc).2 s k (Or.inr fun c1 hc1 => (hord.1 c1 hc1).2),
          MRF2D.pix_set mrf hwf _ _ _ _ _ hn hc, if_neg (DIRECTION.nbr_ne d hd e.1 e.2)]
      rw [SendMsg_new_msg_congr L _ _ hsrc,
        (hpix _ _ hn).2 d.recv l (Or.inr fun c1 hc1 heq =>
          (hord.1 c1 hc1).1 (DIRECTION.nbr_inj d _ _ _ _ heq).symm),
        MRF2D.pix_set mrf hwf _ _ _ _ _ hn hn]
      simp [Pixel.setMsg_msg, hl]
    · exact ih _ (MRF2D.set_WF _ _ _ hwf) hcs1 hord.2 h1 e he1 l hl

theorem BP_coords_ordered (d : DIRECTION) (W H : Int) : SweepOrdered d (BP_coords d W H) := by
  unfold SweepOrdered
  cases d <;> simp only [BP_coords, List.Pairwise.nil]
  all_goals
    rw [List.pairwise_flatMap]
    refine ⟨fun a _ => ?_, ?_⟩
    · first
        | (rw [List.pairwise_map]
           refine (List.pairwise_lt_range _).imp ?_
           intro b1 b2 hlt
           simp only [DIRECTION.nbr, ne_eq, Prod.mk.injEq]
           omega)
        | (rw [List.pairwise_map, List.pairwise_reverse]
           refine (List.pairwise_lt_range _).imp ?_
           intro b1 b2 hlt
           simp only [DIRECTION.nbr, ne_eq, Prod.mk.injEq]
           omega)
    · refine (List.pairwise_lt_range _).imp ?_
      intro a1 a2 hlt c hc c1 hc1
      simp only [List.mem_map, List.mem_range, List.mem_reverse] at hc hc1
      obtain ⟨b, _, rfl⟩ := hc
      obtain ⟨b1, _, rfl⟩ := hc1
      simp only [DIRECTION.nbr, ne_eq, Prod.mk.injEq]
      omega

/-- The sweep `BP(d)` on a `W*H` grid returns; the result has the same dimensions and
labels, differs from the input only in receiving slots of neighbours of sources, and the
receiving slot of each such neighbour holds the message computed from its source as it is
after the sweep. -/
theorem BP_spec (L : Nat) (mrf : MRF2D) (d : DIRECTION) (hd : d ≠ DATA) (hwf : mrf.WF) :
    ∃ m1, BP L mrf d = some m1 ∧ m1.width = mrf.width ∧ m1.height = mrf.height ∧ m1.WF ∧
      (∀ x y, mrf.InGrid x y →
        (m1.pix x y).best_assignment = (mrf.pix x y).best_assignment ∧
        ∀ s l, (s ≠ d.recv ∨ ∀ c ∈ BP_coords d mrf.width mrf.height, d.nbr c.1 c.2 ≠ (x, y)) →
          (m1.pix x y).msg s l = (mrf.pix x y).msg s l) ∧
      ∀ c ∈ BP_coords d mrf.width mrf.height, ∀ l < L,
        (m1.pix (d.nbr c.1 c.2).1 (d.nbr c.1 c.2).2).msg d.recv l
          = SendMsg_new_msg L (m1.pix c.1 c.2) d l := by
  obtain ⟨m1, h1, hw, hh, hwf1, hpix⟩ := BP_loop_frame L d hd (BP_coords d mrf.width mrf.height)
    mrf hwf (fun c hc => BP_coords_inGrid d mrf c hc)
  refine ⟨m1, by rw [BP_eq_BP_loop L mrf d hd, h1], hw, hh, hwf1, hpix, ?_⟩
  exact BP_loop_values L d hd _ mrf hwf (fun c hc => BP_coords_inGrid d mrf c hc)
    (BP_coords_ordered d _ _) m1 h1

/-! ## Bounds of one message -/

theorem SmoothnessCost_self (i : Int) : SmoothnessCost i i = 0 := by
  simp [SmoothnessCost]

theorem SendMsg_new_msg_le_UINT_MAX (L : Nat) (src : Pixel) (d : DIRECTION) (i : Nat) :
    SendMsg_new_msg L src d i ≤ UINT_MAX :=
  foldl_min_le_init _ _ _

/-! ## Iterations of the four sweeps -/

/-- One iteration of the four sweeps on a `W*H` grid returns; it keeps the dimensions, the
labels and the Data slots, and the Left slots are those after the Right sweep. -/
theorem BP_sweeps_spec (L : Nat) (mrf : MRF2D) (hwf : mrf.WF) :
    ∃ m1 m2 m3 m4, BP L mrf RIGHT = some m1 ∧ BP L m1 LEFT = some m2 ∧ BP L m2 UP = some m3 ∧
      BP L m3 DOWN = some m4 ∧ BP_sweeps L mrf = some m4 ∧
      m4.width = mrf.width ∧ m4.height = mrf.height ∧ m4.WF ∧
      (∀ x y, mrf.InGrid x y →
        (m4.pix x y).best_assignment = (mrf.pix x y).best_assignment ∧
        (∀ l, (m4.pix x y).msg DATA l = (mrf.pix x y).msg DATA l) ∧
        (∀ l, (m4.pix x y).msg LEFT l = (m1.pix x y).msg LEFT l)) := by
  obtain ⟨m1, h1, hw1, hh1, hwf1, hp1, _⟩ := BP_spec L mrf RIGHT (by decide) hwf
  obtain ⟨m2, h2, hw2, hh2, hwf2, hp2, _⟩ := BP_spec L m1 LEFT (by decide) hwf1
  obtain ⟨m3, h3, hw3, hh3, hwf3, hp3, _⟩ := BP_spec L m2 UP (by decide) hwf2
  obtain ⟨m4, h4, hw4, hh4, hwf4, hp4, _⟩ := BP_spec L m3 DOWN (by decide) hwf3
  have g1 : ∀ x y, mrf.InGrid x y → m1.InGrid x y := fun x y h => by
    unfold MRF2D.InGrid at h ⊢; rwa [hw1, hh1]
  have g2 : ∀ x y, mrf.InGrid x y → m2.InGrid x y := fun x y h => by
    have := g1 x y h
    unfold MRF2D.InGrid at this ⊢; rwa [hw2, hh2]
  have g3 : ∀ x y, mrf.InGrid x y → m3.InGrid x y := fun x y h => by
    have := g2 x y h
    unfold MRF2D.InGrid at this ⊢; rwa [hw3, hh3]
  refine ⟨m1, m2, m3, m4, h1, h2, h3, h4, ?_, by rw [hw4, hw3, hw2, hw1],
    by rw [hh4, hh3, hh2, hh1], hwf4, ?_⟩
  · simp [BP_sweeps, h1, h2, h3, h4]
  · intro x y hxy
    refine ⟨?_, fun l => ?_, fun l => ?_⟩
    · rw [(hp4 x y (g3 x y hxy)).1, (hp3 x y (g2 x y hxy)).1, (hp2 x y (g1 x y hxy)).1,
        (hp1 x y hxy).1]
    · rw [(hp4 x y (g3 x y hxy)).2 DATA l (Or.inl (by decide)),
        (hp3 x y (g2 x y hxy)).2 DATA l (Or.inl (by decide)),
        (hp2 x y (g1 x y hxy)).2 DATA l (Or.inl (by decide)),
        (hp1 x y hxy).2 DATA l (Or.inl (by decide))]
    · rw [(hp4 x y (g3 x y hxy)).2 LEFT l (Or.inl (by decide)),
        (hp3 x y (g2 x y hxy)).2 LEFT l (Or.inl (by decide)),
        (hp2 x y (g1 x y hxy)).2 LEFT l (Or.inl (by decide))]

/-- The message passing of `k` iterations on a `W*H` grid returns; it keeps the dimensions,
the labels and the Data slots. -/
theorem BP_iterations_spec (L : Nat) (k : Nat) (mrf : MRF2D) (hwf : mrf.WF) :
    ∃ m1, BP_iterations L k mrf = some m1 ∧
      m1.width = mrf.width ∧ m1.height = mrf.height ∧ m1.WF ∧
      (∀ x y, mrf.InGrid x y →
        (m1.pix x y).best_assignment = (mrf.pix x y).best_assignment ∧
        ∀ l, (m1.pix x y).msg DATA l = (mrf.pix x y).msg DATA l) := by
  induction k generalizing mrf with
  | zero =>
    exact ⟨mrf, rfl, rfl, rfl, hwf, fun x y _ => ⟨rfl, fun _ => rfl⟩⟩
  | succ k ih =>
    obtain ⟨_, _, _, m4, _, _, _, _, hs, hw, hh, hwf4, hp⟩ := BP_sweeps_spec L mrf hwf
    obtain ⟨m5, h5, hw5, hh5, hwf5, hp5⟩ := ih m4 hwf4
    refine ⟨m5, by simp only [BP_iterations, hs, h5], by rw [hw5, hw], by rw [hh5, hh], hwf5, ?_⟩
    intro x y hxy
    have hxy4 : m4.InGrid x y := by unfold MRF2D.InGrid at hxy ⊢; rwa [hw, hh]
    exact ⟨by rw [(hp5 x y hxy4).1, (hp x y hxy).1],
      fun l => by rw [(hp5 x y hxy4).2 l, (hp x y hxy).2.1 l]⟩

/-! ## Uniform images -/

theorem foldl_add_const {α : Type} (a : Int) (l : List α) (s : Int) :
    l.foldl (fun (sum : Int) _ => sum + a) s = s + a * l.length := by
  induction l generalizing s with
  | nil => simp
  | cons x l ih => rw [List.foldl_cons, ih, List.length_cons]; push_cast; ring

/-- On two uniform images the data cost is the absolute difference of the two bytes. -/
theorem DataCostStereo_constImage (r c v r1 c1 w : Nat) (x y label : Int) :
    DataCostStereo (constImage r c v) (constImage r1 c1 w) x y label
      = ((v % 256 : Int) - (w % 256 : Int)).natAbs := by
  unfold DataCostStereo
  simp only [Mat.at_uchar, constImage]
  have := foldl_add_const (|((v % 256 : Nat) : Int) - ((w % 256 : Nat) : Int)|)
    (DataCostStereo_reads x y label) 0
  rw [this, DataCostStereo_reads_length]
  simp only [wradius]
  push_cast
  have h0 : 0 ≤ |((v : Int) % 256) - ((w : Int) % 256)| := abs_nonneg _
  have e : (0 + |((v : Int) % 256) - ((w : Int) % 256)| * 25) / 25
      = |((v : Int) % 256) - ((w : Int) % 256)| := by omega
  rw [e, Int.abs_eq_natAbs]
  exact Int.toNat_natCast _

theorem SmoothnessCost_le (i j : Int) : SmoothnessCost i j ≤ 40 := by
  have : min (i - j).natAbs 2 ≤ 2 := min_le_right _ _
  simp only [SmoothnessCost, LAMBDA, SMOOTHNESS_TRUNC]
  omega

/-- When the cavity cost without the smoothness term is the same `K` at every source label,
the message is `K` at every label. -/
theorem SendMsg_new_msg_const (L : Nat) (src : Pixel) (d : DIRECTION) (hd : d ≠ DATA) (K : Nat)
    (hK : K + 40 < 4294967296)
    (h : ∀ j < L, src.msg DATA j + ((otherSlots d).map fun s => src.msg s j).sum = K)
    (i : Nat) (hi : i < L) : SendMsg_new_msg L src d i = K := by
  have hp : ∀ j < L, SendMsg_p src d i j = SmoothnessCost i j + K := by
    intro j hj
    have hs := SmoothnessCost_le i j
    have e : cavitySum src d i j = SmoothnessCost i j + K := by
      unfold cavitySum; rw [← h j hj]; ring
    rw [SendMsg_p_of_lt src d hd i j (by rw [e]; omega), e]
  apply le_antisymm
  · have := SendMsg_new_msg_le L src d i i hi
    rwa [hp i hi, SmoothnessCost_self, Nat.zero_add] at this
  · obtain ⟨j, hj, e⟩ := SendMsg_new_msg_attained L (by omega) src d i
    rw [e, hp j hj]; omega

/-! ## Accumulation along a sweep -/

/-- For the `34 x 33` image pair with every left byte 255 and every right byte 0, after one
iteration entry 0 of the Left message of pixel `(18, 16)` is 510, which exceeds
`1 * (LAMBDA*SMOOTHNESS_TRUNC + 255) = 295`. -/
theorem message_510_after_one_iteration :
    ∃ mrf mrf1, InitDataCost LABELS (constImage 33 34 255) (constImage 33 34 0) MRF2D.empty
        = some mrf ∧
      BP_iterations LABELS 1 mrf = some mrf1 ∧ mrf1.InGrid 18 16 ∧
      (mrf1.pix 18 16).msg LEFT 0 = 510 ∧
      ¬ (mrf1.pix 18 16).msg LEFT 0 ≤ 1 * (LAMBDA * SMOOTHNESS_TRUNC + 255) := by
  obtain ⟨mrf, h, hw, hh, hwf, hpix⟩ := InitDataCost_eq LABELS (constImage 33 34 255)
    (constImage 33 34 0) MRF2D.empty rfl rfl
  have hW : mrf.width = 34 := hw
  have hH : mrf.height = 33 := hh
  obtain ⟨m1, m2, m3, m4, h1, _, _, _, hs, hw4, hh4, _, hp4⟩ := BP_sweeps_spec LABELS mrf hwf
  obtain ⟨m1b, h1b, hw1, hh1, hwf1, hfr, hval⟩ := BP_spec LABELS mrf RIGHT (by decide) hwf
  rw [h1] at h1b
  obtain rfl := Option.some.inj h1b
  -- the initial state on row 16
  have hin : ∀ x : Nat, x < 34 → mrf.InGrid x 16 := fun x hx => by
    unfold MRF2D.InGrid; rw [hW, hH]; omega
  have hdata : ∀ x : Nat, x < 34 → ∀ l < LABELS,
      (mrf.pix x 16).msg DATA l = if 16 ≤ x ∧ x < 18 then 255 else 0 := by
    intro x hx l hl
    rw [hpix x 16 (hin x hx) DATA l hl, DataCostStereo_constImage]
    have e : Interior LABELS (constImage 33 34 255).cols (constImage 33 34 255).rows x 16
        ↔ (16 ≤ x ∧ x < 18) := by
      simp only [Interior, constImage, LABELS]; omega
    simp only [e, and_true]
    rfl
  have hzero : ∀ x : Nat, x < 34 → ∀ s, s ≠ DATA → ∀ l < LABELS, (mrf.pix x 16).msg s l = 0 := by
    intro x hx s hs l hl
    rw [hpix x 16 (hin x hx) s l hl]; simp [hs]
  -- the state after the Right sweep on row 16
  have hkeep : ∀ x : Nat, x < 34 → ∀ s, s ≠ LEFT → ∀ l,
      (m1.pix x 16).msg s l = (mrf.pix x 16).msg s l := fun x hx s hs l =>
    (hfr x 16 (hin x hx)).2 s l (Or.inl hs)
  have hmem : ∀ x : Nat, x < 33 → ((x : Int), (16 : Int)) ∈ BP_coords RIGHT mrf.width mrf.height := by
    intro x hx
    rw [hW, hH]
    simp only [BP_coords, List.mem_flatMap, List.mem_map, List.mem_range]
    exact ⟨16, by decide, x, by simpa using hx, rfl⟩
  have hsend : ∀ x : Nat, x < 33 → ∀ K, K + 40 < 4294967296 →
      (∀ l < LABELS, (m1.pix x 16).msg DATA l + (m1.pix x 16).msg LEFT l = K) →
      ∀ l < LABELS, (m1.pix ((x : Int) + 1) 16).msg LEFT l = K := by
    intro x hx K hK hsum l hl
    have := hval _ (hmem x hx) l hl
    simp only [DIRECTION.nbr, DIRECTION.recv] at this
    rw [this]
    refine SendMsg_new_msg_const LABELS _ RIGHT (by decide) K hK (fun j hj => ?_) l hl
    have e : otherSlots RIGHT = [LEFT, UP, DOWN] := by decide
    rw [e]
    simp only [List.map_cons, List.map_nil, List.sum_cons, List.sum_nil]
    rw [hkeep x (by omega) UP (by decide), hkeep x (by omega) DOWN (by decide),
      hzero x (by omega) UP (by decide) j hj, hzero x (by omega) DOWN (by decide) j hj]
    have := hsum j hj
    omega
  have hleft0 : ∀ x : Nat, x ≤ 16 → ∀ l < LABELS, (m1.pix x 16).msg LEFT l = 0 := by
    intro x
    induction x with
    | zero =>
      intro _ l hl
      have := (hfr 0 16 (hin 0 (by decide))).2 LEFT l (Or.inr (by
        intro c hc
        have hc2 := (BP_coords_inGrid RIGHT mrf c hc).1
        simp only [DIRECTION.nbr, ne_eq, Prod.mk.injEq]
        unfold MRF2D.InGrid at hc2
        omega))
      rw [Nat.cast_zero, this]
      exact hzero 0 (by decide) LEFT (by decide) l hl
    | succ x ih =>
      intro hx l hl
      have := hsend x (by omega) 0 (by norm_num) (fun j hj => by
        rw [hkeep x (by omega) DATA (by decide), hdata x (by omega) j hj, ih (by omega) j hj]
        have : ¬ (16 ≤ x ∧ x < 18) := by omega
        simp [this]) l hl
      rw [Nat.cast_succ]
      exact this
  have hleft17 : ∀ l < LABELS, (m1.pix 17 16).msg LEFT l = 255 := by
    intro l hl
    exact hsend 16 (by decide) 255 (by norm_num) (fun j hj => by
      rw [hkeep 16 (by decide) DATA (by decide), hdata 16 (by decide) j hj,
        hleft0 16 (le_refl _) j hj]
      rfl) l hl
  have hleft18 : ∀ l < LABELS, (m1.pix 18 16).msg LEFT l = 510 := by
    intro l hl
    exact hsend 17 (by decide) 510 (by norm_num) (fun j hj => by
      rw [hkeep 17 (by decide) DATA (by decide), hdata 17 (by decide) j hj]
      have := hleft17 j hj
      simp only [Nat.cast_ofNat] at this ⊢
      rw [this]
      rfl) l hl
  have hfin : (m4.pix 18 16).msg LEFT 0 = 510 := by
    rw [(hp4 18 16 (hin 18 (by decide))).2.2 0]
    exact hleft18 0 (by decide)
  refine ⟨mrf, m4, h, by simp only [BP_iterations, hs], ?_, hfin, ?_⟩
  · unfold MRF2D.InGrid; rw [hw4, hh4, hW, hH]; decide
  · rw [hfin]; decide

/-! ## Decoding the initial state -/

/-- C10: `MAP` applied to the grid `InitDataCost` produces returns; it decodes every pixel
with `16 <= x < W-16`, `16 <= y < H-16` as the smallest label minimising
`DataCostStereo(left, right, x, y, l)` and every other pixel as label 0. -/
theorem C10_MAP_after_InitDataCost (left right : Mat) (mrf0 : MRF2D)
    (hl : left.data = true) (hr : right.data = true) :
    ∃ mrf mrf1 energy, InitDataCost LABELS left right mrf0 = some mrf ∧
      MAP LABELS mrf = some (mrf1, energy) ∧
      ∀ x y, mrf.InGrid x y →
        (Interior LABELS left.cols left.rows x y →
          ∃ b : Nat, (mrf1.pix x y).best_assignment = (b : Int) ∧ b < LABELS ∧
            (∀ l < LABELS, DataCostStereo left right x y b ≤ DataCostStereo left right x y l) ∧
            ∀ l < b, DataCostStereo left right x y b < DataCostStereo left right x y l) ∧
        (¬ Interior LABELS left.cols left.rows x y → (mrf1.pix x y).best_assignment = 0) := by
  obtain ⟨mrf, h, hw, hh, hwf, hpix⟩ := InitDataCost_eq LABELS left right mrf0 hl hr
  have hsum : ∀ x y, mrf.InGrid x y → ∀ l < LABELS, decodeSum (mrf.pix x y) l
      = if Interior LABELS left.cols left.rows x y then DataCostStereo left right x y l else 0 := by
    intro x y hxy l hlt
    simp only [decodeSum, hpix x y hxy _ l hlt, reduceCtorEq, and_false, if_false, and_true,
      Nat.zero_add]
  have hlt : ∀ x y, mrf.InGrid x y → ∀ l < LABELS, decodeSum (mrf.pix x y) l < 4294967295 := by
    intro x y hxy l hl
    rw [hsum x y hxy l hl]
    have := DataCostStereo_le left right x y l
    split <;> omega
  have hall : ∀ p ∈ mrf.grid, ∀ j < LABELS, decodeSum p j < 4294967295 := by
    intro p hp j hj
    obtain ⟨x, y, hxy, rfl⟩ := mrf.mem_grid_pix hwf p hp
    exact hlt x y hxy j hj
  have hlab : (MAP_assign LABELS mrf).LabelsIn LABELS := by
    intro q hq
    simp only [MAP_assign, List.mem_map] at hq
    obtain ⟨p, hp, rfl⟩ := hq
    obtain ⟨b, hb, e, _⟩ := MAP_pixel_argmin LABELS (by decide) p (hall p hp)
    rw [e]; omega
  refine ⟨mrf, _, _, h, MAP_eq LABELS mrf hwf hlab, ?_⟩
  intro x y hxy
  rw [MAP_assign_pix LABELS mrf hwf x y hxy]
  obtain ⟨b, hb, e, hmin, hfirst⟩ :=
    MAP_pixel_argmin LABELS (by decide) (mrf.pix x y) (hlt x y hxy)
  constructor
  · intro hi
    refine ⟨b, e, hb, fun l hl => ?_, fun l hl => ?_⟩
    · have := hmin l hl
      rwa [hsum x y hxy b hb, hsum x y hxy l hl, if_pos hi, if_pos hi] at this
    · have := hfirst l hl
      rwa [hsum x y hxy b hb, hsum x y hxy l (by omega), if_pos hi, if_pos hi] at this
  · intro hi
    rw [e]
    by_contra hb0
    have hbpos : 0 < b := by
      rcases Nat.eq_zero_or_pos b with h0 | h0
      · rw [h0] at hb0; exact absurd rfl hb0
      · exact h0
    have := hfirst 0 hbpos
    rw [hsum x y hxy b hb, hsum x y hxy 0 (by decide), if_neg hi, if_neg hi] at this
    exact absurd this (by decide)

/-- C10 at a uniform `35 x 34` image pair. -/
theorem C10_MAP_after_InitDataCost_witness :
    (constImage 34 35 200).data = true ∧ (constImage 34 35 90).data = true ∧
    ∃ mrf mrf1 energy,
      InitDataCost LABELS (constImage 34 35 200) (constImage 34 35 90) MRF2D.empty = some mrf ∧
      MAP LABELS mrf = some (mrf1, energy) ∧
      ∀ x y, mrf.InGrid x y →
        (Interior LABELS 35 34 x y →
          ∃ b : Nat, (mrf1.pix x y).best_assignment = (b : Int) ∧ b < LABELS ∧
            (∀ l < LABELS, DataCostStereo (constImage 34 35 200) (constImage 34 35 90) x y b
              ≤ DataCostStereo (constImage 34 35 200) (constImage 34 35 90) x y l) ∧
            ∀ l < b, DataCostStereo (constImage 34 35 200) (constImage 34 35 90) x y b
              < DataCostStereo (constImage 34 35 200) (constImage 34 35 90) x y l) ∧
        (¬ Interior LABELS 35 34 x y → (mrf1.pix x y).best_assignment = 0) :=
  ⟨rfl, rfl,
    C10_MAP_after_InitDataCost (constImage 34 35 200) (constImage 34 35 90) MRF2D.empty rfl rfl⟩

/-! ## The cost functions -/

theorem DataCostStereo_offsets_eq : DataCostStereo_offsets =
    [(-2, -2), (-2, -1), (-2, 0), (-2, 1), (-2, 2),
     (-1, -2), (-1, -1), (-1, 0), (-1, 1), (-1, 2),
     (0, -2), (0, -1), (0, 0), (0, 1), (0, 2),
     (1, -2), (1, -1), (1, 0), (1, 1), (1, 2),
     (2, -2), (2, -1), (2, 0), (2, 1), (2, 2)] := by
  decide

theorem Icc_neg_two_two : Finset.Icc (-2 : Int) 2 = {-2, -1, 0, 1, 2} := by
  decide

theorem foldl_add_abs {α : Type} (f : α → Int) (l : List α) (s : Int) :
    l.foldl (fun (sum : Int) a => sum + |f a|) s = s + ((l.map fun a => (f a).natAbs).sum : Nat) := by
  induction l generalizing s with
  | nil => simp
  | cons a l ih =>
    rw [List.foldl_cons, ih, List.map_cons, List.sum_cons, Int.abs_eq_natAbs]
    push_cast
    ring

/-- The data cost is the quotient by 25 of the window sum of absolute differences. -/
theorem DataCostStereo_eq_windowSAD (left right : Mat) (x y l : Int) :
    DataCostStereo left right x y l = windowSAD left right x y l / 25 := by
  unfold DataCostStereo
  have h := foldl_add_abs (fun (rd : (Int × Int) × (Int × Int)) =>
    (left.at_uchar rd.1.1 rd.1.2 : Int) - (right.at_uchar rd.2.1 rd.2.2 : Int))
    (DataCostStereo_reads x y l) 0
  simp only at h ⊢
  rw [h]
  have e : ((DataCostStereo_reads x y l).map fun rd =>
      ((left.at_uchar rd.1.1 rd.1.2 : Int) - (right.at_uchar rd.2.1 rd.2.2 : Int)).natAbs).sum
      = windowSAD left right x y l := by
    unfold windowSAD
    rw [Icc_neg_two_two]
    simp only [DataCostStereo_reads, DataCostStereo_offsets_eq, List.map_cons, List.map_nil,
      List.sum_cons, List.sum_nil]
    simp [Finset.sum_insert, add_assoc]
  rw [e]
  simp only [wradius]
  omega

/-- C11: for all integers `i, j, i1, j1`, in particular for labels in `[0, 16)`,
`SmoothnessCost(i, j) = 20 * min(|i - j|, 2)`; it is symmetric, zero on the diagonal, at
most 40, and monotone in `|i - j|`. -/
theorem C11_SmoothnessCost_properties (i j i1 j1 : Int) :
    SmoothnessCost i j = 20 * min (i - j).natAbs 2 ∧
    (SmoothnessCost i j : Int) = 20 * min |i - j| 2 ∧
    SmoothnessCost i j = SmoothnessCost j i ∧
    SmoothnessCost i i = 0 ∧
    SmoothnessCost i j ≤ 40 ∧
    (|i - j| ≤ |i1 - j1| → SmoothnessCost i j ≤ SmoothnessCost i1 j1) := by
  refine ⟨rfl, ?_, SmoothnessCost_comm i j, SmoothnessCost_self i, SmoothnessCost_le i j, ?_⟩
  · simp only [SmoothnessCost, LAMBDA, SMOOTHNESS_TRUNC]
    rw [Int.abs_eq_natAbs]
    push_cast
    rfl
  · intro h
    rw [Int.abs_eq_natAbs, Int.abs_eq_natAbs] at h
    have h2 : (i - j).natAbs ≤ (i1 - j1).natAbs := by exact_mod_cast h
    simp only [SmoothnessCost, LAMBDA, SMOOTHNESS_TRUNC]
    have := min_le_min_right 2 h2
    omega

/-- C11 at the labels `3, 7` and `0, 15`. -/
theorem C11_SmoothnessCost_properties_witness :
    SmoothnessCost 3 7 = 20 * min ((3 : Int) - 7).natAbs 2 ∧
    (SmoothnessCost 3 7 : Int) = 20 * min |(3 : Int) - 7| 2 ∧
    SmoothnessCost 3 7 = SmoothnessCost 7 3 ∧
    SmoothnessCost 3 3 = 0 ∧
    SmoothnessCost 3 7 ≤ 40 ∧
    (|(3 : Int) - 7| ≤ |(0 : Int) - 15| → SmoothnessCost 3 7 ≤ SmoothnessCost 0 15) :=
  C11_SmoothnessCost_properties 3 7 0 15

/-- C12: when the 5 x 5 window around `(x, y)` lies inside the left image and the window
around `(x - l, y)` inside the right image, every read of `DataCostStereo` is inside its
image, the result is the integer quotient by 25 of the sum over the 25 window offsets of
`|left(x+dx, y+dy) - right(x+dx-l, y+dy)|`, and it is at most 255. -/
theorem C12_DataCostStereo_value (left right : Mat) (x y l : Int)
    (hleft : 2 ≤ x ∧ x + 2 < left.cols ∧ 2 ≤ y ∧ y + 2 < left.rows)
    (hright : 2 ≤ x - l ∧ x - l + 2 < right.cols ∧ 2 ≤ y ∧ y + 2 < right.rows) :
    (∀ rd ∈ DataCostStereo_reads x y l,
      left.Inside rd.1.1 rd.1.2 ∧ right.Inside rd.2.1 rd.2.2) ∧
    DataCostStereo left right x y l = windowSAD left right x y l / 25 ∧
    DataCostStereo left right x y l ≤ 255 := by
  refine ⟨?_, DataCostStereo_eq_windowSAD left right x y l, DataCostStereo_le left right x y l⟩
  intro rd hrd
  simp only [DataCostStereo_reads, DataCostStereo_offsets, List.mem_map, List.mem_flatMap,
    mem_intRange, wradius] at hrd
  obtain ⟨d, ⟨dy, hdy, dx, hdx, rfl⟩, rfl⟩ := hrd
  simp only [Mat.Inside]
  omega

/-- C12 at a uniform `40 x 40` pair, pixel `(20, 18)` and label `7`. -/
theorem C12_DataCostStereo_value_witness :
    (∀ rd ∈ DataCostStereo_reads 20 18 7,
      (constImage 40 40 200).Inside rd.1.1 rd.1.2 ∧ (constImage 40 40 90).Inside rd.2.1 rd.2.2) ∧
    DataCostStereo (constImage 40 40 200) (constImage 40 40 90) 20 18 7
      = windowSAD (constImage 40 40 200) (constImage 40 40 90) 20 18 7 / 25 ∧
    DataCostStereo (constImage 40 40 200) (constImage 40 40 90) 20 18 7 ≤ 255 :=
  C12_DataCostStereo_value (constImage 40 40 200) (constImage 40 40 90) 20 18 7
    (by decide) (by decide)

/-! ## Invariants of the pixels under the sweeps -/

/-- A property of pixels that every update keeps holds for every pixel after a loop of
`SendMsg` calls. -/
theorem BP_loop_preserves (L : Nat) (d : DIRECTION) (hd : d ≠ DATA) (P : Pixel → Prop)
    (hstep : ∀ src dst, P src → P dst → P (dst.setMsg L d.recv (SendMsg_new_msg L src d)))
    (cs : List (Int × Int)) (mrf : MRF2D) (hwf : mrf.WF)
    (hcs : ∀ c ∈ cs, mrf.InGrid c.1 c.2 ∧ mrf.InGrid (d.nbr c.1 c.2).1 (d.nbr c.1 c.2).2)
    (hP : ∀ x y, mrf.InGrid x y → P (mrf.pix x y))
    (m1 : MRF2D) (h1 : BP_loop L d cs mrf = some m1) :
    ∀ x y, mrf.InGrid x y → P (m1.pix x y) := by
  induction cs generalizing mrf with
  | nil =>
    unfold BP_loop at h1
    simp only [List.foldlM_nil, pure, Option.some.injEq] at h1
    subst h1
    exact hP
  | cons c cs ih =>
    obtain ⟨hc, hn⟩ := hcs c (List.mem_cons_self _ _)
    have hstep1 := SendMsg_eq L mrf hwf c.1 c.2 d hd hc hn
    unfold BP_loop at h1
    rw [List.foldlM_cons, hstep1] at h1
    simp only [Option.bind_eq_bind, Option.some_bind] at h1
    refine ih (mrf.set ((d.nbr c.1 c.2).2 * mrf.width + (d.nbr c.1 c.2).1)
      ((mrf.pix (d.nbr c.1 c.2).1 (d.nbr c.1 c.2).2).setMsg L d.recv
        (SendMsg_new_msg L (mrf.pix c.1 c.2) d))) (MRF2D.set_WF _ _ _ hwf)
      (fun e he => hcs e (List.mem_cons_of_mem _ he)) ?_ h1
    intro x y hxy
    rw [MRF2D.pix_set mrf hwf _ _ _ _ _ hn hxy]
    split
    · exact hstep _ _ (hP _ _ hc) (hP _ _ hn)
    · exact hP x y hxy

theorem BP_preserves (L : Nat) (mrf : MRF2D) (d : DIRECTION) (hd : d ≠ DATA) (hwf : mrf.WF)
    (P : Pixel → Prop)
    (hstep : ∀ src dst, P src → P dst → P (dst.setMsg L d.recv (SendMsg_new_msg L src d)))
    (hP : ∀ x y, mrf.InGrid x y → P (mrf.pix x y))
    (m1 : MRF2D) (h1 : BP L mrf d = some m1) :
    ∀ x y, mrf.InGrid x y → P (m1.pix x y) := by
  rw [BP_eq_BP_loop L mrf d hd] at h1
  exact BP_loop_preserves L d hd P hstep _ mrf hwf (fun c hc => BP_coords_inGrid d mrf c hc)
    hP m1 h1

/-- A property of pixels that every update keeps holds for every pixel after the message
passing of `k` iterations, which returns on a `W*H` grid. -/
theorem BP_iterations_preserves (L : Nat) (P : Pixel → Prop)
    (hstep : ∀ d, d ≠ DATA → ∀ src dst, P src → P dst →
      P (dst.setMsg L d.recv (SendMsg_new_msg L src d)))
    (k : Nat) (mrf : MRF2D) (hwf : mrf.WF) (hP : ∀ x y, mrf.InGrid x y → P (mrf.pix x y)) :
    ∃ mk, BP_iterations L k mrf = some mk ∧ mk.width = mrf.width ∧ mk.height = mrf.height ∧
      mk.WF ∧ ∀ x y, mrf.InGrid x y → P (mk.pix x y) := by
  induction k generalizing mrf with
  | zero => exact ⟨mrf, rfl, rfl, rfl, hwf, hP⟩
  | succ k ih =>
    obtain ⟨m1, h1, hw1, hh1, hwf1, _, _⟩ := BP_spec L mrf RIGHT (by decide) hwf
    obtain ⟨m2, h2, hw2, hh2, hwf2, _, _⟩ := BP_spec L m1 LEFT (by decide) hwf1
    obtain ⟨m3, h3, hw3, hh3, hwf3, _, _⟩ := BP_spec L m2 UP (by decide) hwf2
    obtain ⟨m4, h4, hw4, hh4, hwf4, _, _⟩ := BP_spec L m3 DOWN (by decide) hwf3
    have g1 : ∀ x y, m1.InGrid x y ↔ mrf.InGrid x y := fun x y => by
      unfold MRF2D.InGrid; rw [hw1, hh1]
    have g2 : ∀ x y, m2.InGrid x y ↔ m1.InGrid x y := fun x y => by
      unfold MRF2D.InGrid; rw [hw2, hh2]
    have g3 : ∀ x y, m3.InGrid x y ↔ m2.InGrid x y := fun x y => by
      unfold MRF2D.InGrid; rw [hw3, hh3]
    have g4 : ∀ x y, m4.InGrid x y ↔ m3.InGrid x y := fun x y => by
      unfold MRF2D.InGrid; rw [hw4, hh4]
    have p1 := BP_preserves L mrf RIGHT (by decide) hwf P (hstep RIGHT (by decide)) hP m1 h1
    have p2 := BP_preserves L m1 LEFT (by decide) hwf1 P (hstep LEFT (by decide))
      (fun x y h => p1 x y ((g1 x y).1 h)) m2 h2
    have p3 := BP_preserves L m2 UP (by decide) hwf2 P (hstep UP (by decide))
      (fun x y h => p2 x y ((g2 x y).1 h)) m3 h3
    have p4 := BP_preserves L m3 DOWN (by decide) hwf3 P (hstep DOWN (by decide))
      (fun x y h => p3 x y ((g3 x y).1 h)) m4 h4
    obtain ⟨mk, hk, hwk, hhk, hwfk, pk⟩ := ih m4 hwf4 (fun x y h => p4 x y ((g4 x y).1 h))
    have hs : BP_sweeps L mrf = some m4 := by simp [BP_sweeps, h1, h2, h3, h4]
    refine ⟨mk, by simp only [BP_iterations, hs, hk], by rw [hwk, hw4, hw3, hw2, hw1],
      by rw [hhk, hh4, hh3, hh2, hh1], hwfk, ?_⟩
    intro x y hxy
    exact pk x y ((g4 x y).2 ((g3 x y).2 ((g2 x y).2 ((g1 x y).2 hxy))))

/-! ## Identical uniform images -/

theorem DataCostStereo_eq_zero (left right : Mat) (x y l : Int)
    (h : ∀ rd ∈ DataCostStereo_reads x y l,
      left.at_uchar rd.1.1 rd.1.2 = right.at_uchar rd.2.1 rd.2.2) :
    DataCostStereo left right x y l = 0 := by
  unfold DataCostStereo
  have e : ∀ (rds : List ((Int × Int) × (Int × Int))) (s : Int),
      (∀ rd ∈ rds, left.at_uchar rd.1.1 rd.1.2 = right.at_uchar rd.2.1 rd.2.2) →
      rds.foldl (fun (sum : Int) rd =>
        sum + |(left.at_uchar rd.1.1 rd.1.2 : Int) - (right.at_uchar rd.2.1 rd.2.2 : Int)|) s
        = s := by
    intro rds
    induction rds with
    | nil => intro s _; rfl
    | cons rd rds ih =>
      intro s hs
      rw [List.foldl_cons, hs rd (List.mem_cons_self _ _), sub_self, abs_zero, add_zero]
      exact ih s (fun r hr => hs r (List.mem_cons_of_mem _ hr))
  simp only at e ⊢
  rw [e _ 0 h]
  simp [wradius]

/-- For two identical uniform images the data cost is 0 wherever the window and the shifted
window lie inside the images. -/
theorem DataCostStereo_uniform (left right : Mat) (v : Nat)
    (hrows : right.rows = left.rows) (hcols : right.cols = left.cols)
    (hul : left.Uniform v) (hur : right.Uniform v) (x y l : Int)
    (hx : 2 + l ≤ x) (hl : 0 ≤ l) (hx2 : x + 2 < left.cols)
    (hy : 2 ≤ y) (hy2 : y + 2 < left.rows) :
    DataCostStereo left right x y l = 0 := by
  apply DataCostStereo_eq_zero
  intro rd hrd
  obtain ⟨h1, h2⟩ := DataCostStereo_reads_inside left right x y l hrows hcols hx hl hx2 hy hy2
    rd hrd
  simp only [Mat.at_uchar, hul _ _ h1, hur _ _ h2]

/-! ## Grids in which label 0 costs nothing -/

theorem SendMsg_new_msg_zero (L : Nat) (hL : 0 < L) (src : Pixel) (d : DIRECTION)
    (hd : d ≠ DATA) (h : ∀ s, src.msg s 0 = 0) : SendMsg_new_msg L src d 0 = 0 := by
  have h1 := SendMsg_new_msg_le L src d 0 0 hL
  rw [SendMsg_p_eq_u32 src d hd] at h1
  have h2 := u32_le (cavitySum src d 0 0)
  have h3 : cavitySum src d 0 0 = 0 := by
    cases d <;> first
      | exact absurd rfl hd
      | simp [cavitySum, otherSlots, h, SmoothnessCost_self]
  omega

theorem setMsg_zero_at_zero (L : Nat) (hL : 0 < L) (d : DIRECTION) (hd : d ≠ DATA)
    (src dst : Pixel) (hs : ∀ s, src.msg s 0 = 0) (ht : ∀ s, dst.msg s 0 = 0) :
    ∀ s, (dst.setMsg L d.recv (SendMsg_new_msg L src d)).msg s 0 = 0 := by
  intro s
  rw [Pixel.setMsg_msg]
  split
  · exact SendMsg_new_msg_zero L hL src d hd hs
  · exact ht s

theorem MAP_pixel_zero (L : Nat) (hL : 0 < L) (p : Pixel) (h : ∀ s, p.msg s 0 = 0) :
    (MAP_pixel L p).best_assignment = 0 := by
  have hc : MAP_cost p 0 = 0 := by
    rw [MAP_cost_eq_u32]
    simp [decodeSum, h, u32]
  obtain ⟨b, hb, e, _, hmin, hfirst⟩ :=
    MAP_pixel_loop_range p L ⟨0, hL, by rw [hc]; decide⟩
  have hb0 : b = 0 := by
    by_contra hne
    have := hfirst 0 (Nat.pos_of_ne_zero hne)
    omega
  simp [MAP_pixel, e, hb0]

/-- The energy sums vanish when every label is 0 and the data cost of label 0 is 0. -/
theorem energy_zero (m : MRF2D)
    (h : ∀ x y, m.InGrid x y →
      (m.pix x y).best_assignment = 0 ∧ (m.pix x y).msg DATA 0 = 0) :
    dataEnergy m = 0 ∧ edgeEnergy m = 0 := by
  constructor
  · unfold dataEnergy
    refine Finset.sum_eq_zero fun y hy => Finset.sum_eq_zero fun x hx => ?_
    have hin : m.InGrid x y := by
      have := Finset.mem_range.1 hy
      have := Finset.mem_range.1 hx
      unfold MRF2D.InGrid; omega
    simp only [MRF2D.label, (h x y hin).1, Int.toNat_zero, (h x y hin).2]
  · unfold edgeEnergy
    have e1 : ∑ y ∈ Finset.range m.height.toNat, ∑ x ∈ Finset.range (m.width.toNat - 1),
        SmoothnessCost (m.label x y) (m.label ((x : Int) + 1) y) = 0 := by
      refine Finset.sum_eq_zero fun y hy => Finset.sum_eq_zero fun x hx => ?_
      have := Finset.mem_range.1 hy
      have := Finset.mem_range.1 hx
      have hin : m.InGrid x y := by unfold MRF2D.InGrid; omega
      have hin2 : m.InGrid ((x : Int) + 1) y := by unfold MRF2D.InGrid; omega
      simp only [MRF2D.label, (h _ _ hin).1, (h _ _ hin2).1, SmoothnessCost_self]
    have e2 : ∑ y ∈ Finset.range (m.height.toNat - 1), ∑ x ∈ Finset.range m.width.toNat,
        SmoothnessCost (m.label x y) (m.label x ((y : Int) + 1)) = 0 := by
      refine Finset.sum_eq_zero fun y hy => Finset.sum_eq_zero fun x hx => ?_
      have := Finset.mem_range.1 hy
      have := Finset.mem_range.1 hx
      have hin : m.InGrid x y := by unfold MRF2D.InGrid; omega
      have hin2 : m.InGrid x ((y : Int) + 1) := by unfold MRF2D.InGrid; omega
      simp only [MRF2D.label, (h _ _ hin).1, (h _ _ hin2).1, SmoothnessCost_self]
    rw [e1, e2]

/-- On a `W*H` grid in which every slot is 0 at label 0, `MAP` returns energy 0 and assigns
label 0 to every element. -/
theorem MAP_zero_at_zero (L : Nat) (hL : 0 < L) (mrf : MRF2D) (hwf : mrf.WF)
    (h : ∀ x y, mrf.InGrid x y → ∀ s, (mrf.pix x y).msg s 0 = 0) :
    MAP L mrf = some (MAP_assign L mrf, 0) ∧
      ∀ p ∈ (MAP_assign L mrf).grid, p.best_assignment = 0 := by
  have hall : ∀ p ∈ (MAP_assign L mrf).grid, p.best_assignment = 0 := by
    intro q hq
    simp only [MAP_assign, List.mem_map] at hq
    obtain ⟨p, hp, rfl⟩ := hq
    obtain ⟨x, y, hxy, rfl⟩ := mrf.mem_grid_pix hwf p hp
    exact MAP_pixel_zero L hL _ (h x y hxy)
  have hlab : (MAP_assign L mrf).LabelsIn L := by
    intro q hq
    rw [hall q hq]
    exact ⟨le_refl _, by exact_mod_cast hL⟩
  have hz := energy_zero (MAP_assign L mrf) (by
    intro x y hxy
    rw [MAP_assign_pix L mrf hwf x y hxy]
    exact ⟨MAP_pixel_zero L hL _ (h x y hxy), by rw [MAP_pixel_msg]; exact h x y hxy DATA⟩)
  refine ⟨?_, hall⟩
  rw [MAP_eq L mrf hwf hlab, hz.1, hz.2]
  rfl

/-- C14 (amended): for two identical uniform images, at every pixel with `16 <= x < W-16`,
`16 <= y < H-16` the data cost is 0 at label 0 and at every label `l >= 0` with
`l + 2 <= x`, that is, wherever the shifted window lies inside the right image. -/
theorem C14_uniform_data_cost_zero (left right : Mat) (v : Nat)
    (hrows : right.rows = left.rows) (hcols : right.cols = left.cols)
    (hul : left.Uniform v) (hur : right.Uniform v) (x y : Int)
    (hint : Interior LABELS left.cols left.rows x y) :
    DataCostStereo left right x y 0 = 0 ∧
    ∀ l : Int, 0 ≤ l → l + 2 ≤ x → DataCostStereo left right x y l = 0 := by
  simp only [Interior, LABELS] at hint
  refine ⟨DataCostStereo_uniform left right v hrows hcols hul hur x y 0 (by omega) (by omega)
    (by omega) (by omega) (by omega), fun l h0 hl => ?_⟩
  exact DataCostStereo_uniform left right v hrows hcols hul hur x y l (by omega) h0
    (by omega) (by omega) (by omega)

/-- C14 (amended) at the uniform `40 x 40` pair of gray value 100 and the pixel `(16, 16)`. -/
theorem C14_uniform_data_cost_zero_witness :
    (constImage 40 40 100).Uniform 100 ∧ Interior LABELS 40 40 16 16 ∧
    DataCostStereo (constImage 40 40 100) (constImage 40 40 100) 16 16 0 = 0 ∧
    ∀ l : Int, 0 ≤ l → l + 2 ≤ 16 →
      DataCostStereo (constImage 40 40 100) (constImage 40 40 100) 16 16 l = 0 :=
  ⟨fun _ _ _ => rfl, by decide,
    C14_uniform_data_cost_zero (constImage 40 40 100) (constImage 40 40 100) 100 rfl rfl
      (fun _ _ _ => rfl) (fun _ _ _ => rfl) 16 16 (by decide)⟩

set_option maxRecDepth 100000 in
/-- C14 (counterexample): for the uniform `40 x 40` pair of gray value 100, the pixel
`(16, 16)` is interior and the data cost at label 1 is 0, not positive. -/
theorem C14_uniform_cost_not_positive :
    (constImage 40 40 100).Uniform 100 ∧ Interior LABELS 40 40 16 16 ∧
    DataCostStereo (constImage 40 40 100) (constImage 40 40 100) 16 16 1 = 0 ∧
    ¬ 0 < DataCostStereo (constImage 40 40 100) (constImage 40 40 100) 16 16 1 :=
  ⟨fun _ _ _ => rfl, by decide, by decide, by decide⟩

/-- C13: for two identical uniform images of any size, `InitDataCost`, the message passing
of any number `k` of iterations and `MAP` all return; `MAP` assigns `best_assignment = 0`
to every element of the grid and returns energy 0. -/
theorem C13_uniform_images_label_zero (left right : Mat) (v : Nat) (mrf0 : MRF2D)
    (hl : left.data = true) (hr : right.data = true)
    (hrows : right.rows = left.rows) (hcols : right.cols = left.cols)
    (hul : left.Uniform v) (hur : right.Uniform v) (k : Nat) :
    ∃ mrf mrfk mrf1 energy, InitDataCost LABELS left right mrf0 = some mrf ∧
      BP_iterations LABELS k mrf = some mrfk ∧
      MAP LABELS mrfk = some (mrf1, energy) ∧
      mrf1.grid.length = left.cols * left.rows ∧
      (∀ p ∈ mrf1.grid, p.best_assignment = 0) ∧ energy = 0 := by
  obtain ⟨mrf, h, hw, hh, hwf, hpix⟩ := InitDataCost_eq LABELS left right mrf0 hl hr
  have h0 : ∀ x y, mrf.InGrid x y → ∀ s, (mrf.pix x y).msg s 0 = 0 := by
    intro x y hxy s
    rw [hpix x y hxy s 0 (by decide)]
    split
    · rename_i hc
      have hint := hc.1
      simp only [Interior, LABELS] at hint
      exact DataCostStereo_uniform left right v hrows hcols hul hur x y 0 (by omega) (by omega)
        (by omega) (by omega) (by omega)
    · rfl
  obtain ⟨mk, hk, hwk, hhk, hwfk, pk⟩ := BP_iterations_preserves LABELS
    (fun p => ∀ s, p.msg s 0 = 0)
    (fun d hd src dst hs ht => setMsg_zero_at_zero LABELS (by decide) d hd src dst hs ht)
    k mrf hwf h0
  have hk0 : ∀ x y, mk.InGrid x y → ∀ s, (mk.pix x y).msg s 0 = 0 := by
    intro x y hxy
    refine pk x y ?_
    unfold MRF2D.InGrid at hxy ⊢
    rwa [hwk, hhk] at hxy
  obtain ⟨hm, hall⟩ := MAP_zero_at_zero LABELS (by decide) mk hwfk hk0
  refine ⟨mrf, mk, _, _, h, hk, hm, ?_, hall, rfl⟩
  have := hwfk.2.2
  rw [hwk, hhk, hw, hh] at this
  simp only [MAP_assign, List.length_map]
  exact_mod_cast this

/-- C13 at the uniform `40 x 36` pair of gray value 100 and three iterations. -/
theorem C13_uniform_images_label_zero_witness :
    (constImage 36 40 100).data = true ∧ (constImage 36 40 100).Uniform 100 ∧
    ∃ mrf mrfk mrf1 energy,
      InitDataCost LABELS (constImage 36 40 100) (constImage 36 40 100) MRF2D.empty = some mrf ∧
      BP_iterations LABELS 3 mrf = some mrfk ∧
      MAP LABELS mrfk = some (mrf1, energy) ∧
      mrf1.grid.length = 40 * 36 ∧
      (∀ p ∈ mrf1.grid, p.best_assignment = 0) ∧ energy = 0 :=
  ⟨rfl, fun _ _ _ => rfl,
    C13_uniform_images_label_zero (constImage 36 40 100) (constImage 36 40 100) 100 MRF2D.empty
      rfl rfl rfl rfl (fun _ _ _ => rfl) (fun _ _ _ => rfl) 3⟩

/-! ## Index safety of the sweep -/

theorem BP_coords_nil_of_nonpos (d : DIRECTION) (W H : Int) (hW : W ≤ 0) (hH : H ≤ 0) :
    BP_coords d W H = [] := by
  have e1 : W.toNat = 0 := by omega
  have e2 : H.toNat = 0 := by omega
  cases d <;> simp [BP_coords, e1, e2]

/-- C15: on a grid whose vector has exactly `width*height` elements, the sweep `BP(d)` in a
direction `d` among Left, Right, Up, Down returns (no index is out of range); it is the
sequence of `SendMsg` calls at the coordinates `BP_coords`, and each of them has its source
and its neighbour in direction `d` inside the grid, with both indices in
`[0, width*height)`; so no pixel of the extreme row or column in direction `d` is a source. -/
theorem C15_BP_indices_in_range (mrf : MRF2D) (d : DIRECTION)
    (hd : d = LEFT ∨ d = RIGHT ∨ d = UP ∨ d = DOWN)
    (hlen : (mrf.grid.length : Int) = mrf.width * mrf.height) :
    (∃ m1, BP LABELS mrf d = some m1) ∧
    BP LABELS mrf d = BP_loop LABELS d (BP_coords d mrf.width mrf.height) mrf ∧
    ∀ c ∈ BP_coords d mrf.width mrf.height,
      mrf.InGrid c.1 c.2 ∧ mrf.InGrid (d.nbr c.1 c.2).1 (d.nbr c.1 c.2).2 ∧
      (0 ≤ c.2 * mrf.width + c.1 ∧ c.2 * mrf.width + c.1 < mrf.grid.length) ∧
      (0 ≤ (d.nbr c.1 c.2).2 * mrf.width + (d.nbr c.1 c.2).1 ∧
        (d.nbr c.1 c.2).2 * mrf.width + (d.nbr c.1 c.2).1 < mrf.grid.length) ∧
      (d = RIGHT → c.1 ≠ mrf.width - 1) ∧ (d = LEFT → c.1 ≠ 0) ∧
      (d = DOWN → c.2 ≠ mrf.height - 1) ∧ (d = UP → c.2 ≠ 0) := by
  have hd1 : d ≠ DATA := by rcases hd with h | h | h | h <;> simp [h]
  have heq := BP_eq_BP_loop LABELS mrf d hd1
  refine ⟨?_, heq, ?_⟩
  · by_cases hdim : 0 ≤ mrf.width ∧ 0 ≤ mrf.height
    · obtain ⟨m1, h1, _⟩ := BP_spec LABELS mrf d hd1 ⟨hdim.1, hdim.2, hlen⟩
      exact ⟨m1, h1⟩
    · have hprod : 0 ≤ mrf.width * mrf.height := by rw [← hlen]; exact Int.natCast_nonneg _
      have hWH : mrf.width ≤ 0 ∧ mrf.height ≤ 0 := by
        by_contra hcon
        rcases lt_or_ge mrf.width 0 with hw | hw
        · have hh : 0 < mrf.height := by omega
          have := mul_neg_of_neg_of_pos hw hh
          omega
        · have hh : mrf.height < 0 := by omega
          rcases hw.lt_or_eq with hw1 | hw1
          · have := mul_neg_of_pos_of_neg hw1 hh
            omega
          · omega
      rw [heq, BP_coords_nil_of_nonpos d _ _ hWH.1 hWH.2]
      exact ⟨mrf, rfl⟩
  · intro c hc
    obtain ⟨h1, h2⟩ := BP_coords_inGrid d mrf c hc
    have b1 := index_bounds h1.1 h1.2.1 h1.2.2.1 h1.2.2.2
    have b2 := index_bounds h2.1 h2.2.1 h2.2.2.1 h2.2.2.2
    rw [← hlen] at b1 b2
    refine ⟨h1, h2, b1, b2, ?_, ?_, ?_, ?_⟩
    all_goals
      intro hdd
      subst hdd
      simp only [DIRECTION.nbr, MRF2D.InGrid] at h2
      omega

/-- C15 at `sampleGrid` and direction Down. -/
theorem C15_BP_indices_in_range_witness :
    ((sampleGrid.grid.length : Int) = sampleGrid.width * sampleGrid.height) ∧
    (∃ m1, BP LABELS sampleGrid DOWN = some m1) ∧
    BP LABELS sampleGrid DOWN = BP_loop LABELS DOWN (BP_coords DOWN 2 2) sampleGrid ∧
    ∀ c ∈ BP_coords DOWN 2 2,
      sampleGrid.InGrid c.1 c.2 ∧ sampleGrid.InGrid (DOWN.nbr c.1 c.2).1 (DOWN.nbr c.1 c.2).2 ∧
      (0 ≤ c.2 * 2 + c.1 ∧ c.2 * 2 + c.1 < (4 : Nat)) ∧
      (0 ≤ (DOWN.nbr c.1 c.2).2 * 2 + (DOWN.nbr c.1 c.2).1 ∧
        (DOWN.nbr c.1 c.2).2 * 2 + (DOWN.nbr c.1 c.2).1 < (4 : Nat)) ∧
      (DOWN = RIGHT → c.1 ≠ 2 - 1) ∧ (DOWN = LEFT → c.1 ≠ 0) ∧
      (DOWN = DOWN → c.2 ≠ 2 - 1) ∧ (DOWN = UP → c.2 ≠ 0) :=
  ⟨by decide, C15_BP_indices_in_range sampleGrid DOWN (by decide) (by decide)⟩

/-! ## A single label -/

/-- After `InitDataCost` on the default-constructed grid every `best_assignment` is 0. -/
theorem InitDataCost_fresh (L : Nat) (left right : Mat) (mrf0 : MRF2D) (h0 : mrf0.grid = [])
    (hl : left.data = true) (hr : right.data = true) :
    ∃ mrf, InitDataCost L left right mrf0 = some mrf ∧ mrf.WF ∧
      ∀ x y, mrf.InGrid x y → (mrf.pix x y).best_assignment = 0 := by
  unfold InitDataCost
  simp only [hl, hr, Bool.not_true, Bool.false_eq_true, if_false]
  have hwf0 := InitDataCost_zeroed_WF L left.cols left.rows mrf0.grid
  generalize hm0 : MRF2D.mk
      (List.map (Pixel.zeroMsg L) (resize mrf0.grid ((left.cols : Int) * (left.rows : Int)).toNat))
      (left.cols : Int) (left.rows : Int) = m0 at hwf0
  have hw0 : m0.width = (left.cols : Int) := by rw [← hm0]
  have hh0 : m0.height = (left.rows : Int) := by rw [← hm0]
  have hz : ∀ p ∈ m0.grid, p.best_assignment = 0 := by
    intro p hp
    rw [← hm0] at hp
    simp only [List.mem_map, h0, resize, List.take_nil, List.nil_append, List.mem_replicate] at hp
    obtain ⟨q, ⟨_, rfl⟩, rfl⟩ := hp
    rfl
  have hflat := foldlM_flatMap
    (fun (m : MRF2D) (c : Int × Int) => m.storeMsg L (c.2 * m0.width + c.1) DATA
      (fun (i : Nat) => DataCostStereo left right c.1 c.2 (i : Int)))
    (fun (y : Int) => (intRange (L : Int) (m0.width - L)).map fun (x : Int) => (x, y))
    (intRange (L : Int) (m0.height - L)) m0
  simp only [List.foldlM_map] at hflat
  obtain ⟨m1, h1, hw1, hh1, hwf1, hpix⟩ := foldlM_storeMsg L DATA
    (fun x y (i : Nat) => DataCostStereo left right x y (i : Int))
    ((intRange (L : Int) (m0.height - L)).flatMap
      fun (y : Int) => (intRange (L : Int) (m0.width - L)).map fun (x : Int) => (x, y))
    m0 hwf0 (by
      intro c hc
      simp only [List.mem_flatMap, List.mem_map, mem_intRange] at hc
      obtain ⟨y, hy, x, hx, rfl⟩ := hc
      exact ⟨by omega, by omega, by omega, by omega⟩)
  refine ⟨m1, ?_, hwf1, ?_⟩
  · rw [← h1, ← hflat, hw0, hh0]
  · intro x y hxy
    have hxy0 : m0.InGrid x y := by
      unfold MRF2D.InGrid at hxy ⊢
      rwa [hw1, hh1] at hxy
    rw [(hpix x y hxy0).1]
    exact hz _ (m0.pix_mem hwf0 x y hxy0)

theorem edgeEnergy_zero (m : MRF2D)
    (h : ∀ x y, m.InGrid x y → (m.pix x y).best_assignment = 0) : edgeEnergy m = 0 := by
  unfold edgeEnergy
  have e1 : ∑ y ∈ Finset.range m.height.toNat, ∑ x ∈ Finset.range (m.width.toNat - 1),
      SmoothnessCost (m.label x y) (m.label ((x : Int) + 1) y) = 0 := by
    refine Finset.sum_eq_zero fun y hy => Finset.sum_eq_zero fun x hx => ?_
    have := Finset.mem_range.1 hy
    have := Finset.mem_range.1 hx
    have hin : m.InGrid x y := by unfold MRF2D.InGrid; omega
    have hin2 : m.InGrid ((x : Int) + 1) y := by unfold MRF2D.InGrid; omega
    simp only [MRF2D.label, h _ _ hin, h _ _ hin2, SmoothnessCost_self]
  have e2 : ∑ y ∈ Finset.range (m.height.toNat - 1), ∑ x ∈ Finset.range m.width.toNat,
      SmoothnessCost (m.label x y) (m.label x ((y : Int) + 1)) = 0 := by
    refine Finset.sum_eq_zero fun y hy => Finset.sum_eq_zero fun x hx => ?_
    have := Finset.mem_range.1 hy
    have := Finset.mem_range.1 hx
    have hin : m.InGrid x y := by unfold MRF2D.InGrid; omega
    have hin2 : m.InGrid x ((y : Int) + 1) := by unfold MRF2D.InGrid; omega
    simp only [MRF2D.label, h _ _ hin, h _ _ hin2, SmoothnessCost_self]
  rw [e1, e2]

/-- With one label, from the default-constructed grid: initialisation, the message passing
of `k` iterations and `MAP` return; every label is 0 and the energy is the sum of the data
costs stored at label 0, modulo `2^32`. -/
theorem single_label_run (left right : Mat) (mrf0 : MRF2D) (h0 : mrf0.grid = [])
    (hl : left.data = true) (hr : right.data = true) (k : Nat) :
    ∃ mrf mrfk mrf1 energy, InitDataCost 1 left right mrf0 = some mrf ∧
      BP_iterations 1 k mrf = some mrfk ∧
      MAP 1 mrfk = some (mrf1, energy) ∧
      (∀ p ∈ mrf1.grid, p.best_assignment = 0) ∧
      energy = dataCostSum 1 left right % 2 ^ 32 := by
  obtain ⟨mrf, h, hw, hh, hwf, hpix⟩ := InitDataCost_eq 1 left right mrf0 hl hr
  obtain ⟨mrf', h', _, hbest⟩ := InitDataCost_fresh 1 left right mrf0 h0 hl hr
  rw [h] at h'
  obtain rfl := Option.some.inj h'
  obtain ⟨mk, hk, hwk, hhk, hwfk, hkeep⟩ := BP_iterations_spec 1 k mrf hwf
  have gk : ∀ x y, mk.InGrid x y → mrf.InGrid x y := fun x y hxy => by
    unfold MRF2D.InGrid at hxy ⊢; rwa [hwk, hhk] at hxy
  have hprior : ∀ p ∈ mk.grid, p.best_assignment = 0 := by
    intro p hp
    obtain ⟨x, y, hxy, rfl⟩ := mk.mem_grid_pix hwfk p hp
    rw [(hkeep x y (gk x y hxy)).1]
    exact hbest x y (gk x y hxy)
  have hall : ∀ p ∈ (MAP_assign 1 mk).grid, p.best_assignment = 0 := by
    intro q hq
    simp only [MAP_assign, List.mem_map] at hq
    obtain ⟨p, hp, rfl⟩ := hq
    have := MAP_pixel_range 1 p (Or.inl (by rw [hprior p hp]; decide))
    have h2 : (MAP_pixel 1 p).best_assignment < 1 := by exact_mod_cast this.2
    omega
  have hlab : (MAP_assign 1 mk).LabelsIn 1 := by
    intro q hq
    rw [hall q hq]
    decide
  have hlab0 : ∀ x y, (MAP_assign 1 mk).InGrid x y →
      ((MAP_assign 1 mk).pix x y).best_assignment = 0 := fun x y hxy =>
    hall _ ((MAP_assign 1 mk).pix_mem (MAP_assign_WF 1 mk hwfk) x y hxy)
  refine ⟨mrf, mk, _, _, h, hk, MAP_eq 1 mk hwfk hlab, hall, ?_⟩
  rw [edgeEnergy_zero _ hlab0]
  have hd : dataEnergy (MAP_assign 1 mk) = dataCostSum 1 left right := by
    unfold dataEnergy dataCostSum
    have e1 : (MAP_assign 1 mk).height.toNat = left.rows := by
      show mk.height.toNat = left.rows
      rw [hhk, hh]; simp
    have e2 : (MAP_assign 1 mk).width.toNat = left.cols := by
      show mk.width.toNat = left.cols
      rw [hwk, hw]; simp
    rw [e1, e2]
    refine Finset.sum_congr rfl fun y hy => Finset.sum_congr rfl fun x hx => ?_
    have := Finset.mem_range.1 hy
    have := Finset.mem_range.1 hx
    have hin : mrf.InGrid x y := by unfold MRF2D.InGrid; rw [hw, hh]; omega
    have hink : mk.InGrid x y := by unfold MRF2D.InGrid; rw [hwk, hhk]; exact hin
    simp only [MRF2D.label, hlab0 x y hink, Int.toNat_zero]
    rw [MAP_assign_pix 1 mk hwfk x y hink, MAP_pixel_msg, (hkeep x y hin).2 0,
      hpix x y hin DATA 0 (by decide)]
    simp
  rw [hd]
  rfl

/-- C16 (amended): with `LABELS = 1`, starting from the default-constructed grid, for every
loaded image pair and every number `k` of iterations `MAP` assigns label 0 to every pixel
and returns, modulo `2^32`, the sum over the pixels inside the border of the data cost
`DataCostStereo(left, right, x, y, 0)`. -/
theorem C16_single_label_energy (left right : Mat) (hl : left.data = true)
    (hr : right.data = true) (k : Nat) :
    ∃ mrf mrfk mrf1 energy, InitDataCost 1 left right MRF2D.empty = some mrf ∧
      BP_iterations 1 k mrf = some mrfk ∧
      MAP 1 mrfk = some (mrf1, energy) ∧
      (∀ p ∈ mrf1.grid, p.best_assignment = 0) ∧
      energy = dataCostSum 1 left right % 2 ^ 32 :=
  single_label_run left right MRF2D.empty rfl hl hr k

/-- C16 (amended) at a uniform `3 x 3` pair with bytes 255 and 0 and two iterations. -/
theorem C16_single_label_energy_witness :
    (constImage 3 3 255).data = true ∧ (constImage 3 3 0).data = true ∧
    ∃ mrf mrfk mrf1 energy,
      InitDataCost 1 (constImage 3 3 255) (constImage 3 3 0) MRF2D.empty = some mrf ∧
      BP_iterations 1 2 mrf = some mrfk ∧
      MAP 1 mrfk = some (mrf1, energy) ∧
      (∀ p ∈ mrf1.grid, p.best_assignment = 0) ∧
      energy = dataCostSum 1 (constImage 3 3 255) (constImage 3 3 0) % 2 ^ 32 :=
  ⟨rfl, rfl, C16_single_label_energy (constImage 3 3 255) (constImage 3 3 0) rfl rfl 2⟩

set_option maxRecDepth 1000000 in
/-- C16 (counterexample): with `LABELS = 1` and the `3 x 3` image pair with every left byte
255 and every right byte 0, after one iteration `MAP` returns energy 255, not 0. -/
theorem C16_single_label_energy_nonzero :
    ((InitDataCost 1 (constImage 3 3 255) (constImage 3 3 0) MRF2D.empty).bind fun mrf =>
      (BP_iterations 1 1 mrf).bind fun mrfk =>
        (MAP 1 mrfk).map fun r => r.2) = some 255 := by
  decide

/-! ## The state after a sweep -/

/-- The sources of a sweep are the pixels that have a neighbour in the sweep direction. -/
theorem mem_BP_coords (d : DIRECTION) (hd : d ≠ DATA) (mrf : MRF2D) (x y : Int) :
    (x, y) ∈ BP_coords d mrf.width mrf.height
      ↔ mrf.InGrid x y ∧ mrf.InGrid (d.nbr x y).1 (d.nbr x y).2 := by
  constructor
  · intro h
    exact BP_coords_inGrid d mrf (x, y) h
  · rintro ⟨h1, h2⟩
    cases d
    all_goals first
      | exact absurd rfl hd
      | (simp only [BP_coords, List.mem_flatMap, List.mem_map, List.mem_range, List.mem_reverse,
          Prod.mk.injEq]
         simp only [MRF2D.InGrid, DIRECTION.nbr] at h1 h2
         first
           | exact ⟨y.toNat, by omega, x.toNat, by omega, by omega, by omega⟩
           | exact ⟨y.toNat, by omega, (x - 1).toNat, by omega, by omega, by omega⟩
           | exact ⟨x.toNat, by omega, y.toNat, by omega, by omega, by omega⟩
           | exact ⟨x.toNat, by omega, (y - 1).toNat, by omega, by omega, by omega⟩)

theorem BP_coords_targets_nodup (d : DIRECTION) (W H : Int) :
    ((BP_coords d W H).map fun c => d.nbr c.1 c.2).Nodup := by
  have h := BP_coords_ordered d W H
  unfold SweepOrdered at h
  rw [List.nodup_map_iff_inj_on (h.imp fun hab => hab.1)]
  intro a _ b _ hab
  exact Prod.ext (congrArg Prod.fst (DIRECTION.nbr_inj d _ _ _ _ hab))
    (congrArg Prod.snd (DIRECTION.nbr_inj d _ _ _ _ hab))

theorem noSource_not_target (d : DIRECTION) (hd : d ≠ DATA) (mrf : MRF2D) (x y : Int)
    (h : d.noSource mrf x y) :
    ∀ c ∈ BP_coords d mrf.width mrf.height, d.nbr c.1 c.2 ≠ (x, y) := by
  intro c hc heq
  obtain ⟨h1, h2⟩ := BP_coords_inGrid d mrf c hc
  cases d
  all_goals first
    | exact absurd rfl hd
    | (simp only [DIRECTION.nbr, Prod.mk.injEq] at heq
       simp only [DIRECTION.noSource] at h
       simp only [MRF2D.InGrid] at h1
       omega)

/-- The state after the sweep `BP(d)` for any positive number of labels: the sweep is
a sequence of `SendMsg` calls whose written neighbours are pairwise different and include the
neighbour of every pixel that has one in direction `d`; afterwards the receiving slot of
its neighbour is the least of the cavity sums, taken modulo `2^32`, of the source as it is
after the sweep; pixels without a source keep their receiving slot. -/
theorem BP_post_sweep (L : Nat) (hL : 0 < L) (mrf : MRF2D) (d : DIRECTION) (hd : d ≠ DATA)
    (hwf : mrf.WF) :
    ∃ m1, BP L mrf d = some m1 ∧
      BP L mrf d = BP_loop L d (BP_coords d mrf.width mrf.height) mrf ∧
      ((BP_coords d mrf.width mrf.height).map fun c => d.nbr c.1 c.2).Nodup ∧
      (∀ x y, mrf.InGrid x y → mrf.InGrid (d.nbr x y).1 (d.nbr x y).2 →
        d.nbr x y ∈ ((BP_coords d mrf.width mrf.height).map fun c => d.nbr c.1 c.2) ∧
        ∀ i < L,
          (∀ j < L, (m1.pix (d.nbr x y).1 (d.nbr x y).2).msg d.recv i
              ≤ u32 (cavitySum (m1.pix x y) d i j)) ∧
          (∃ j < L, (m1.pix (d.nbr x y).1 (d.nbr x y).2).msg d.recv i
              = u32 (cavitySum (m1.pix x y) d i j))) ∧
      (∀ x y, mrf.InGrid x y → d.noSource mrf x y →
        ∀ l, (m1.pix x y).msg d.recv l = (mrf.pix x y).msg d.recv l) := by
  obtain ⟨m1, h1, _, _, _, hfr, hval⟩ := BP_spec L mrf d hd hwf
  refine ⟨m1, h1, BP_eq_BP_loop L mrf d hd, BP_coords_targets_nodup d _ _, ?_, ?_⟩
  · intro x y hs ht
    have hmem : (x, y) ∈ BP_coords d mrf.width mrf.height :=
      (mem_BP_coords d hd mrf x y).2 ⟨hs, ht⟩
    refine ⟨List.mem_map.2 ⟨(x, y), hmem, rfl⟩, fun i hi => ?_⟩
    have hv := hval (x, y) hmem i hi
    simp only at hv
    rw [hv]
    constructor
    · intro j hj
      rw [← SendMsg_p_eq_u32 _ d hd]
      exact SendMsg_new_msg_le L _ d i j hj
    · obtain ⟨j, hj, e⟩ := SendMsg_new_msg_attained L hL (m1.pix x y) d i
      exact ⟨j, hj, by rw [e, SendMsg_p_eq_u32 _ d hd]⟩
  · intro x y hxy hno l
    exact (hfr x y hxy).2 d.recv l (Or.inr (noSource_not_target d hd mrf x y hno))

/-- C17 (amended): on a `W*H` grid, for a direction `d` among Left, Right, Up, Down, the
sweep `BP(d)` returns; it is a sequence of `SendMsg` calls that write pairwise different
neighbours, among them the neighbour `q` of every pixel `p` that has one in direction `d`;
afterwards entry `i` of `q`'s receiving slot is the minimum over `j < 16` of the cavity sums
`SmoothnessCost(i, j) + Data[j] +` the three slots other than `d` at `j`, each taken modulo
`2^32`, read from `p` in the grid after the sweep (the minimum of the sums themselves when
none of them reaches `2^32`); and the receiving slot of the pixels without a source (column
0 for Right, column `W-1` for Left, row `H-1` for Up, row 0 for Down) is unchanged. -/
theorem C17_BP_post_sweep_state (mrf : MRF2D) (d : DIRECTION)
    (hd : d = LEFT ∨ d = RIGHT ∨ d = UP ∨ d = DOWN) (hwf : mrf.WF) :
    ∃ m1, BP LABELS mrf d = some m1 ∧
      BP LABELS mrf d = BP_loop LABELS d (BP_coords d mrf.width mrf.height) mrf ∧
      ((BP_coords d mrf.width mrf.height).map fun c => d.nbr c.1 c.2).Nodup ∧
      (∀ x y, mrf.InGrid x y → mrf.InGrid (d.nbr x y).1 (d.nbr x y).2 →
        d.nbr x y ∈ ((BP_coords d mrf.width mrf.height).map fun c => d.nbr c.1 c.2) ∧
        ∀ i < LABELS,
          ((∀ j < LABELS, (m1.pix (d.nbr x y).1 (d.nbr x y).2).msg d.recv i
              ≤ cavitySum (m1.pix x y) d i j % 2 ^ 32) ∧
           (∃ j < LABELS, (m1.pix (d.nbr x y).1 (d.nbr x y).2).msg d.recv i
              = cavitySum (m1.pix x y) d i j % 2 ^ 32)) ∧
          ((∀ j < LABELS, cavitySum (m1.pix x y) d i j < 2 ^ 32) →
            (∀ j < LABELS, (m1.pix (d.nbr x y).1 (d.nbr x y).2).msg d.recv i
              ≤ cavitySum (m1.pix x y) d i j) ∧
            (∃ j < LABELS, (m1.pix (d.nbr x y).1 (d.nbr x y).2).msg d.recv i
              = cavitySum (m1.pix x y) d i j))) ∧
      (∀ x y, mrf.InGrid x y → d.noSource mrf x y →
        ∀ l, (m1.pix x y).msg d.recv l = (mrf.pix x y).msg d.recv l) := by
  obtain ⟨m1, h1, h2, h3, h4, h5⟩ := BP_post_sweep LABELS (by decide) mrf d
    (by rcases hd with h | h | h | h <;> simp [h]) hwf
  refine ⟨m1, h1, h2, h3, fun x y hs ht => ?_, h5⟩
  obtain ⟨hm, hv⟩ := h4 x y hs ht
  refine ⟨hm, fun i hi => ⟨hv i hi, fun hno => ?_⟩⟩
  obtain ⟨hle, j, hj, he⟩ := hv i hi
  refine ⟨fun j hj => ?_, j, hj, ?_⟩
  · have := hle j hj
    rwa [u32_of_lt (hno j hj)] at this
  · rwa [u32_of_lt (hno j hj)] at he

/-- C17 (amended) at `sampleGrid` and direction Left. -/
theorem C17_BP_post_sweep_state_witness :
    sampleGrid.WF ∧
    ∃ m1, BP LABELS sampleGrid LEFT = some m1 ∧
      BP LABELS sampleGrid LEFT = BP_loop LABELS LEFT (BP_coords LEFT 2 2) sampleGrid ∧
      ((BP_coords LEFT 2 2).map fun c => LEFT.nbr c.1 c.2).Nodup ∧
      (∀ x y, sampleGrid.InGrid x y → sampleGrid.InGrid (LEFT.nbr x y).1 (LEFT.nbr x y).2 →
        LEFT.nbr x y ∈ ((BP_coords LEFT 2 2).map fun c => LEFT.nbr c.1 c.2) ∧
        ∀ i < LABELS,
          ((∀ j < LABELS, (m1.pix (LEFT.nbr x y).1 (LEFT.nbr x y).2).msg RIGHT i
              ≤ cavitySum (m1.pix x y) LEFT i j % 2 ^ 32) ∧
           (∃ j < LABELS, (m1.pix (LEFT.nbr x y).1 (LEFT.nbr x y).2).msg RIGHT i
              = cavitySum (m1.pix x y) LEFT i j % 2 ^ 32)) ∧
          ((∀ j < LABELS, cavitySum (m1.pix x y) LEFT i j < 2 ^ 32) →
            (∀ j < LABELS, (m1.pix (LEFT.nbr x y).1 (LEFT.nbr x y).2).msg RIGHT i
              ≤ cavitySum (m1.pix x y) LEFT i j) ∧
            (∃ j < LABELS, (m1.pix (LEFT.nbr x y).1 (LEFT.nbr x y).2).msg RIGHT i
              = cavitySum (m1.pix x y) LEFT i j))) ∧
      (∀ x y, sampleGrid.InGrid x y → LEFT.noSource sampleGrid x y →
        ∀ l, (m1.pix x y).msg RIGHT l = (sampleGrid.pix x y).msg RIGHT l) :=
  ⟨by unfold MRF2D.WF; decide,
    C17_BP_post_sweep_state sampleGrid LEFT (by decide) (by unfold MRF2D.WF; decide)⟩

set_option maxRecDepth 1000000 in
/-- C17 (counterexample): on the `2 x 1` grid `wrapGrid`, after the sweep `BP(Right)` entry 0
of the Left slot of pixel `(1, 0)` is 0, while every cavity sum of the source `(0, 0)` in
the grid after the sweep is at least `2^32`: the entry is not their minimum. -/
theorem C17_post_sweep_slot_below_cavity_minimum :
    wrapGrid.WF ∧ wrapGrid.InGrid 0 0 ∧ wrapGrid.InGrid 1 0 ∧
    ((BP LABELS wrapGrid RIGHT).map fun m1 => (m1.pix 1 0).msg LEFT 0) = some 0 ∧
    ((BP LABELS wrapGrid RIGHT).map fun m1 =>
      decide (∀ j < LABELS, 2 ^ 32 ≤ cavitySum (m1.pix 0 0) RIGHT 0 j)) = some true := by
  refine ⟨by unfold MRF2D.WF; decide, by unfold MRF2D.InGrid; decide,
    by unfold MRF2D.InGrid; decide, by decide, by decide⟩

/-! ## Shape of a message -/

theorem cavitySum_eq (src : Pixel) (d : DIRECTION) (i j : Nat) :
    cavitySum src d i j = SmoothnessCost i j + cavityBase src d j := by
  unfold cavitySum cavityBase; ring

theorem SmoothnessCost_triangle (i j k : Int) :
    SmoothnessCost i k ≤ SmoothnessCost i j + SmoothnessCost j k := by
  simp only [SmoothnessCost, LAMBDA, SMOOTHNESS_TRUNC]
  have h : (i - k).natAbs ≤ (i - j).natAbs + (j - k).natAbs := by omega
  rcases Nat.le_total (i - k).natAbs 2 with h1 | h1 <;>
  rcases Nat.le_total (i - j).natAbs 2 with h2 | h2 <;>
  rcases Nat.le_total (j - k).natAbs 2 with h3 | h3 <;>
  simp only [min_eq_left, min_eq_right, h1, h2, h3] <;> omega

/-- Without wrap-around, `new_msg[i]` is the least of `SmoothnessCost(i, j) + h(j)`. -/
theorem SendMsg_new_msg_min (L : Nat) (hL : 0 < L) (src : Pixel) (d : DIRECTION) (hd : d ≠ DATA)
    (hno : ∀ j < L, cavityBase src d j + 40 < 4294967296) (i : Nat) :
    (∀ j < L, SendMsg_new_msg L src d i ≤ SmoothnessCost i j + cavityBase src d j) ∧
    ∃ j < L, SendMsg_new_msg L src d i = SmoothnessCost i j + cavityBase src d j := by
  have hp : ∀ j < L, SendMsg_p src d i j = SmoothnessCost i j + cavityBase src d j := by
    intro j hj
    have := SmoothnessCost_le i j
    have := hno j hj
    rw [SendMsg_p_of_lt src d hd i j (by rw [cavitySum_eq]; omega), cavitySum_eq]
  constructor
  · intro j hj
    rw [← hp j hj]
    exact SendMsg_new_msg_le L src d i j hj
  · obtain ⟨j, hj, e⟩ := SendMsg_new_msg_attained L hL src d i
    exact ⟨j, hj, by rw [e, hp j hj]⟩

/-- Without wrap-around a message is at most `h`, has the same minimum as `h`, and is
Lipschitz with respect to the smoothness cost. -/
theorem SendMsg_new_msg_shape (L : Nat) (hL : 0 < L) (src : Pixel) (d : DIRECTION)
    (hd : d ≠ DATA) (hno : ∀ j < L, cavityBase src d j + 40 < 4294967296) :
    (∀ i < L, SendMsg_new_msg L src d i ≤ cavityBase src d i) ∧
    (∀ i < L, ∃ j < L, cavityBase src d j ≤ SendMsg_new_msg L src d i) ∧
    (∀ i < L, ∀ i1 < L,
      SendMsg_new_msg L src d i ≤ SendMsg_new_msg L src d i1 + SmoothnessCost i i1) := by
  refine ⟨fun i hi => ?_, fun i _ => ?_, fun i _ i1 _ => ?_⟩
  · have := (SendMsg_new_msg_min L hL src d hd hno i).1 i hi
    rwa [SmoothnessCost_self, Nat.zero_add] at this
  · obtain ⟨j, hj, e⟩ := (SendMsg_new_msg_min L hL src d hd hno i).2
    exact ⟨j, hj, by omega⟩
  · obtain ⟨j, hj, e⟩ := (SendMsg_new_msg_min L hL src d hd hno i1).2
    have h1 := (SendMsg_new_msg_min L hL src d hd hno i).1 j hj
    have h2 := SmoothnessCost_triangle i i1 j
    omega

/-- C19: for a pixel `src` and a direction `d` among Left, Right, Up, Down, with
`h(j) = msg[Data][j] +` the three slots other than `d` at `j` and no `h(j) + 40` reaching
`2^32`, the message `new_msg` of `SendMsg` satisfies `min_i new_msg[i] = min_j h(j)`,
`new_msg[i] <= h(i)`, `new_msg[i] <= new_msg[i1] + SmoothnessCost(i, i1)`, and
`max_i new_msg[i] - min_i new_msg[i] <= 40`. -/
theorem C19_new_msg_shape (src : Pixel) (d : DIRECTION)
    (hd : d = LEFT ∨ d = RIGHT ∨ d = UP ∨ d = DOWN)
    (hno : ∀ j < LABELS, cavityBase src d j + 40 < 2 ^ 32) :
    (Finset.range LABELS).inf' (Finset.nonempty_range_iff.2 (by decide))
        (SendMsg_new_msg LABELS src d)
      = (Finset.range LABELS).inf' (Finset.nonempty_range_iff.2 (by decide))
        (cavityBase src d) ∧
    (∀ i < LABELS, SendMsg_new_msg LABELS src d i ≤ cavityBase src d i) ∧
    (∀ i < LABELS, ∀ i1 < LABELS,
      SendMsg_new_msg LABELS src d i
        ≤ SendMsg_new_msg LABELS src d i1 + SmoothnessCost i i1) ∧
    (Finset.range LABELS).sup' (Finset.nonempty_range_iff.2 (by decide))
        (SendMsg_new_msg LABELS src d)
      - (Finset.range LABELS).inf' (Finset.nonempty_range_iff.2 (by decide))
        (SendMsg_new_msg LABELS src d) ≤ LAMBDA * SMOOTHNESS_TRUNC ∧
    LAMBDA * SMOOTHNESS_TRUNC = 40 := by
  obtain ⟨h1, h2, h3⟩ := SendMsg_new_msg_shape LABELS (by decide) src d
    (by rcases hd with h | h | h | h <;> simp [h]) hno
  refine ⟨?_, h1, h3, ?_, rfl⟩
  · apply le_antisymm
    · rw [Finset.le_inf'_iff]
      intro j hj
      exact le_trans (Finset.inf'_le _ hj) (h1 j (Finset.mem_range.1 hj))
    · rw [Finset.le_inf'_iff]
      intro i hi
      obtain ⟨j, hj, hle⟩ := h2 i (Finset.mem_range.1 hi)
      exact le_trans (Finset.inf'_le _ (Finset.mem_range.2 hj)) hle
  · have hne : (Finset.range LABELS).Nonempty := Finset.nonempty_range_iff.2 (by decide)
    obtain ⟨a, ha, ea⟩ := Finset.exists_mem_eq_sup' hne (SendMsg_new_msg LABELS src d)
    obtain ⟨b, hb, eb⟩ := Finset.exists_mem_eq_inf' hne (SendMsg_new_msg LABELS src d)
    rw [ea, eb]
    have := h3 a (Finset.mem_range.1 ha) b (Finset.mem_range.1 hb)
    have := SmoothnessCost_le a b
    show _ ≤ 40
    omega

/-- C19 at the pixel `samplePixel 0` and direction Up. -/
theorem C19_new_msg_shape_witness :
    (∀ j < LABELS, cavityBase (samplePixel 0) UP j + 40 < 2 ^ 32) ∧
    (Finset.range LABELS).inf' (Finset.nonempty_range_iff.2 (by decide))
        (SendMsg_new_msg LABELS (samplePixel 0) UP)
      = (Finset.range LABELS).inf' (Finset.nonempty_range_iff.2 (by decide))
        (cavityBase (samplePixel 0) UP) ∧
    (∀ i < LABELS, SendMsg_new_msg LABELS (samplePixel 0) UP i ≤ cavityBase (samplePixel 0) UP i) ∧
    (∀ i < LABELS, ∀ i1 < LABELS,
      SendMsg_new_msg LABELS (samplePixel 0) UP i
        ≤ SendMsg_new_msg LABELS (samplePixel 0) UP i1 + SmoothnessCost i i1) ∧
    (Finset.range LABELS).sup' (Finset.nonempty_range_iff.2 (by decide))
        (SendMsg_new_msg LABELS (samplePixel 0) UP)
      - (Finset.range LABELS).inf' (Finset.nonempty_range_iff.2 (by decide))
        (SendMsg_new_msg LABELS (samplePixel 0) UP) ≤ LAMBDA * SMOOTHNESS_TRUNC ∧
    LAMBDA * SMOOTHNESS_TRUNC = 40 :=
  ⟨by decide, C19_new_msg_shape (samplePixel 0) UP (by decide) (by decide)⟩

/-! ## Frame and idempotence of `MAP` -/

theorem MAP_pixel_idem (L : Nat) (p : Pixel) : MAP_pixel L (MAP_pixel L p) = MAP_pixel L p := by
  have hc : ∀ j, MAP_cost (MAP_pixel L p) j = MAP_cost p j :=
    fun j => MAP_cost_congr p _ (MAP_pixel_msg L p) j
  by_cases hex : ∃ j < L, MAP_cost p j < UINT_MAX
  · obtain ⟨b, hb, e, _, hmin, hfirst⟩ := MAP_pixel_loop_range p L hex
    obtain ⟨b1, hb1, e1, _, hmin1, hfirst1⟩ := MAP_pixel_loop_range (MAP_pixel L p) L (by
      obtain ⟨j, hj, hlt⟩ := hex
      exact ⟨j, hj, by rw [hc]; exact hlt⟩)
    simp only [hc] at hmin1 hfirst1
    have hbb : b1 = b := by
      rcases Nat.lt_trichotomy b1 b with h | h | h
      · have := hfirst b1 h
        have := hmin1 b hb
        omega
      · exact h
      · have := hfirst1 b h
        have := hmin b1 hb1
        omega
    have hq : MAP_pixel L p = { p with best_assignment := (b : Int) } := by
      simp only [MAP_pixel, e]
    have : MAP_pixel L (MAP_pixel L p)
        = { MAP_pixel L p with best_assignment := (b1 : Int) } := by
      conv_lhs => rw [MAP_pixel]
      rw [e1]
    rw [this, hbb, hq]
  · have hall : ∀ j < L, MAP_cost p j = UINT_MAX := by
      intro j hj
      have h1 := MAP_cost_le_UINT_MAX p j
      have h2 : ¬ MAP_cost p j < UINT_MAX := fun h3 => hex ⟨j, hj, h3⟩
      omega
    have hp : MAP_pixel L p = p := by
      simp only [MAP_pixel, MAP_pixel_loop_saturated p L hall]
    rw [hp, hp]

theorem MAP_assign_idem (L : Nat) (mrf : MRF2D) :
    MAP_assign L (MAP_assign L mrf) = MAP_assign L mrf := by
  simp only [MAP_assign, List.map_map]
  congr 1
  apply List.map_congr_left
  intro p _
  exact MAP_pixel_idem L p

theorem MAP_eq_map (L : Nat) (mrf : MRF2D) :
    MAP L mrf = (MAP_energy L (MAP_assign L mrf)).map fun e => (MAP_assign L mrf, e) := by
  unfold MAP
  cases h : MAP_energy L (MAP_assign L mrf) <;> simp only [h, Option.map_none', Option.map_some']

theorem MAP_idem (L : Nat) (mrf : MRF2D) :
    ((MAP L mrf).bind fun r => MAP L r.1) = MAP L mrf := by
  rw [MAP_eq_map L mrf]
  cases h : MAP_energy L (MAP_assign L mrf) with
  | none => rfl
  | some e =>
    simp only [Option.map_some', Option.some_bind]
    rw [MAP_eq_map, MAP_assign_idem, h]
    rfl

/-- General form of the frame and idempotence of `MAP` for any number of labels. -/
theorem MAP_frame_idem (L : Nat) (mrf : MRF2D) :
    (MAP L mrf = (MAP_energy L (MAP_assign L mrf)).map fun e => (MAP_assign L mrf, e)) ∧
    (MAP_assign L mrf).width = mrf.width ∧ (MAP_assign L mrf).height = mrf.height ∧
    (MAP_assign L mrf).grid.length = mrf.grid.length ∧
    (∀ (k : Nat) (p : Pixel), mrf.grid[k]? = some p →
      ∃ q, (MAP_assign L mrf).grid[k]? = some q ∧ q.msg = p.msg) ∧
    MAP_assign L (MAP_assign L mrf) = MAP_assign L mrf ∧
    ((MAP L mrf).bind fun r => MAP L r.1) = MAP L mrf ∧
    (∀ m1 e, MAP L mrf = some (m1, e) → MAP L m1 = some (m1, e)) := by
  refine ⟨MAP_eq_map L mrf, rfl, rfl, by simp [MAP_assign], ?_, MAP_assign_idem L mrf,
    MAP_idem L mrf, ?_⟩
  · intro k p hk
    exact ⟨MAP_pixel L p, by simp [MAP_assign, hk], MAP_pixel_msg L p⟩
  · intro m1 e h
    have := MAP_idem L mrf
    rw [h] at this
    exact this

/-- C20: `MAP` returns the grid of its assignment phase, which has the width, the height,
the length and, element by element, the message slots of the input; `MAP` is idempotent:
the assignment phase applied twice gives the same grid as applied once, and whenever `MAP`
returns a grid and an energy, `MAP` on that grid returns the same grid and the same energy. -/
theorem C20_MAP_frame_idempotent (mrf : MRF2D) :
    (MAP LABELS mrf
      = (MAP_energy LABELS (MAP_assign LABELS mrf)).map fun e => (MAP_assign LABELS mrf, e)) ∧
    (MAP_assign LABELS mrf).width = mrf.width ∧ (MAP_assign LABELS mrf).height = mrf.height ∧
    (MAP_assign LABELS mrf).grid.length = mrf.grid.length ∧
    (∀ (k : Nat) (p : Pixel), mrf.grid[k]? = some p →
      ∃ q, (MAP_assign LABELS mrf).grid[k]? = some q ∧ q.msg = p.msg) ∧
    MAP_assign LABELS (MAP_assign LABELS mrf) = MAP_assign LABELS mrf ∧
    ((MAP LABELS mrf).bind fun r => MAP LABELS r.1) = MAP LABELS mrf ∧
    (∀ m1 e, MAP LABELS mrf = some (m1, e) → MAP LABELS m1 = some (m1, e)) :=
  MAP_frame_idem LABELS mrf

set_option maxRecDepth 100000 in
/-- C20 at `sampleGrid`, on which `MAP` returns energy 620 twice. -/
theorem C20_MAP_frame_idempotent_witness :
    ((MAP LABELS sampleGrid).map fun r => r.2) = some 620 ∧
    (((MAP LABELS sampleGrid).bind fun r => MAP LABELS r.1).map fun r => r.2) = some 620 ∧
    MAP_assign LABELS (MAP_assign LABELS sampleGrid) = MAP_assign LABELS sampleGrid ∧
    ((MAP LABELS sampleGrid).bind fun r => MAP LABELS r.1) = MAP LABELS sampleGrid :=
  ⟨by decide, by decide, (C20_MAP_frame_idempotent sampleGrid).2.2.2.2.2.1,
    (C20_MAP_frame_idempotent sampleGrid).2.2.2.2.2.2.1⟩

/-! ## Rows and columns of a sweep -/

theorem Pixel.ext_msg (p q : Pixel) (hm : ∀ s l, p.msg s l = q.msg s l)
    (hb : p.best_assignment = q.best_assignment) : p = q := by
  cases p; cases q
  simp only [Pixel.mk.injEq]
  exact ⟨funext fun s => funext fun l => hm s l, hb⟩

/-- Two `W*H` grids of the same dimensions with the same pixel at every coordinate are
equal. -/
theorem MRF2D.ext_pix (m m1 : MRF2D) (hwf : m.WF) (hwf1 : m1.WF) (hw : m1.width = m.width)
    (hh : m1.height = m.height) (h : ∀ x y, m.InGrid x y → m1.pix x y = m.pix x y) :
    m1 = m := by
  have hlen : m1.grid.length = m.grid.length := by
    have e1 := hwf.2.2
    have e2 := hwf1.2.2
    rw [hw, hh, ← e1] at e2
    exact_mod_cast e2
  have hgrid : m1.grid = m.grid := by
    apply List.ext_getElem hlen
    intro k hk1 hk
    obtain ⟨hW, hH, hl⟩ := hwf
    have hk2 : (k : Int) < m.width * m.height := by rw [← hl]; exact_mod_cast hk
    have hWpos : 0 < m.width := by
      rcases hW.lt_or_eq with h1 | h1
      · exact h1
      · rw [← h1] at hk2; simp at hk2; omega
    have hin : m.InGrid ((k : Int) % m.width) ((k : Int) / m.width) :=
      ⟨Int.emod_nonneg _ (by omega), Int.emod_lt_of_pos _ hWpos,
        Int.ediv_nonneg (by omega) hW, Int.ediv_lt_of_lt_mul hWpos (by rw [mul_comm]; exact hk2)⟩
    have e : (k : Int) / m.width * m.width + (k : Int) % m.width = k := by
      rw [mul_comm]; exact Int.ediv_add_emod _ _
    have := h _ _ hin
    simp only [MRF2D.pix, MRF2D.get?, hw, e, Int.natCast_nonneg, if_true, Int.toNat_natCast,
      List.getElem?_eq_getElem hk, List.getElem?_eq_getElem hk1, Option.getD_some] at this
    exact this
  cases m; cases m1
  simp only [MRF2D.mk.injEq]
  exact ⟨hgrid, hw, hh⟩

theorem BP_eq_BP_in_order (L : Nat) (mrf : MRF2D) (d : DIRECTION) (hd : d ≠ DATA) :
    BP L mrf d = BP_in_order L d (BP_lines d mrf.width mrf.height) mrf := by
  cases d <;> first | exact absurd rfl hd | rfl

theorem BP_coords_eq_flatMap (d : DIRECTION) (W H : Int) :
    BP_coords d W H = (BP_lines d W H).flatMap (BP_line_coords d W H) := by
  cases d <;> rfl

theorem BP_line_coords_onLine (d : DIRECTION) (W H : Int) (a : Nat) (c : Int × Int)
    (hc : c ∈ BP_line_coords d W H a) :
    d.onLine a c.1 c.2 ∧ d.onLine a (d.nbr c.1 c.2).1 (d.nbr c.1 c.2).2 := by
  cases d <;>
    simp only [BP_line_coords, List.mem_map, List.mem_range, List.mem_reverse,
      List.not_mem_nil] at hc
  all_goals
    obtain ⟨b, _, rfl⟩ := hc
    simp [DIRECTION.onLine, DIRECTION.nbr]

theorem BP_line_coords_inGrid (d : DIRECTION) (mrf : MRF2D) (a : Nat)
    (ha : a ∈ BP_lines d mrf.width mrf.height) (c : Int × Int)
    (hc : c ∈ BP_line_coords d mrf.width mrf.height a) :
    mrf.InGrid c.1 c.2 ∧ mrf.InGrid (d.nbr c.1 c.2).1 (d.nbr c.1 c.2).2 := by
  apply BP_coords_inGrid d mrf c
  rw [BP_coords_eq_flatMap]
  exact List.mem_flatMap.2 ⟨a, ha, hc⟩

theorem DIRECTION.onLine_nbr (d : DIRECTION) (a : Nat) (x y : Int) :
    d.onLine a (d.nbr x y).1 (d.nbr x y).2 ↔ d.onLine a x y := by
  cases d <;> simp [DIRECTION.onLine, DIRECTION.nbr]

theorem DIRECTION.onLine_unique (d : DIRECTION) (a b : Nat) (x y : Int)
    (ha : d.onLine a x y) (hb : d.onLine b x y) : a = b := by
  cases d <;> simp only [DIRECTION.onLine] at ha hb <;> omega

/-- A loop of `SendMsg` calls leaves every pixel that is not the neighbour of a source as it
is. -/
theorem BP_loop_frame_pix (L : Nat) (d : DIRECTION) (hd : d ≠ DATA) (cs : List (Int × Int))
    (mrf : MRF2D) (hwf : mrf.WF)
    (hcs : ∀ c ∈ cs, mrf.InGrid c.1 c.2 ∧ mrf.InGrid (d.nbr c.1 c.2).1 (d.nbr c.1 c.2).2) :
    ∃ m1, BP_loop L d cs mrf = some m1 ∧ m1.width = mrf.width ∧ m1.height = mrf.height ∧
      m1.WF ∧
      ∀ x y, mrf.InGrid x y → (∀ c ∈ cs, d.nbr c.1 c.2 ≠ (x, y)) →
        m1.pix x y = mrf.pix x y := by
  obtain ⟨m1, h1, hw, hh, hwf1, hpix⟩ := BP_loop_frame L d hd cs mrf hwf hcs
  refine ⟨m1, h1, hw, hh, hwf1, fun x y hxy hno => ?_⟩
  exact Pixel.ext_msg _ _ (fun s l => (hpix x y hxy).2 s l (Or.inr hno)) (hpix x y hxy).1

/-- Two grids that agree on a set of pixels closed under the loop (a source is in the set
exactly when its neighbour is) still agree on it after the same loop of `SendMsg` calls. -/
theorem BP_loop_congr_on (L : Nat) (d : DIRECTION) (hd : d ≠ DATA) (S : Int → Int → Prop)
    (cs : List (Int × Int)) (m m' : MRF2D) (hwf : m.WF) (hwf' : m'.WF)
    (hw : m'.width = m.width) (hh : m'.height = m.height)
    (hcs : ∀ c ∈ cs, m.InGrid c.1 c.2 ∧ m.InGrid (d.nbr c.1 c.2).1 (d.nbr c.1 c.2).2 ∧
      (S (d.nbr c.1 c.2).1 (d.nbr c.1 c.2).2 ↔ S c.1 c.2))
    (hag : ∀ x y, m.InGrid x y → S x y → m'.pix x y = m.pix x y)
    (m1 m1' : MRF2D) (h1 : BP_loop L d cs m = some m1) (h1' : BP_loop L d cs m' = some m1') :
    ∀ x y, m.InGrid x y → S x y → m1'.pix x y = m1.pix x y := by
  induction cs generalizing m m' with
  | nil =>
    unfold BP_loop at h1 h1'
    simp only [List.foldlM_nil, pure, Option.some.injEq] at h1 h1'
    subst h1; subst h1'
    exact hag
  | cons c cs ih =>
    obtain ⟨hc, hn, hS⟩ := hcs c (List.mem_cons_self _ _)
    have g : ∀ x y, m.InGrid x y → m'.InGrid x y := fun x y h => by
      unfold MRF2D.InGrid at h ⊢; rwa [hw, hh]
    have hstep := SendMsg_eq L m hwf c.1 c.2 d hd hc hn
    have hstep' := SendMsg_eq L m' hwf' c.1 c.2 d hd (g _ _ hc) (g _ _ hn)
    unfold BP_loop at h1 h1'
    rw [List.foldlM_cons, hstep] at h1
    rw [List.foldlM_cons, hstep'] at h1'
    simp only [Option.bind_eq_bind, Option.some_bind] at h1 h1'
    refine ih (m.set ((d.nbr c.1 c.2).2 * m.width + (d.nbr c.1 c.2).1)
        ((m.pix (d.nbr c.1 c.2).1 (d.nbr c.1 c.2).2).setMsg L d.recv
          (SendMsg_new_msg L (m.pix c.1 c.2) d)))
      (m'.set ((d.nbr c.1 c.2).2 * m'.width + (d.nbr c.1 c.2).1)
        ((m'.pix (d.nbr c.1 c.2).1 (d.nbr c.1 c.2).2).setMsg L d.recv
          (SendMsg_new_msg L (m'.pix c.1 c.2) d)))
      (MRF2D.set_WF _ _ _ hwf) (MRF2D.set_WF _ _ _ hwf') hw hh
      (fun e he => hcs e (List.mem_cons_of_mem _ he)) ?_ h1 h1'
    intro x y hxy hSxy
    rw [MRF2D.pix_set m hwf _ _ _ _ _ hn hxy, MRF2D.pix_set m' hwf' _ _ _ _ _ (g _ _ hn) (g _ _ hxy)]
    split
    · rename_i heq
      have hSn : S (d.nbr c.1 c.2).1 (d.nbr c.1 c.2).2 := by rw [heq.1, heq.2]; exact hSxy
      rw [hag _ _ hn hSn, hag _ _ hc (hS.1 hSn)]
    · exact hag x y hxy hSxy

/-- Sweeping one row (or column) leaves the pixels of every other row (or column) as they
are, and returns on a `W*H` grid. -/
theorem BP_line_frame (L : Nat) (d : DIRECTION) (hd : d ≠ DATA) (m : MRF2D) (hwf : m.WF)
    (a : Nat) (ha : a ∈ BP_lines d m.width m.height) :
    ∃ m1, BP_line L d m.width m.height a m = some m1 ∧ m1.width = m.width ∧
      m1.height = m.height ∧ m1.WF ∧
      ∀ x y, m.InGrid x y → ¬ d.onLine a x y → m1.pix x y = m.pix x y := by
  obtain ⟨m1, h1, hw, hh, hwf1, hpix⟩ := BP_loop_frame_pix L d hd
    (BP_line_coords d m.width m.height a) m hwf (BP_line_coords_inGrid d m a ha)
  refine ⟨m1, h1, hw, hh, hwf1, fun x y hxy hno => hpix x y hxy ?_⟩
  intro c hc heq
  have := (BP_line_coords_onLine d _ _ a c hc).2
  rw [heq] at this
  exact hno this

/-- The sweep of a row (or column) on two grids that agree on that row gives grids that
agree on that row. -/
theorem BP_line_congr (L : Nat) (d : DIRECTION) (hd : d ≠ DATA) (m m' : MRF2D) (hwf : m.WF)
    (hwf' : m'.WF) (hw : m'.width = m.width) (hh : m'.height = m.height) (a : Nat)
    (ha : a ∈ BP_lines d m.width m.height)
    (hag : ∀ x y, m.InGrid x y → d.onLine a x y → m'.pix x y = m.pix x y)
    (m1 m1' : MRF2D) (h1 : BP_line L d m.width m.height a m = some m1)
    (h1' : BP_line L d m.width m.height a m' = some m1') :
    ∀ x y, m.InGrid x y → d.onLine a x y → m1'.pix x y = m1.pix x y := by
  refine BP_loop_congr_on L d hd (fun x y => d.onLine a x y) _ m m' hwf hwf' hw hh ?_ hag
    m1 m1' h1 h1'
  intro c hc
  obtain ⟨h1, h2⟩ := BP_line_coords_inGrid d m a ha c hc
  exact ⟨h1, h2, DIRECTION.onLine_nbr d a c.1 c.2⟩

/-- The sweeps of two different rows (or columns) commute. -/
theorem BP_line_comm (L : Nat) (d : DIRECTION) (hd : d ≠ DATA) (W H : Int) (m : MRF2D)
    (hwf : m.WF) (hW : m.width = W) (hH : m.height = H) (a b : Nat)
    (ha : a ∈ BP_lines d W H) (hb : b ∈ BP_lines d W H) (hab : a ≠ b) :
    (BP_line L d W H a m).bind (BP_line L d W H b)
      = (BP_line L d W H b m).bind (BP_line L d W H a) := by
  subst hW; subst hH
  obtain ⟨ma, ea, hwa, hha, hwfa, fa⟩ := BP_line_frame L d hd m hwf a ha
  obtain ⟨mb, eb, hwb, hhb, hwfb, fb⟩ := BP_line_frame L d hd m hwf b hb
  obtain ⟨mab, eab, hwab, hhab, hwfab, fab⟩ := BP_line_frame L d hd ma hwfa b
    (by rw [hwa, hha]; exact hb)
  obtain ⟨mba, eba, hwba, hhba, hwfba, fba⟩ := BP_line_frame L d hd mb hwfb a
    (by rw [hwb, hhb]; exact ha)
  rw [hwa, hha] at eab
  rw [hwb, hhb] at eba
  have ga : ∀ x y, m.InGrid x y → ma.InGrid x y := fun x y h => by
    unfold MRF2D.InGrid at h ⊢; rwa [hwa, hha]
  have gb : ∀ x y, m.InGrid x y → mb.InGrid x y := fun x y h => by
    unfold MRF2D.InGrid at h ⊢; rwa [hwb, hhb]
  have key : mab = mba := by
    apply MRF2D.ext_pix mba mab hwfba hwfab (by rw [hwab, hwba, hwa, hwb])
      (by rw [hhab, hhba, hha, hhb])
    intro x y hxy
    have hxym : m.InGrid x y := by
      unfold MRF2D.InGrid at hxy ⊢; rwa [hwba, hhba, hwb, hhb] at hxy
    by_cases hla : d.onLine a x y
    · have hnb : ¬ d.onLine b x y := fun h => hab (DIRECTION.onLine_unique d a b x y hla h)
      rw [fab x y (ga x y hxym) hnb]
      exact (BP_line_congr L d hd m mb hwf hwfb hwb hhb a ha
        (fun x1 y1 h1 hl1 => fb x1 y1 h1
          (fun h => hab (DIRECTION.onLine_unique d a b x1 y1 hl1 h)))
        ma mba ea eba x y hxym hla).symm
    · by_cases hlb : d.onLine b x y
      · rw [fba x y (gb x y hxym) hla]
        exact BP_line_congr L d hd m ma hwf hwfa hwa hha b hb
          (fun x1 y1 h1 hl1 => fa x1 y1 h1
            (fun h => hab (DIRECTION.onLine_unique d a b x1 y1 h hl1)))
          mb mab eb eab x y hxym hlb
      · rw [fab x y (ga x y hxym) hlb, fa x y hxym hla, fba x y (gb x y hxym) hla,
          fb x y hxym hlb]
  rw [ea, eb]
  simp only [Option.some_bind, eab, eba, key]

/-- A monadic fold whose steps commute on the states of an invariant gives the same result
on two lists that are permutations of each other. -/
theorem foldlM_perm {α β : Type} (f : β → α → Option β) (Inv : β → Prop)
    (P : α → Prop) (hinv : ∀ b a b1, Inv b → P a → f b a = some b1 → Inv b1)
    (comm : ∀ b, Inv b → ∀ x y, P x → P y → x ≠ y →
      (f b x).bind (fun b1 => f b1 y) = (f b y).bind (fun b1 => f b1 x))
    {l1 l2 : List α} (hp : l1.Perm l2) (hP : ∀ a ∈ l1, P a) (b : β) (hb : Inv b) :
    l1.foldlM f b = l2.foldlM f b := by
  induction hp generalizing b with
  | nil => rfl
  | cons x _ ih =>
    rw [List.foldlM_cons, List.foldlM_cons]
    cases h : f b x with
    | none => rfl
    | some b1 =>
      simp only [Option.bind_eq_bind, Option.some_bind]
      exact ih (fun a ha => hP a (List.mem_cons_of_mem _ ha)) b1
        (hinv b x b1 hb (hP x (List.mem_cons_self _ _)) h)
  | swap x y l =>
    by_cases hxy : x = y
    · subst hxy; rfl
    · have hc := comm b hb y x (hP y (List.mem_cons_self _ _))
        (hP x (List.mem_cons_of_mem _ (List.mem_cons_self _ _))) (Ne.symm hxy)
      simp only [List.foldlM_cons, Option.bind_eq_bind]
      rw [← Option.bind_assoc, ← Option.bind_assoc, hc]
  | trans hp1 _ ih1 ih2 =>
    rw [ih1 hP b hb]
    exact ih2 (fun a ha => hP a ((hp1.mem_iff).2 ha)) b hb

/-- The per-row (or per-column) sweeps in any order of the rows give the sweep `BP(d)`. -/
theorem BP_in_order_perm (L : Nat) (mrf : MRF2D) (d : DIRECTION) (hd : d ≠ DATA)
    (hwf : mrf.WF) (lines : List Nat) (hp : lines.Perm (BP_lines d mrf.width mrf.height)) :
    BP_in_order L d lines mrf = BP L mrf d := by
  rw [BP_eq_BP_in_order L mrf d hd]
  unfold BP_in_order
  refine foldlM_perm (fun (m : MRF2D) (a : Nat) => BP_line L d mrf.width mrf.height a m)
    (fun m => m.WF ∧ m.width = mrf.width ∧ m.height = mrf.height)
    (fun a => a ∈ BP_lines d mrf.width mrf.height) ?_ ?_ hp (fun a ha => (hp.mem_iff).1 ha)
    mrf ⟨hwf, rfl, rfl⟩
  · intro m a m1 hm ha h
    have hw := hm.2.1
    have hh := hm.2.2
    obtain ⟨m2, e2, hw2, hh2, hwf2, _⟩ := BP_line_frame L d hd m hm.1 a (by
      rw [hw, hh]; exact ha)
    rw [hw, hh] at e2
    simp only at h
    rw [h] at e2
    obtain rfl := Option.some.inj e2
    exact ⟨hwf2, by rw [hw2, hw], by rw [hh2, hh]⟩
  · intro m hm x y hx hy hxy
    exact BP_line_comm L d hd _ _ m hm.1 hm.2.1 hm.2.2 x y hx hy hxy

/-- Sweeping rows (or columns) other than `a` leaves the pixels of row (or column) `a` as
they are. -/
theorem BP_lines_frame (L : Nat) (d : DIRECTION) (hd : d ≠ DATA) (W H : Int) (a : Nat)
    (rest : List Nat) (hrest : ∀ b ∈ rest, b ∈ BP_lines d W H) (ha : a ∉ rest)
    (m : MRF2D) (hwf : m.WF) (hW : m.width = W) (hH : m.height = H) :
    ∃ m1, rest.foldlM (fun (m : MRF2D) (b : Nat) => BP_line L d W H b m) m = some m1 ∧
      ∀ x y, m.InGrid x y → d.onLine a x y → m1.pix x y = m.pix x y := by
  induction rest generalizing m with
  | nil => exact ⟨m, rfl, fun _ _ _ _ => rfl⟩
  | cons b rest ih =>
    subst hW; subst hH
    obtain ⟨mb, eb, hwb, hhb, hwfb, fb⟩ := BP_line_frame L d hd m hwf b
      (hrest b (List.mem_cons_self _ _))
    have hab : a ≠ b := fun h => ha (by rw [h]; exact List.mem_cons_self _ _)
    obtain ⟨m1, e1, f1⟩ := ih (fun c hc => hrest c (List.mem_cons_of_mem _ hc))
      (fun h => ha (List.mem_cons_of_mem _ h)) mb hwfb hwb hhb
    refine ⟨m1, by rw [List.foldlM_cons, eb]; exact e1, fun x y hxy hl => ?_⟩
    have hxyb : mb.InGrid x y := by unfold MRF2D.InGrid at hxy ⊢; rwa [hwb, hhb]
    rw [f1 x y hxyb hl]
    exact fb x y hxy (fun h => hab (DIRECTION.onLine_unique d a b x y hl h))

theorem BP_lines_nodup (d : DIRECTION) (W H : Int) : (BP_lines d W H).Nodup := by
  cases d <;> simp [BP_lines, List.nodup_range]

/-- General form of the independence of the rows (or columns) of a sweep, for any number of
labels. -/
theorem BP_lines_independent (L : Nat) (mrf : MRF2D) (d : DIRECTION) (hd : d ≠ DATA)
    (hwf : mrf.WF) :
    BP L mrf d = BP_in_order L d (BP_lines d mrf.width mrf.height) mrf ∧
    (∀ lines : List Nat, lines.Perm (BP_lines d mrf.width mrf.height) →
      BP_in_order L d lines mrf = BP L mrf d) ∧
    ∃ m1, BP L mrf d = some m1 ∧
      (∀ a ∈ BP_lines d mrf.width mrf.height,
        ∃ ma, BP_line L d mrf.width mrf.height a mrf = some ma ∧
          ∀ x y, mrf.InGrid x y → d.onLine a x y → m1.pix x y = ma.pix x y) ∧
      (∀ mrf' : MRF2D, mrf'.WF → mrf'.width = mrf.width → mrf'.height = mrf.height →
        ∀ a : Nat, (∀ x y, mrf.InGrid x y → d.onLine a x y → mrf'.pix x y = mrf.pix x y) →
          ∃ m1', BP L mrf' d = some m1' ∧
            ∀ x y, mrf.InGrid x y → d.onLine a x y → m1'.pix x y = m1.pix x y) := by
  obtain ⟨m1, h1, _⟩ := BP_spec L mrf d hd hwf
  refine ⟨BP_eq_BP_in_order L mrf d hd, fun lines hp => BP_in_order_perm L mrf d hd hwf lines hp,
    m1, h1, ?_, ?_⟩
  · intro a ha
    obtain ⟨ma, ea, hwa, hha, hwfa, _⟩ := BP_line_frame L d hd mrf hwf a ha
    refine ⟨ma, ea, ?_⟩
    have hp : (a :: (BP_lines d mrf.width mrf.height).erase a).Perm
        (BP_lines d mrf.width mrf.height) := (List.perm_cons_erase ha).symm
    have hord := BP_in_order_perm L mrf d hd hwf _ hp
    rw [h1] at hord
    unfold BP_in_order at hord
    rw [List.foldlM_cons, ea] at hord
    simp only [Option.bind_eq_bind, Option.some_bind] at hord
    obtain ⟨m2, e2, f2⟩ := BP_lines_frame L d hd mrf.width mrf.height a
      ((BP_lines d mrf.width mrf.height).erase a)
      (fun b hb => List.mem_of_mem_erase hb)
      (fun h => ((BP_lines_nodup d _ _).mem_erase_iff.1 h).1 rfl) ma hwfa hwa hha
    rw [e2] at hord
    obtain rfl := Option.some.inj hord
    intro x y hxy hl
    exact f2 x y (by unfold MRF2D.InGrid at hxy ⊢; rwa [hwa, hha]) hl
  · intro mrf' hwf' hw hh a hag
    obtain ⟨m1', h1', _⟩ := BP_spec L mrf' d hd hwf'
    refine ⟨m1', h1', ?_⟩
    have e1 := h1
    have e1' := h1'
    rw [BP_eq_BP_loop L mrf d hd] at e1
    rw [BP_eq_BP_loop L mrf' d hd, hw, hh] at e1'
    refine BP_loop_congr_on L d hd (fun x y => d.onLine a x y) _ mrf mrf' hwf hwf' hw hh ?_ hag
      m1 m1' e1 e1'
    intro c hc
    obtain ⟨g1, g2⟩ := BP_coords_inGrid d mrf c hc
    exact ⟨g1, g2, DIRECTION.onLine_nbr d a c.1 c.2⟩

/-- C18: on a `W*H` grid and for a direction `d` among Left, Right, Up, Down, `BP(d)` is the
composition of the sweeps of the single rows (columns for Up and Down), each scanned in the
raster direction of `BP`, and the composition in any other order of the rows returns the
same grid; after the sweep, row `a` is what the sweep of row `a` alone makes of the grid
before the sweep, and two grids that agree on row `a` before the sweep agree on row `a`
after it. -/
theorem C18_BP_rows_independent (mrf : MRF2D) (d : DIRECTION)
    (hd : d = LEFT ∨ d = RIGHT ∨ d = UP ∨ d = DOWN) (hwf : mrf.WF) :
    BP LABELS mrf d = BP_in_order LABELS d (BP_lines d mrf.width mrf.height) mrf ∧
    (∀ lines : List Nat, lines.Perm (BP_lines d mrf.width mrf.height) →
      BP_in_order LABELS d lines mrf = BP LABELS mrf d) ∧
    ∃ m1, BP LABELS mrf d = some m1 ∧
      (∀ a ∈ BP_lines d mrf.width mrf.height,
        ∃ ma, BP_line LABELS d mrf.width mrf.height a mrf = some ma ∧
          ∀ x y, mrf.InGrid x y → d.onLine a x y → m1.pix x y = ma.pix x y) ∧
      (∀ mrf' : MRF2D, mrf'.WF → mrf'.width = mrf.width → mrf'.height = mrf.height →
        ∀ a : Nat, (∀ x y, mrf.InGrid x y → d.onLine a x y → mrf'.pix x y = mrf.pix x y) →
          ∃ m1', BP LABELS mrf' d = some m1' ∧
            ∀ x y, mrf.InGrid x y → d.onLine a x y → m1'.pix x y = m1.pix x y) :=
  BP_lines_independent LABELS mrf d (by rcases hd with h | h | h | h <;> simp [h]) hwf

/-- C18 at `sampleGrid` and direction Right, with the rows in the order `1, 0`. -/
theorem C18_BP_rows_independent_witness :
    sampleGrid.WF ∧ [1, 0].Perm (BP_lines RIGHT sampleGrid.width sampleGrid.height) ∧
    BP_in_order LABELS RIGHT [1, 0] sampleGrid = BP LABELS sampleGrid RIGHT :=
  ⟨by unfold MRF2D.WF; decide, by decide,
    (C18_BP_rows_independent sampleGrid RIGHT (by decide) (by unfold MRF2D.WF; decide)).2.1
      [1, 0] (by decide)⟩

/-! ## The labels of the program -/

/-- The label of a pixel after the first loop of `MAP`: a label in `[0, L)`, or the prior
value when every label costs `UINT_MAX`. -/
theorem MAP_pixel_label (L : Nat) (p : Pixel) :
    (0 ≤ (MAP_pixel L p).best_assignment ∧ (MAP_pixel L p).best_assignment < L) ∨
    ((MAP_pixel L p).best_assignment = p.best_assignment ∧
      ∀ j < L, MAP_cost p j = UINT_MAX) := by
  by_cases hex : ∃ j < L, MAP_cost p j < UINT_MAX
  · exact Or.inl (MAP_pixel_range L p (Or.inr hex))
  · have hall : ∀ j < L, MAP_cost p j = UINT_MAX := by
      intro j hj
      have h1 := MAP_cost_le_UINT_MAX p j
      have h2 : ¬ MAP_cost p j < UINT_MAX := fun h3 => hex ⟨j, hj, h3⟩
      omega
    refine Or.inr ⟨?_, hall⟩
    simp only [MAP_pixel, MAP_pixel_loop_saturated p L hall]

/-- The assignment phase of `MAP` keeps the labels in `[0, L)` when the prior ones are. -/
theorem MAP_assign_LabelsIn (L : Nat) (mrf : MRF2D) (h : mrf.LabelsIn L) :
    (MAP_assign L mrf).LabelsIn L := by
  intro q hq
  simp only [MAP_assign, List.mem_map] at hq
  obtain ⟨p, hp, rfl⟩ := hq
  exact MAP_pixel_range L p (Or.inl (h p hp))

/-- The labels of a `W*H` grid are in `[0, L)` when those of its pixels are. -/
theorem LabelsIn_of_pix (L : Nat) (mrf : MRF2D) (hwf : mrf.WF)
    (h : ∀ x y, mrf.InGrid x y →
      0 ≤ (mrf.pix x y).best_assignment ∧ (mrf.pix x y).best_assignment < L) :
    mrf.LabelsIn L := by
  intro p hp
  obtain ⟨x, y, hxy, rfl⟩ := mrf.mem_grid_pix hwf p hp
  exact h x y hxy

/-- From a `W*H` grid with labels in `[0, L)` the loop of `main` returns after any number
of iterations, with one energy per iteration and labels in `[0, L)`. -/
theorem main_loop_labels (L : Nat) (k : Nat) (mrf : MRF2D) (hwf : mrf.WF)
    (hlab : mrf.LabelsIn L) :
    ∃ mk energies, main_loop L k mrf = some (mk, energies) ∧ energies.length = k ∧
      mk.width = mrf.width ∧ mk.height = mrf.height ∧ mk.WF ∧ mk.LabelsIn L := by
  induction k generalizing mrf with
  | zero => exact ⟨mrf, [], rfl, rfl, rfl, rfl, hwf, hlab⟩
  | succ k ih =>
    obtain ⟨_, _, _, m4, _, _, _, _, hs, hw, hh, hwf4, hp⟩ := BP_sweeps_spec L mrf hwf
    have hlab4 : m4.LabelsIn L := by
      refine LabelsIn_of_pix L m4 hwf4 fun x y hxy => ?_
      have hxy0 : mrf.InGrid x y := by unfold MRF2D.InGrid at hxy ⊢; rwa [hw, hh] at hxy
      rw [(hp x y hxy0).1]
      exact hlab _ (mrf.pix_mem hwf x y hxy0)
    have hmap := MAP_eq L m4 hwf4 (MAP_assign_LabelsIn L m4 hlab4)
    obtain ⟨mk, es, hk, hlen, hwk, hhk, hwfk, hlabk⟩ :=
      ih (MAP_assign L m4) (MAP_assign_WF L m4 hwf4) (MAP_assign_LabelsIn L m4 hlab4)
    refine ⟨mk, u32 (dataEnergy (MAP_assign L m4) + 2 * edgeEnergy (MAP_assign L m4)) :: es,
      by simp only [main_loop, hs, hmap, hk], by simp [hlen],
      by rw [hwk]; exact hw, by rw [hhk]; exact hh, hwfk, hlabk⟩

/-- C4 (amended): for every grid state with any message values whose prior
`best_assignment` values lie in `[0, 16)`, `MAP` assigns every pixel a label in `[0, 16)`
(and returns when the grid is `W*H`); for an arbitrary prior value the label after `MAP` lies
in `[0, 16)` or is the prior value, the latter only when all 16 decode costs of the pixel
equal `2^32 - 1`; and every state in which the program calls `MAP` has its prior values in
`[0, 16)`: from the grid that `InitDataCost` builds from the default-constructed one, where
every label is 0, the loop of `main` returns after any number of iterations with all labels
in `[0, 16)`. -/
theorem C4_MAP_labels_in_range :
    (∀ mrf : MRF2D, mrf.LabelsIn LABELS →
      (MAP_assign LABELS mrf).LabelsIn LABELS ∧
      (mrf.WF → ∃ e, MAP LABELS mrf = some (MAP_assign LABELS mrf, e))) ∧
    (∀ (mrf : MRF2D) (n : Nat) (p : Pixel), mrf.grid[n]? = some p →
      ∃ q, (MAP_assign LABELS mrf).grid[n]? = some q ∧
        ((0 ≤ q.best_assignment ∧ q.best_assignment < 16) ∨
          (q.best_assignment = p.best_assignment ∧
            ∀ j < LABELS, MAP_cost p j = 2 ^ 32 - 1))) ∧
    (∀ (left right : Mat) (k : Nat), left.data = true → right.data = true →
      ∃ mrf mrfk energies, InitDataCost LABELS left right MRF2D.empty = some mrf ∧
        (∀ p ∈ mrf.grid, p.best_assignment = 0) ∧
        main_loop LABELS k mrf = some (mrfk, energies) ∧ energies.length = k ∧
        mrfk.LabelsIn LABELS) := by
  refine ⟨fun mrf hlab => ⟨MAP_assign_LabelsIn LABELS mrf hlab,
      fun hwf => ⟨_, MAP_eq LABELS mrf hwf (MAP_assign_LabelsIn LABELS mrf hlab)⟩⟩, ?_, ?_⟩
  · intro mrf n p hn
    refine ⟨MAP_pixel LABELS p, by simp [MAP_assign, hn], ?_⟩
    rcases MAP_pixel_label LABELS p with h | h
    · exact Or.inl (by simpa [LABELS] using h)
    · exact Or.inr h
  · intro left right k hl hr
    obtain ⟨mrf, h, hwf, hz⟩ := InitDataCost_fresh LABELS left right MRF2D.empty rfl hl hr
    have hzero : ∀ p ∈ mrf.grid, p.best_assignment = 0 := by
      intro p hp
      obtain ⟨x, y, hxy, rfl⟩ := mrf.mem_grid_pix hwf p hp
      exact hz x y hxy
    have hlab : mrf.LabelsIn LABELS := fun p hp => by
      rw [hzero p hp]; exact ⟨le_refl _, by decide⟩
    obtain ⟨mk, es, hk, hlen, _, _, _, hlabk⟩ := main_loop_labels LABELS k mrf hwf hlab
    exact ⟨mrf, mk, es, h, hzero, hk, hlen, hlabk⟩

set_option maxRecDepth 100000 in
/-- C4 (amended) at the `1 x 1` grid whose pixel has decode cost `UINT_MAX` at every label
and prior label 5, and at a `34 x 33` image pair with three iterations. -/
theorem C4_MAP_labels_in_range_witness :
    saturatedGridInRange.LabelsIn LABELS ∧ saturatedGridInRange.WF ∧
    (MAP_assign LABELS saturatedGridInRange).LabelsIn LABELS ∧
    (∃ e, MAP LABELS saturatedGridInRange = some (MAP_assign LABELS saturatedGridInRange, e)) ∧
    (constImage 33 34 255).data = true ∧ (constImage 33 34 0).data = true ∧
    ∃ mrf mrfk energies,
      InitDataCost LABELS (constImage 33 34 255) (constImage 33 34 0) MRF2D.empty = some mrf ∧
      (∀ p ∈ mrf.grid, p.best_assignment = 0) ∧
      main_loop LABELS 3 mrf = some (mrfk, energies) ∧ energies.length = 3 ∧
      mrfk.LabelsIn LABELS :=
  ⟨by unfold MRF2D.LabelsIn; decide, by unfold MRF2D.WF; decide,
    (C4_MAP_labels_in_range.1 saturatedGridInRange (by unfold MRF2D.LabelsIn; decide)).1,
    (C4_MAP_labels_in_range.1 saturatedGridInRange (by unfold MRF2D.LabelsIn; decide)).2
      (by unfold MRF2D.WF; decide),
    rfl, rfl,
    C4_MAP_labels_in_range.2.2 (constImage 33 34 255) (constImage 33 34 0) 3 rfl rfl⟩

/-! ## Images of different sizes -/

theorem InitDataCost_no_data (L : Nat) (left right : Mat) (mrf0 : MRF2D)
    (h : left.data = false ∨ right.data = false) : InitDataCost L left right mrf0 = none := by
  rcases h with h | h
  · simp [InitDataCost, h]
  · simp [InitDataCost, h]

/-- The reads of the data costs that `InitDataCost` computes, when the right image has at
least the rows and columns of the left one: those from the left image are pixels of it,
those from the right image are in rows `14 .. H-15` and columns `-1 .. W-15`, inside its
buffer. -/
theorem DataCostStereo_reads_in_buffer (left right : Mat) (x y : Int) (l : Nat)
    (hrows : left.rows ≤ right.rows) (hcols : left.cols ≤ right.cols)
    (hint : Interior LABELS left.cols left.rows x y) (hl : l < LABELS) :
    ∀ rd ∈ DataCostStereo_reads x y l,
      left.Inside rd.1.1 rd.1.2 ∧ right.InBuffer rd.2.1 rd.2.2 ∧
      14 ≤ rd.2.1 ∧ rd.2.1 + 14 < left.rows ∧ -1 ≤ rd.2.2 ∧ rd.2.2 + 14 < left.cols := by
  intro rd hrd
  simp only [DataCostStereo_reads, DataCostStereo_offsets, List.mem_map, List.mem_flatMap,
    mem_intRange, wradius] at hrd
  obtain ⟨d, ⟨dy, hdy, dx, hdx, rfl⟩, rfl⟩ := hrd
  simp only [Interior, LABELS] at hint hl
  simp only [Mat.Inside, Mat.InBuffer]
  have hr : (left.rows : Int) ≤ right.rows := by exact_mod_cast hrows
  have hc : (left.cols : Int) ≤ right.cols := by exact_mod_cast hcols
  have hl2 : (l : Int) < 16 := by exact_mod_cast hl
  have hl0 : (0 : Int) ≤ l := by positivity
  refine ⟨⟨by omega, by omega, by omega, by omega⟩, ⟨?_, ?_⟩, by omega, by omega, by omega,
    by omega⟩
  · have h1 : (1 : Int) * right.cols ≤ (y + dy) * right.cols :=
      mul_le_mul_of_nonneg_right (by omega) (by omega)
    omega
  · have h1 : (y + dy + 1) * (right.cols : Int) ≤ right.rows * right.cols :=
      mul_le_mul_of_nonneg_right (by omega) (by omega)
    have e : (y + dy + 1) * (right.cols : Int) = (y + dy) * right.cols + right.cols := by ring
    omega

/-- C8 (amended): `InitDataCost` fails whenever the left or the right image is empty (has no
data).  It does not compare the dimensions of the two images: for a loaded left image of
size `W x H` and a loaded right image with at least `H` rows and at least `W` columns, of
the same size or not, it returns a grid of the size of the left image (width `W`, height
`H`, `W*H` elements), and every byte that its data costs read is a pixel of the left image
or lies in the buffer of the right image (in rows `14 .. H-15` and columns `-1 .. W-15`). -/
theorem C8_InitDataCost_no_dimension_check (left right : Mat) (mrf0 : MRF2D) :
    ((left.data = false ∨ right.data = false) → InitDataCost LABELS left right mrf0 = none) ∧
    (left.data = true → right.data = true →
      left.rows ≤ right.rows → left.cols ≤ right.cols →
      (∃ mrf, InitDataCost LABELS left right mrf0 = some mrf ∧
        mrf.width = (left.cols : Int) ∧ mrf.height = (left.rows : Int) ∧
        mrf.grid.length = left.cols * left.rows) ∧
      ∀ x y, Interior LABELS left.cols left.rows x y → ∀ l : Nat, l < LABELS →
        ∀ rd ∈ DataCostStereo_reads x y l,
          left.Inside rd.1.1 rd.1.2 ∧ right.InBuffer rd.2.1 rd.2.2 ∧
          14 ≤ rd.2.1 ∧ rd.2.1 + 14 < left.rows ∧ -1 ≤ rd.2.2 ∧ rd.2.2 + 14 < left.cols) := by
  refine ⟨InitDataCost_no_data LABELS left right mrf0, fun hl hr hrows hcols => ⟨?_, ?_⟩⟩
  · obtain ⟨mrf, h, hw, hh, hwf, _⟩ := InitDataCost_eq LABELS left right mrf0 hl hr
    refine ⟨mrf, h, hw, hh, ?_⟩
    have := hwf.2.2
    rw [hw, hh] at this
    exact_mod_cast this
  · intro x y hint l hlt
    exact DataCostStereo_reads_in_buffer left right x y l hrows hcols hint hlt

/-- C8 (amended) at a loaded `34 x 33` left image and a loaded `50 x 40` right image. -/
theorem C8_InitDataCost_no_dimension_check_witness :
    (constImage 33 34 7).data = true ∧ (constImage 40 50 9).data = true ∧
    (constImage 33 34 7).rows ≤ (constImage 40 50 9).rows ∧
    (constImage 33 34 7).cols ≤ (constImage 40 50 9).cols ∧
    (constImage 33 34 7).rows ≠ (constImage 40 50 9).rows ∧
    (constImage 33 34 7).cols ≠ (constImage 40 50 9).cols ∧
    (∃ mrf, InitDataCost LABELS (constImage 33 34 7) (constImage 40 50 9) MRF2D.empty
        = some mrf ∧
      mrf.width = 34 ∧ mrf.height = 33 ∧ mrf.grid.length = 34 * 33) ∧
    ∀ x y, Interior LABELS 34 33 x y → ∀ l : Nat, l < LABELS →
      ∀ rd ∈ DataCostStereo_reads x y l,
        (constImage 33 34 7).Inside rd.1.1 rd.1.2 ∧ (constImage 40 50 9).InBuffer rd.2.1 rd.2.2 ∧
        14 ≤ rd.2.1 ∧ rd.2.1 + 14 < 33 ∧ -1 ≤ rd.2.2 ∧ rd.2.2 + 14 < 34 :=
  ⟨rfl, rfl, by decide, by decide, by decide, by decide,
    (C8_InitDataCost_no_dimension_check (constImage 33 34 7) (constImage 40 50 9) MRF2D.empty).2
      rfl rfl (by decide) (by decide)⟩

/-! ## A bound on the messages along the sweeps -/

theorem SendMsg_new_msg_le_base (L : Nat) (src : Pixel) (d : DIRECTION) (hd : d ≠ DATA)
    (i : Nat) (hi : i < L) : SendMsg_new_msg L src d i ≤ cavityBase src d i := by
  have h1 := SendMsg_new_msg_le L src d i i hi
  rw [SendMsg_p_eq_u32 src d hd] at h1
  have h2 : u32 (cavitySum src d i i) ≤ cavityBase src d i := by
    rw [cavitySum_eq, SmoothnessCost_self, Nat.zero_add]; exact u32_le _
  omega

theorem MRF2D.MsgGrowth_mono (L : Nat) (mrf : MRF2D) (a b a1 b1 : Nat) (ha : a ≤ a1)
    (hb : b ≤ b1) (h : mrf.MsgGrowth L a b) : mrf.MsgGrowth L a1 b1 := by
  intro x y hxy l hl
  obtain ⟨h1, h2, h3, h4, h5⟩ := h x y hxy l hl
  exact ⟨h1, le_trans h2 (Nat.mul_le_mul_left _ ha), le_trans h3 (Nat.mul_le_mul_left _ ha),
    le_trans h4 (Nat.mul_le_mul_left _ hb), le_trans h5 (Nat.mul_le_mul_left _ hb)⟩

/-- The three slots and the Data entry that an update reads are together at most the bound
of the slot that it writes. -/
theorem cavityBase_le_of_growth (L : Nat) (mrf : MRF2D) (a b : Nat) (d : DIRECTION)
    (hd : d ≠ DATA) (hab : d.stepOK mrf a b) (hG : mrf.MsgGrowth L a b) (x y : Int)
    (hs : mrf.InGrid x y) (ht : mrf.InGrid (d.nbr x y).1 (d.nbr x y).2) (l : Nat) (hl : l < L) :
    cavityBase (mrf.pix x y) d l ≤
      match d with
      | LEFT => (mrf.width - 1 - (x - 1)).toNat * a
      | RIGHT => (x + 1).toNat * a
      | UP => (mrf.height - 1 - (y - 1)).toNat * b
      | DOWN => (y + 1).toNat * b
      | DATA => 0 := by
  obtain ⟨h1, h2, h3, h4, h5⟩ := hG x y hs l hl
  obtain ⟨hx0, hx, hy0, hy⟩ := hs
  have eV : y.toNat * b + (mrf.height - 1 - y).toNat * b = (mrf.height - 1).toNat * b := by
    rw [← Nat.add_mul]; congr 1; omega
  have eH : x.toNat * a + (mrf.width - 1 - x).toNat * a = (mrf.width - 1).toNat * a := by
    rw [← Nat.add_mul]; congr 1; omega
  cases d
  · -- LEFT
    simp only [DIRECTION.nbr, MRF2D.InGrid] at ht
    simp only [DIRECTION.stepOK] at hab
    have e : (mrf.width - 1 - (x - 1)).toNat * a = (mrf.width - 1 - x).toNat * a + a := by
      rw [show (mrf.width - 1 - (x - 1)).toNat = (mrf.width - 1 - x).toNat + 1 by omega]; ring
    simp only [cavityBase, otherSlots, List.filter, List.map, List.sum_cons, List.sum_nil, e]
    omega
  · -- RIGHT
    simp only [DIRECTION.nbr, MRF2D.InGrid] at ht
    simp only [DIRECTION.stepOK] at hab
    have e : (x + 1).toNat * a = x.toNat * a + a := by
      rw [show (x + 1).toNat = x.toNat + 1 by omega]; ring
    simp only [cavityBase, otherSlots, List.filter, List.map, List.sum_cons, List.sum_nil, e]
    omega
  · -- UP
    simp only [DIRECTION.nbr, MRF2D.InGrid] at ht
    simp only [DIRECTION.stepOK] at hab
    have e : (mrf.height - 1 - (y - 1)).toNat * b = (mrf.height - 1 - y).toNat * b + b := by
      rw [show (mrf.height - 1 - (y - 1)).toNat = (mrf.height - 1 - y).toNat + 1 by omega]; ring
    simp only [cavityBase, otherSlots, List.filter, List.map, List.sum_cons, List.sum_nil, e]
    omega
  · -- DOWN
    simp only [DIRECTION.nbr, MRF2D.InGrid] at ht
    simp only [DIRECTION.stepOK] at hab
    have e : (y + 1).toNat * b = y.toNat * b + b := by
      rw [show (y + 1).toNat = y.toNat + 1 by omega]; ring
    simp only [cavityBase, otherSlots, List.filter, List.map, List.sum_cons, List.sum_nil, e]
    omega
  · exact absurd rfl hd

/-- One update keeps the bound on the messages. -/
theorem SendMsg_growth (L : Nat) (mrf : MRF2D) (hwf : mrf.WF) (a b : Nat) (d : DIRECTION)
    (hd : d ≠ DATA) (hab : d.stepOK mrf a b) (hG : mrf.MsgGrowth L a b) (x y : Int)
    (hs : mrf.InGrid x y) (ht : mrf.InGrid (d.nbr x y).1 (d.nbr x y).2) :
    (mrf.set ((d.nbr x y).2 * mrf.width + (d.nbr x y).1)
      ((mrf.pix (d.nbr x y).1 (d.nbr x y).2).setMsg L d.recv
        (SendMsg_new_msg L (mrf.pix x y) d))).MsgGrowth L a b := by
  intro x1 y1 hxy1 l hl
  have hxy : mrf.InGrid x1 y1 := hxy1
  rw [MRF2D.pix_set mrf hwf _ _ _ _ _ ht hxy, MRF2D.set_width, MRF2D.set_height]
  split
  · rename_i heq
    obtain ⟨rfl, rfl⟩ := heq
    obtain ⟨h1, h2, h3, h4, h5⟩ := hG _ _ ht l hl
    have hnew := le_trans (SendMsg_new_msg_le_base L (mrf.pix x y) d hd l hl)
      (cavityBase_le_of_growth L mrf a b d hd hab hG x y hs ht l hl)
    cases d
    · simp only [DIRECTION.nbr, DIRECTION.recv] at h1 h2 h3 h4 h5 hnew ⊢
      simp only [Pixel.setMsg_msg, hl, and_true, reduceCtorEq, if_false, if_true]
      exact ⟨h1, h2, hnew, h4, h5⟩
    · simp only [DIRECTION.nbr, DIRECTION.recv] at h1 h2 h3 h4 h5 hnew ⊢
      simp only [Pixel.setMsg_msg, hl, and_true, reduceCtorEq, if_false, if_true]
      exact ⟨h1, hnew, h3, h4, h5⟩
    · simp only [DIRECTION.nbr, DIRECTION.recv] at h1 h2 h3 h4 h5 hnew ⊢
      simp only [Pixel.setMsg_msg, hl, and_true, reduceCtorEq, if_false, if_true]
      exact ⟨h1, h2, h3, h4, hnew⟩
    · simp only [DIRECTION.nbr, DIRECTION.recv] at h1 h2 h3 h4 h5 hnew ⊢
      simp only [Pixel.setMsg_msg, hl, and_true, reduceCtorEq, if_false, if_true]
      exact ⟨h1, h2, h3, hnew, h5⟩
    · exact absurd rfl hd
  · exact hG x1 y1 hxy l hl

/-- A loop of `SendMsg` calls whose sources and neighbours are inside the grid returns and
keeps the bound on the messages. -/
theorem BP_loop_growth (L : Nat) (d : DIRECTION) (hd : d ≠ DATA) (a b : Nat)
    (cs : List (Int × Int)) (mrf : MRF2D) (hwf : mrf.WF)
    (hcs : ∀ c ∈ cs, mrf.InGrid c.1 c.2 ∧ mrf.InGrid (d.nbr c.1 c.2).1 (d.nbr c.1 c.2).2)
    (hab : d.stepOK mrf a b) (hG : mrf.MsgGrowth L a b) :
    ∃ m1, BP_loop L d cs mrf = some m1 ∧ m1.width = mrf.width ∧ m1.height = mrf.height ∧
      m1.WF ∧ m1.MsgGrowth L a b := by
  induction cs generalizing mrf with
  | nil => exact ⟨mrf, rfl, rfl, rfl, hwf, hG⟩
  | cons c cs ih =>
    obtain ⟨hc, hn⟩ := hcs c (List.mem_cons_self _ _)
    have hstep := SendMsg_eq L mrf hwf c.1 c.2 d hd hc hn
    obtain ⟨m1, h1, hw, hh, hwf1, hG1⟩ := ih
      (mrf.set ((d.nbr c.1 c.2).2 * mrf.width + (d.nbr c.1 c.2).1)
        ((mrf.pix (d.nbr c.1 c.2).1 (d.nbr c.1 c.2).2).setMsg L d.recv
          (SendMsg_new_msg L (mrf.pix c.1 c.2) d)))
      (MRF2D.set_WF _ _ _ hwf) (fun e he => hcs e (List.mem_cons_of_mem _ he))
      (by cases d <;> exact hab)
      (SendMsg_growth L mrf hwf a b d hd hab hG c.1 c.2 hc hn)
    refine ⟨m1, ?_, hw, hh, hwf1, hG1⟩
    unfold BP_loop at h1 ⊢
    rw [List.foldlM_cons, hstep]
    exact h1

/-- Under the bound on the messages every sum that an update forms at a pixel is at most
`295 + (W-1) * a + (H-1) * b`. -/
theorem cavitySum_le_of_growth (L : Nat) (mrf : MRF2D) (a b : Nat) (hG : mrf.MsgGrowth L a b)
    (d : DIRECTION) (hd : d ≠ DATA) (x y : Int) (hs : mrf.InGrid x y) (i j : Nat) (hj : j < L) :
    cavitySum (mrf.pix x y) d i j
      ≤ 295 + (mrf.width - 1).toNat * a + (mrf.height - 1).toNat * b := by
  obtain ⟨h1, h2, h3, h4, h5⟩ := hG x y hs j hj
  obtain ⟨hx0, hx, hy0, hy⟩ := hs
  have hS := SmoothnessCost_le i j
  have eV : y.toNat * b + (mrf.height - 1 - y).toNat * b = (mrf.height - 1).toNat * b := by
    rw [← Nat.add_mul]; congr 1; omega
  have eH : x.toNat * a + (mrf.width - 1 - x).toNat * a = (mrf.width - 1).toNat * a := by
    rw [← Nat.add_mul]; congr 1; omega
  cases d
  · simp only [cavitySum, otherSlots, List.filter, List.map, List.sum_cons, List.sum_nil]
    omega
  · simp only [cavitySum, otherSlots, List.filter, List.map, List.sum_cons, List.sum_nil]
    omega
  · simp only [cavitySum, otherSlots, List.filter, List.map, List.sum_cons, List.sum_nil]
    omega
  · simp only [cavitySum, otherSlots, List.filter, List.map, List.sum_cons, List.sum_nil]
    omega
  · exact absurd rfl hd

theorem SweepSumsLe_mono (L : Nat) (d : DIRECTION) (mrf : MRF2D) (N N1 : Nat) (h : N ≤ N1)
    (hS : SweepSumsLe L d mrf N) : SweepSumsLe L d mrf N1 := by
  intro pre c post hsplit
  obtain ⟨m, hm, hle⟩ := hS pre c post hsplit
  exact ⟨m, hm, fun i hi j hj => le_trans (hle i hi j hj) h⟩

theorem IterationSumsLe_mono (L : Nat) (mrf : MRF2D) (N N1 : Nat) (h : N ≤ N1)
    (hS : IterationSumsLe L mrf N) : IterationSumsLe L mrf N1 := by
  obtain ⟨m1, m2, m3, h1, h2, h3, s1, s2, s3, s4⟩ := hS
  exact ⟨m1, m2, m3, h1, h2, h3, SweepSumsLe_mono L _ _ N N1 h s1,
    SweepSumsLe_mono L _ _ N N1 h s2, SweepSumsLe_mono L _ _ N N1 h s3,
    SweepSumsLe_mono L _ _ N N1 h s4⟩

/-- Under the bound on the messages the sweep `BP(d)` returns, keeps the bound, and
every sum that it forms is at most `295 + (W-1) * a + (H-1) * b`. -/
theorem BP_growth (L : Nat) (mrf : MRF2D) (d : DIRECTION) (hd : d ≠ DATA) (hwf : mrf.WF)
    (a b : Nat) (hab : d.stepOK mrf a b) (hG : mrf.MsgGrowth L a b) :
    ∃ m1, BP L mrf d = some m1 ∧ m1.width = mrf.width ∧ m1.height = mrf.height ∧ m1.WF ∧
      m1.MsgGrowth L a b ∧
      SweepSumsLe L d mrf (295 + (mrf.width - 1).toNat * a + (mrf.height - 1).toNat * b) := by
  obtain ⟨m1, h1, hw, hh, hwf1, hG1⟩ := BP_loop_growth L d hd a b
    (BP_coords d mrf.width mrf.height) mrf hwf (fun c hc => BP_coords_inGrid d mrf c hc) hab hG
  refine ⟨m1, by rw [BP_eq_BP_loop L mrf d hd, h1], hw, hh, hwf1, hG1, ?_⟩
  intro pre c post hsplit
  have hmem : ∀ e ∈ pre, e ∈ BP_coords d mrf.width mrf.height := fun e he => by
    rw [hsplit]; exact List.mem_append_left _ he
  have hc : c ∈ BP_coords d mrf.width mrf.height := by
    rw [hsplit]; exact List.mem_append_right _ (List.mem_cons_self _ _)
  obtain ⟨m, hm, hwm, hhm, _, hGm⟩ := BP_loop_growth L d hd a b pre mrf hwf
    (fun e he => BP_coords_inGrid d mrf e (hmem e he)) hab hG
  refine ⟨m, hm, fun i _ j hj => ?_⟩
  have hin : m.InGrid c.1 c.2 := by
    have := (BP_coords_inGrid d mrf c hc).1
    unfold MRF2D.InGrid at this ⊢
    rwa [hwm, hhm]
  have := cavitySum_le_of_growth L m a b hGm d hd c.1 c.2 hin i j hj
  rwa [hwm, hhm] at this

/-- One iteration under the bound with steps `a`, `b`: with `a1` at least `a` and
`255 + (H-1) * b`, and `b1` at least `b` and `255 + (W-1) * a1`, the four sweeps return, the
bound holds afterwards with steps `a1`, `b1`, and every sum formed is at most
`295 + (W-1) * a1 + (H-1) * b1`. -/
theorem BP_sweeps_growth (L : Nat) (mrf : MRF2D) (hwf : mrf.WF) (a b a1 b1 : Nat)
    (ha : a ≤ a1) (hb : b ≤ b1) (ha1 : 255 + (mrf.height - 1).toNat * b ≤ a1)
    (hb1 : 255 + (mrf.width - 1).toNat * a1 ≤ b1) (hG : mrf.MsgGrowth L a b) :
    ∃ m4, BP_sweeps L mrf = some m4 ∧ m4.width = mrf.width ∧ m4.height = mrf.height ∧
      m4.WF ∧ m4.MsgGrowth L a1 b1 ∧
      IterationSumsLe L mrf
        (295 + (mrf.width - 1).toNat * a1 + (mrf.height - 1).toNat * b1) := by
  have hmul : (mrf.height - 1).toNat * b ≤ (mrf.height - 1).toNat * b1 :=
    Nat.mul_le_mul_left _ hb
  obtain ⟨m1, h1, hw1, hh1, hwf1, hG1, s1⟩ := BP_growth L mrf RIGHT (by decide) hwf a1 b
    ha1 (mrf.MsgGrowth_mono L a b a1 b ha (le_refl _) hG)
  obtain ⟨m2, h2, hw2, hh2, hwf2, hG2, s2⟩ := BP_growth L m1 LEFT (by decide) hwf1 a1 b
    (by simp only [DIRECTION.stepOK, hh1]; exact ha1) hG1
  obtain ⟨m3, h3, hw3, hh3, hwf3, hG3, s3⟩ := BP_growth L m2 UP (by decide) hwf2 a1 b1
    (by simp only [DIRECTION.stepOK, hw2, hw1]; exact hb1)
    (m2.MsgGrowth_mono L a1 b a1 b1 (le_refl _) hb hG2)
  obtain ⟨m4, h4, hw4, hh4, hwf4, hG4, s4⟩ := BP_growth L m3 DOWN (by decide) hwf3 a1 b1
    (by simp only [DIRECTION.stepOK, hw3, hw2, hw1]; exact hb1) hG3
  refine ⟨m4, by simp [BP_sweeps, h1, h2, h3, h4], by rw [hw4, hw3, hw2, hw1],
    by rw [hh4, hh3, hh2, hh1], hwf4, hG4, m1, m2, m3, h1, h2, h3, ?_, ?_, ?_, ?_⟩
  · exact SweepSumsLe_mono L _ _ _ _ (by omega) s1
  · rw [hw1, hh1] at s2
    exact SweepSumsLe_mono L _ _ _ _ (by omega) s2
  · rw [hw2, hh2, hw1, hh1] at s3
    exact s3
  · rw [hw3, hh3, hw2, hh2, hw1, hh1] at s4
    exact s4

theorem growthSteps_mono (W H k : Nat) :
    (growthSteps W H k).1 ≤ (growthSteps W H (k + 1)).1 ∧
    (growthSteps W H k).2 ≤ (growthSteps W H (k + 1)).2 := by
  induction k with
  | zero => simp [growthSteps]
  | succ k ih =>
    have h1 : (growthSteps W H (k + 1)).1 ≤ (growthSteps W H (k + 1 + 1)).1 := by
      show 255 + (H - 1) * (growthSteps W H k).2 ≤ 255 + (H - 1) * (growthSteps W H (k + 1)).2
      have := Nat.mul_le_mul_left (H - 1) ih.2
      omega
    refine ⟨h1, ?_⟩
    show 255 + (W - 1) * (growthSteps W H (k + 1)).1
      ≤ 255 + (W - 1) * (growthSteps W H (k + 1 + 1)).1
    have := Nat.mul_le_mul_left (W - 1) h1
    omega

/-- The iterations can be taken one at the end. -/
theorem BP_iterations_succ (L : Nat) (k : Nat) (mrf : MRF2D) :
    BP_iterations L (k + 1) mrf = (BP_iterations L k mrf).bind (BP_sweeps L) := by
  have e1 : ∀ (n : Nat) (m0 : MRF2D), BP_iterations L (n + 1) m0 =
      match BP_sweeps L m0 with
      | none => none
      | some m => BP_iterations L n m := fun _ _ => rfl
  induction k generalizing mrf with
  | zero =>
    have e0 : BP_iterations L 0 mrf = some mrf := rfl
    rw [e1 0 mrf, e0, Option.some_bind]
    cases BP_sweeps L mrf <;> rfl
  | succ k ih =>
    rw [e1 (k + 1) mrf, e1 k mrf]
    cases BP_sweeps L mrf with
    | none => rfl
    | some m => exact ih m

/-- From a `W x H` grid with zero messages and data entries of at most 255, the message
passing of `k` iterations returns, the bound holds afterwards with the steps `(a_k, b_k)`,
and every sum formed in these iterations is at most `295 + (W-1) * a_k + (H-1) * b_k`. -/
theorem BP_iterations_growth (L : Nat) (W H : Nat) (mrf : MRF2D) (hwf : mrf.WF)
    (hw : mrf.width = (W : Int)) (hh : mrf.height = (H : Int)) (hG : mrf.MsgGrowth L 0 0)
    (k : Nat) :
    ∃ mk, BP_iterations L k mrf = some mk ∧ mk.width = mrf.width ∧ mk.height = mrf.height ∧
      mk.WF ∧ mk.MsgGrowth L (growthSteps W H k).1 (growthSteps W H k).2 ∧
      ∀ j < k, ∃ mj, BP_iterations L j mrf = some mj ∧
        IterationSumsLe L mj
          (295 + (W - 1) * (growthSteps W H k).1 + (H - 1) * (growthSteps W H k).2) := by
  have eW : ((W : Int) - 1).toNat = W - 1 := by omega
  have eH : ((H : Int) - 1).toNat = H - 1 := by omega
  induction k with
  | zero => exact ⟨mrf, rfl, rfl, rfl, hwf, hG, fun j hj => absurd hj (Nat.not_lt_zero _)⟩
  | succ k ih =>
    obtain ⟨mk, hk, hwk, hhk, hwfk, hGk, hsums⟩ := ih
    obtain ⟨hm1, hm2⟩ := growthSteps_mono W H k
    obtain ⟨m4, h4, hw4, hh4, hwf4, hG4, hI⟩ := BP_sweeps_growth L mk hwfk
      (growthSteps W H k).1 (growthSteps W H k).2
      (growthSteps W H (k + 1)).1 (growthSteps W H (k + 1)).2 hm1 hm2
      (by rw [hhk, hh, eH]; exact le_refl _) (by rw [hwk, hw, eW]; exact le_refl _) hGk
    rw [hwk, hhk, hw, hh, eW, eH] at hI
    refine ⟨m4, by rw [BP_iterations_succ, hk]; exact h4, by rw [hw4, hwk], by rw [hh4, hhk],
      hwf4, hG4, ?_⟩
    intro j hj
    rcases Nat.lt_succ_iff_lt_or_eq.1 hj with h | h
    · obtain ⟨mj, hmj, hs⟩ := hsums j h
      refine ⟨mj, hmj, IterationSumsLe_mono L mj _ _ ?_ hs⟩
      have := Nat.mul_le_mul_left (W - 1) hm1
      have := Nat.mul_le_mul_left (H - 1) hm2
      omega
    · subst h
      exact ⟨mk, hk, hI⟩

/-- The grid that `InitDataCost` builds satisfies the bound on the messages with steps 0. -/
theorem InitDataCost_growth (L : Nat) (left right : Mat) (mrf0 : MRF2D)
    (hl : left.data = true) (hr : right.data = true) :
    ∃ mrf, InitDataCost L left right mrf0 = some mrf ∧
      mrf.width = (left.cols : Int) ∧ mrf.height = (left.rows : Int) ∧ mrf.WF ∧
      mrf.MsgGrowth L 0 0 := by
  obtain ⟨mrf, h, hw, hh, hwf, hpix⟩ := InitDataCost_eq L left right mrf0 hl hr
  refine ⟨mrf, h, hw, hh, hwf, fun x y hxy l hlt => ?_⟩
  have hD : (mrf.pix x y).msg DATA l ≤ 255 := by
    rw [hpix x y hxy DATA l hlt]
    have := DataCostStereo_le left right x y l
    split <;> omega
  have hz : ∀ s, s ≠ DATA → (mrf.pix x y).msg s l = 0 := fun s hs => by
    rw [hpix x y hxy s l hlt]; simp [hs]
  rw [hz LEFT (by decide), hz RIGHT (by decide), hz UP (by decide), hz DOWN (by decide)]
  exact ⟨hD, Nat.zero_le _, Nat.zero_le _, Nat.zero_le _, Nat.zero_le _⟩

/-- C9 (amended): from the state `InitDataCost` produces for a loaded image pair with a
left image of size `W x H`, the message passing of `k` iterations returns; afterwards, at the
pixel in column `x` and row `y`, every Data entry is at most 255, every Left entry at most
`x * a_k`, every Right entry at most `(W-1-x) * a_k`, every Up entry at most `y * b_k` and
every Down entry at most `(H-1-y) * b_k`, where `a_0 = b_0 = 0`,
`a_{k+1} = 255 + (H-1) * b_k` and `b_{k+1} = 255 + (W-1) * a_{k+1}`; and every sum
`SmoothnessCost(i, j) + msg[Data][j] +` three slots that an update of the first `k`
iterations forms is at most `295 + (W-1) * a_k + (H-1) * b_k`, so that no addition of an
update wraps when this number is below `2^32`. -/
theorem C9_messages_growth_bound (left right : Mat) (mrf0 : MRF2D)
    (hl : left.data = true) (hr : right.data = true) (k : Nat) :
    ∃ mrf mrfk, InitDataCost LABELS left right mrf0 = some mrf ∧
      BP_iterations LABELS k mrf = some mrfk ∧
      (∀ x y : Nat, x < left.cols → y < left.rows → ∀ l < LABELS,
        (mrfk.pix x y).msg DATA l ≤ 255 ∧
        (mrfk.pix x y).msg LEFT l ≤ x * (growthSteps left.cols left.rows k).1 ∧
        (mrfk.pix x y).msg RIGHT l
          ≤ (left.cols - 1 - x) * (growthSteps left.cols left.rows k).1 ∧
        (mrfk.pix x y).msg UP l ≤ y * (growthSteps left.cols left.rows k).2 ∧
        (mrfk.pix x y).msg DOWN l
          ≤ (left.rows - 1 - y) * (growthSteps left.cols left.rows k).2) ∧
      ∀ j < k, ∃ mrfj, BP_iterations LABELS j mrf = some mrfj ∧
        IterationSumsLe LABELS mrfj
          (295 + (left.cols - 1) * (growthSteps left.cols left.rows k).1
            + (left.rows - 1) * (growthSteps left.cols left.rows k).2) := by
  obtain ⟨mrf, h, hw, hh, hwf, hG⟩ := InitDataCost_growth LABELS left right mrf0 hl hr
  obtain ⟨mk, hk, hwk, hhk, _, hGk, hsums⟩ :=
    BP_iterations_growth LABELS left.cols left.rows mrf hwf hw hh hG k
  refine ⟨mrf, mk, h, hk, ?_, hsums⟩
  intro x y hx hy l hlt
  have hin : mk.InGrid x y := by
    unfold MRF2D.InGrid; rw [hwk, hhk, hw, hh]; omega
  obtain ⟨h1, h2, h3, h4, h5⟩ := hGk x y hin l hlt
  rw [hwk, hw] at h3
  rw [hhk, hh] at h5
  have e1 : (x : Int).toNat = x := Int.toNat_natCast x
  have e2 : (y : Int).toNat = y := Int.toNat_natCast y
  have e3 : ((left.cols : Int) - 1 - (x : Int)).toNat = left.cols - 1 - x := by omega
  have e4 : ((left.rows : Int) - 1 - (y : Int)).toNat = left.rows - 1 - y := by omega
  rw [e1] at h2
  rw [e2] at h4
  rw [e3] at h3
  rw [e4] at h5
  exact ⟨h1, h2, h3, h4, h5⟩

/-- C9 (amended) at a `34 x 33` image pair and two iterations, where `a_2 = 277695`,
`b_2 = 9164190` and no sum formed exceeds `302418310`, which is below `2^32`; with three
iterations the bound on the sums is not below `2^32`. -/
theorem C9_messages_growth_bound_witness :
    (constImage 33 34 255).data = true ∧ (constImage 33 34 0).data = true ∧
    growthSteps 34 33 1 = (255, 8670) ∧ growthSteps 34 33 2 = (277695, 9164190) ∧
    295 + (34 - 1) * 277695 + (33 - 1) * 9164190 = 302418310 ∧ 302418310 < 2 ^ 32 ∧
    2 ^ 32 ≤ 295 + (34 - 1) * (growthSteps 34 33 3).1 + (33 - 1) * (growthSteps 34 33 3).2 ∧
    ∃ mrf mrfk, InitDataCost LABELS (constImage 33 34 255) (constImage 33 34 0) MRF2D.empty
        = some mrf ∧
      BP_iterations LABELS 2 mrf = some mrfk ∧
      (∀ x y : Nat, x < 34 → y < 33 → ∀ l < LABELS,
        (mrfk.pix x y).msg DATA l ≤ 255 ∧
        (mrfk.pix x y).msg LEFT l ≤ x * (growthSteps 34 33 2).1 ∧
        (mrfk.pix x y).msg RIGHT l ≤ (34 - 1 - x) * (growthSteps 34 33 2).1 ∧
        (mrfk.pix x y).msg UP l ≤ y * (growthSteps 34 33 2).2 ∧
        (mrfk.pix x y).msg DOWN l ≤ (33 - 1 - y) * (growthSteps 34 33 2).2) ∧
      ∀ j < 2, ∃ mrfj, BP_iterations LABELS j mrf = some mrfj ∧
        IterationSumsLe LABELS mrfj
          (295 + (34 - 1) * (growthSteps 34 33 2).1 + (33 - 1) * (growthSteps 34 33 2).2) :=
  ⟨rfl, rfl, by decide, by decide, by decide, by decide, by decide,
    C9_messages_growth_bound (constImage 33 34 255) (constImage 33 34 0) MRF2D.empty rfl rfl 2⟩

/-! ## Sums that reach `2^32` -/

theorem cavitySum_congr (p q : Pixel) (h : ∀ s l, p.msg s l = q.msg s l) (d : DIRECTION)
    (i j : Nat) : cavitySum p d i j = cavitySum q d i j := by
  simp only [cavitySum, h]

theorem BP_loop_append (L : Nat) (d : DIRECTION) (cs1 cs2 : List (Int × Int)) (mrf : MRF2D) :
    BP_loop L d (cs1 ++ cs2) mrf = (BP_loop L d cs1 mrf).bind (BP_loop L d cs2) := by
  unfold BP_loop
  rw [List.foldlM_append]
  rfl

/-- The source of an update has, in the grid after the sweep, the messages that it has when
`SendMsg` is called at it. -/
theorem BP_source_at_call (L : Nat) (mrf : MRF2D) (d : DIRECTION) (hd : d ≠ DATA)
    (hwf : mrf.WF) (pre post : List (Int × Int)) (c : Int × Int)
    (hsplit : BP_coords d mrf.width mrf.height = pre ++ c :: post) :
    ∃ m m1, BP_loop L d pre mrf = some m ∧ BP L mrf d = some m1 ∧
      ∀ s l, (m1.pix c.1 c.2).msg s l = (m.pix c.1 c.2).msg s l := by
  have hmem : ∀ e ∈ pre ++ c :: post,
      mrf.InGrid e.1 e.2 ∧ mrf.InGrid (d.nbr e.1 e.2).1 (d.nbr e.1 e.2).2 := fun e he =>
    BP_coords_inGrid d mrf e (by rw [hsplit]; exact he)
  obtain ⟨m, hm, hwm, hhm, hwfm, _⟩ := BP_loop_frame L d hd pre mrf hwf
    (fun e he => hmem e (List.mem_append_left _ he))
  have hin : ∀ x y, mrf.InGrid x y → m.InGrid x y := fun x y h => by
    unfold MRF2D.InGrid at h ⊢; rwa [hwm, hhm]
  obtain ⟨m1, h1, _, _, _, hfr⟩ := BP_loop_frame L d hd (c :: post) m hwfm
    (fun e he => ⟨hin _ _ (hmem e (List.mem_append_right _ he)).1,
      hin _ _ (hmem e (List.mem_append_right _ he)).2⟩)
  refine ⟨m, m1, hm, ?_, ?_⟩
  · rw [BP_eq_BP_loop L mrf d hd, hsplit, BP_loop_append, hm]
    exact h1
  · intro s l
    have hord := BP_coords_ordered d mrf.width mrf.height
    unfold SweepOrdered at hord
    rw [hsplit, List.pairwise_append] at hord
    have hc := (List.pairwise_cons.1 hord.2.1).1
    refine (hfr c.1 c.2 (hin _ _ (hmem c (List.mem_append_right _
      (List.mem_cons_self _ _))).1)).2 s l (Or.inr ?_)
    intro e he
    rcases List.mem_cons.1 he with rfl | he1
    · intro heq
      exact DIRECTION.nbr_ne d hd e.1 e.2 ⟨congrArg Prod.fst heq, congrArg Prod.snd heq⟩
    · exact (hc e he1).2

/-- The state after a sweep in which no sum exceeds `UINT_MAX`: every written entry is at
least one of the sums, without the smoothness term, of its source as it is after the
sweep. -/
theorem BP_nowrap_lower (L : Nat) (hL : 0 < L) (mrf : MRF2D) (d : DIRECTION) (hd : d ≠ DATA)
    (hwf : mrf.WF) (hS : SweepSumsLe L d mrf UINT_MAX) :
    ∃ m1, BP L mrf d = some m1 ∧ m1.width = mrf.width ∧ m1.height = mrf.height ∧ m1.WF ∧
      (∀ x y, mrf.InGrid x y → ∀ s l, s ≠ d.recv →
        (m1.pix x y).msg s l = (mrf.pix x y).msg s l) ∧
      ∀ c ∈ BP_coords d mrf.width mrf.height, ∀ l < L,
        (m1.pix (d.nbr c.1 c.2).1 (d.nbr c.1 c.2).2).msg d.recv l ≤ UINT_MAX ∧
        ∃ j < L, cavityBase (m1.pix c.1 c.2) d j
          ≤ (m1.pix (d.nbr c.1 c.2).1 (d.nbr c.1 c.2).2).msg d.recv l := by
  obtain ⟨m1, h1, hw, hh, hwf1, hfr, hval⟩ := BP_spec L mrf d hd hwf
  refine ⟨m1, h1, hw, hh, hwf1, fun x y hxy s l hs => (hfr x y hxy).2 s l (Or.inl hs), ?_⟩
  intro c hc l hl
  rw [hval c hc l hl]
  refine ⟨SendMsg_new_msg_le_UINT_MAX _ _ _ _, ?_⟩
  obtain ⟨j, hj, e⟩ := SendMsg_new_msg_attained L hL (m1.pix c.1 c.2) d l
  refine ⟨j, hj, ?_⟩
  obtain ⟨pre, post, hsplit⟩ := List.append_of_mem hc
  obtain ⟨m, m1', hm, h1', hsame⟩ := BP_source_at_call L mrf d hd hwf pre post c hsplit
  rw [h1] at h1'
  obtain rfl := Option.some.inj h1'
  obtain ⟨m', hm', hle⟩ := hS pre c post hsplit
  rw [hm] at hm'
  obtain rfl := Option.some.inj hm'
  have hlt : cavitySum (m1.pix c.1 c.2) d l j < 4294967296 := by
    rw [cavitySum_congr _ _ hsame]
    have := hle l hl j hj
    unfold UINT_MAX at this
    omega
  rw [e, SendMsg_p_of_lt _ d hd l j hlt, cavitySum_eq]
  exact Nat.le_add_left _ _

/-- A lower bound on the Left and Right messages of row `y` after the Right and the Left
sweep, when no sum of the two sweeps exceeds `UINT_MAX`: with `g x` a lower bound of
`msg[Data] + msg[Up] + msg[Down]` in column `x`, the Left entries in column `x` are at least
`Bl x` and the Right entries at least `Br (W-1-x)`, for any `Bl`, `Br` that start at 0 and
grow by at most `g` from one column to the next. -/
theorem row_lower (L : Nat) (hL : 0 < L) (mrf : MRF2D) (hwf : mrf.WF) (W : Nat)
    (hw : mrf.width = (W : Int)) (y : Int) (hy0 : 0 ≤ y) (hy : y < mrf.height)
    (g Bl Br : Nat → Nat) (hl0 : Bl 0 = 0) (hr0 : Br 0 = 0)
    (hBl : ∀ x, Bl (x + 1) ≤ Bl x + g x) (hBr : ∀ t, Br (t + 1) ≤ Br t + g (W - 1 - t))
    (hg : ∀ x : Nat, x < W → ∀ j < L,
      g x ≤ (mrf.pix x y).msg DATA j + (mrf.pix x y).msg UP j + (mrf.pix x y).msg DOWN j)
    (m1 m2 : MRF2D) (h1 : BP L mrf RIGHT = some m1) (h2 : BP L m1 LEFT = some m2)
    (hS1 : SweepSumsLe L RIGHT mrf UINT_MAX) (hS2 : SweepSumsLe L LEFT m1 UINT_MAX) :
    ∀ x : Nat, x < W → ∀ l < L,
      Bl x ≤ (m2.pix x y).msg LEFT l ∧ Br (W - 1 - x) ≤ (m2.pix x y).msg RIGHT l := by
  obtain ⟨m1', h1', hw1, hh1, hwf1, hfr1, hlow1⟩ :=
    BP_nowrap_lower L hL mrf RIGHT (by decide) hwf hS1
  rw [h1] at h1'
  obtain rfl := Option.some.inj h1'
  obtain ⟨m2', h2', hw2, hh2, hwf2, hfr2, hlow2⟩ :=
    BP_nowrap_lower L hL m1 LEFT (by decide) hwf1 hS2
  rw [h2] at h2'
  obtain rfl := Option.some.inj h2'
  have hin0 : ∀ x : Nat, x < W → mrf.InGrid x y := fun x hx => by
    unfold MRF2D.InGrid; rw [hw]; omega
  have hin1 : ∀ x : Nat, x < W → m1.InGrid x y := fun x hx => by
    unfold MRF2D.InGrid; rw [hw1, hh1, hw]; omega
  -- the Right sweep
  have hA : ∀ x : Nat, x < W → ∀ l < L, Bl x ≤ (m1.pix x y).msg LEFT l := by
    intro x
    induction x with
    | zero => intro _ l _; rw [hl0]; exact Nat.zero_le _
    | succ x ih =>
      intro hx l hl
      have hc : ((x : Int), y) ∈ BP_coords RIGHT mrf.width mrf.height :=
        (mem_BP_coords RIGHT (by decide) mrf x y).2 ⟨hin0 x (by omega), by
          have := hin0 (x + 1) hx
          simpa [DIRECTION.nbr] using this⟩
      obtain ⟨_, j, hj, hle⟩ := hlow1 _ hc l hl
      simp only [DIRECTION.nbr, DIRECTION.recv, cavityBase, otherSlots, List.filter, List.map,
        List.sum_cons, List.sum_nil] at hle
      have e1 := hfr1 x y (hin0 x (by omega)) DATA j (by decide)
      have e2 := hfr1 x y (hin0 x (by omega)) UP j (by decide)
      have e3 := hfr1 x y (hin0 x (by omega)) DOWN j (by decide)
      have hgx := hg x (by omega) j hj
      have hih := ih (by omega) j hj
      have hb := hBl x
      have ecast : ((x + 1 : Nat) : Int) = (x : Int) + 1 := by push_cast; rfl
      rw [ecast]
      omega
  -- the Left sweep
  have hC : ∀ t : Nat, t < W → ∀ l < L,
      Br t ≤ (m2.pix ((W : Int) - 1 - (t : Int)) y).msg RIGHT l := by
    intro t
    induction t with
    | zero => intro _ l _; rw [hr0]; exact Nat.zero_le _
    | succ t ih =>
      intro ht l hl
      have hs : m1.InGrid ((W : Int) - 1 - (t : Int)) y := by
        unfold MRF2D.InGrid; rw [hw1, hh1, hw]; omega
      have hn : m1.InGrid ((W : Int) - 1 - (t : Int) - 1) y := by
        unfold MRF2D.InGrid; rw [hw1, hh1, hw]; omega
      have hc : ((W : Int) - 1 - (t : Int), y) ∈ BP_coords LEFT m1.width m1.height :=
        (mem_BP_coords LEFT (by decide) m1 _ y).2 ⟨hs, by simpa [DIRECTION.nbr] using hn⟩
      obtain ⟨_, j, hj, hle⟩ := hlow2 _ hc l hl
      simp only [DIRECTION.nbr, DIRECTION.recv, cavityBase, otherSlots, List.filter, List.map,
        List.sum_cons, List.sum_nil] at hle
      have ecol : (W : Int) - 1 - (t : Int) = ((W - 1 - t : Nat) : Int) := by omega
      have hs0 : mrf.InGrid ((W : Int) - 1 - (t : Int)) y := by
        unfold MRF2D.InGrid; rw [hw]; omega
      have e1 := hfr2 _ y hs DATA j (by decide)
      have e2 := hfr2 _ y hs UP j (by decide)
      have e3 := hfr2 _ y hs DOWN j (by decide)
      have f1 := hfr1 _ y hs0 DATA j (by decide)
      have f2 := hfr1 _ y hs0 UP j (by decide)
      have f3 := hfr1 _ y hs0 DOWN j (by decide)
      have hgx := hg (W - 1 - t) (by omega) j hj
      rw [← ecol] at hgx
      have hih := ih (by omega) j hj
      have hb := hBr t
      have ecast : (W : Int) - 1 - ((t + 1 : Nat) : Int) = (W : Int) - 1 - (t : Int) - 1 := by
        push_cast; ring
      rw [ecast]
      omega
  intro x hx l hl
  constructor
  · rw [hfr2 x y (hin1 x hx) LEFT l (by decide)]
    exact hA x hx l hl
  · have := hC (W - 1 - x) (by omega) l hl
    have e : (W : Int) - 1 - ((W - 1 - x : Nat) : Int) = (x : Int) := by omega
    rwa [e] at this

/-- A lower bound after one iteration in which no sum exceeds `UINT_MAX`: the Down entries of
row 16 are at least the Left plus Right bounds of row 17, and the Up entries of row 17 are at
least the Left plus Right bounds of row 16, the bounds being those of `row_lower`. -/
theorem iteration_lower (L : Nat) (hL : 0 < L) (mrf : MRF2D) (hwf : mrf.WF) (W : Nat)
    (hw : mrf.width = (W : Int)) (hH : 17 < mrf.height)
    (hS : IterationSumsLe L mrf UINT_MAX)
    (g16 Bl16 Br16 g17 Bl17 Br17 : Nat → Nat)
    (hl16 : Bl16 0 = 0) (hr16 : Br16 0 = 0) (hl17 : Bl17 0 = 0) (hr17 : Br17 0 = 0)
    (hBl16 : ∀ x, Bl16 (x + 1) ≤ Bl16 x + g16 x)
    (hBr16 : ∀ t, Br16 (t + 1) ≤ Br16 t + g16 (W - 1 - t))
    (hBl17 : ∀ x, Bl17 (x + 1) ≤ Bl17 x + g17 x)
    (hBr17 : ∀ t, Br17 (t + 1) ≤ Br17 t + g17 (W - 1 - t))
    (hg16 : ∀ x : Nat, x < W → ∀ j < L,
      g16 x ≤ (mrf.pix x 16).msg DATA j + (mrf.pix x 16).msg UP j + (mrf.pix x 16).msg DOWN j)
    (hg17 : ∀ x : Nat, x < W → ∀ j < L,
      g17 x ≤ (mrf.pix x 17).msg DATA j + (mrf.pix x 17).msg UP j
        + (mrf.pix x 17).msg DOWN j) :
    ∃ m4, BP_sweeps L mrf = some m4 ∧ m4.width = mrf.width ∧ m4.height = mrf.height ∧
      m4.WF ∧
      ∀ x : Nat, x < W → ∀ l < L,
        (m4.pix x 16).msg DOWN l ≤ UINT_MAX ∧
        Bl17 x + Br17 (W - 1 - x) ≤ (m4.pix x 16).msg DOWN l ∧
        Bl16 x + Br16 (W - 1 - x) ≤ (m4.pix x 17).msg UP l := by
  obtain ⟨m1, m2, m3, h1, h2, h3, s1, s2, s3, s4⟩ := hS
  obtain ⟨m1', h1', hw1, hh1, hwf1, _, _⟩ := BP_nowrap_lower L hL mrf RIGHT (by decide) hwf s1
  rw [h1] at h1'
  obtain rfl := Option.some.inj h1'
  obtain ⟨m2', h2', hw2, hh2, hwf2, _, _⟩ := BP_nowrap_lower L hL m1 LEFT (by decide) hwf1 s2
  rw [h2] at h2'
  obtain rfl := Option.some.inj h2'
  obtain ⟨m3', h3', hw3, hh3, hwf3, hfr3, hlow3⟩ :=
    BP_nowrap_lower L hL m2 UP (by decide) hwf2 s3
  rw [h3] at h3'
  obtain rfl := Option.some.inj h3'
  obtain ⟨m4, h4, hw4, hh4, hwf4, hfr4, hlow4⟩ :=
    BP_nowrap_lower L hL m3 DOWN (by decide) hwf3 s4
  have r16 := row_lower L hL mrf hwf W hw 16 (by decide) (by omega) g16 Bl16 Br16 hl16 hr16
    hBl16 hBr16 hg16 m1 m2 h1 h2 s1 s2
  have r17 := row_lower L hL mrf hwf W hw 17 (by decide) hH g17 Bl17 Br17 hl17 hr17
    hBl17 hBr17 hg17 m1 m2 h1 h2 s1 s2
  refine ⟨m4, by simp [BP_sweeps, h1, h2, h3, h4], by rw [hw4, hw3, hw2, hw1],
    by rw [hh4, hh3, hh2, hh1], hwf4, ?_⟩
  intro x hx l hl
  have in2 : ∀ y : Int, 0 ≤ y → y < mrf.height → m2.InGrid x y := fun y h0 h => by
    unfold MRF2D.InGrid; rw [hw2, hh2, hw1, hh1, hw]; omega
  have in3 : ∀ y : Int, 0 ≤ y → y < mrf.height → m3.InGrid x y := fun y h0 h => by
    unfold MRF2D.InGrid; rw [hw3, hh3, hw2, hh2, hw1, hh1, hw]; omega
  -- the Up sweep writes the Down slot of row 16 from row 17
  have hc3 : ((x : Int), (17 : Int)) ∈ BP_coords UP m2.width m2.height :=
    (mem_BP_coords UP (by decide) m2 x 17).2 ⟨in2 17 (by decide) hH, by
      have := in2 16 (by decide) (by omega)
      simpa [DIRECTION.nbr] using this⟩
  obtain ⟨hmax, j3, hj3, hle3⟩ := hlow3 _ hc3 l hl
  simp only [DIRECTION.nbr, DIRECTION.recv, cavityBase, otherSlots, List.filter, List.map,
    List.sum_cons, List.sum_nil] at hle3 hmax
  have e31 := hfr3 x 17 (in2 17 (by decide) hH) LEFT j3 (by decide)
  have e32 := hfr3 x 17 (in2 17 (by decide) hH) RIGHT j3 (by decide)
  have b17 := r17 x hx j3 hj3
  have k16 := hfr4 x 16 (in3 16 (by decide) (by omega)) DOWN l (by decide)
  have e16 : (17 : Int) - 1 = 16 := by norm_num
  rw [e16] at hle3 hmax
  -- the Down sweep writes the Up slot of row 17 from row 16
  have hc4 : ((x : Int), (16 : Int)) ∈ BP_coords DOWN m3.width m3.height :=
    (mem_BP_coords DOWN (by decide) m3 x 16).2 ⟨in3 16 (by decide) (by omega), by
      have := in3 17 (by decide) hH
      simpa [DIRECTION.nbr] using this⟩
  obtain ⟨_, j4, hj4, hle4⟩ := hlow4 _ hc4 l hl
  simp only [DIRECTION.nbr, DIRECTION.recv, cavityBase, otherSlots, List.filter, List.map,
    List.sum_cons, List.sum_nil] at hle4
  have e17 : (16 : Int) + 1 = 17 := by norm_num
  rw [e17] at hle4
  have e41 := hfr4 x 16 (in3 16 (by decide) (by omega)) LEFT j4 (by decide)
  have e42 := hfr4 x 16 (in3 16 (by decide) (by omega)) RIGHT j4 (by decide)
  have f41 := hfr3 x 16 (in2 16 (by decide) (by omega)) LEFT j4 (by decide)
  have f42 := hfr3 x 16 (in2 16 (by decide) (by omega)) RIGHT j4 (by decide)
  have b16 := r16 x hx j4 hj4
  exact ⟨by rw [k16]; exact hmax, by rw [k16]; omega, by omega⟩

theorem SweepSumsLe_of_not_reaches (L : Nat) (d : DIRECTION) (hd : d ≠ DATA) (mrf : MRF2D)
    (hwf : mrf.WF) (N : Nat) (h : ¬ SweepSumReaches L d mrf (N + 1)) :
    SweepSumsLe L d mrf N := by
  intro pre c post hsplit
  obtain ⟨m, hm, _⟩ := BP_loop_frame L d hd pre mrf hwf (fun e he =>
    BP_coords_inGrid d mrf e (by rw [hsplit]; exact List.mem_append_left _ he))
  refine ⟨m, hm, fun i hi j hj => ?_⟩
  by_contra hgt
  exact h ⟨pre, c, post, m, i, j, hsplit, hm, hi, hj, by omega⟩

/-- On a `W*H` grid, when not every sum of an iteration is at most `N`, one of them reaches
`N + 1`. -/
theorem IterationSumReaches_of_not_le (L : Nat) (mrf : MRF2D) (hwf : mrf.WF) (N : Nat)
    (h : ¬ IterationSumsLe L mrf N) : IterationSumReaches L mrf (N + 1) := by
  obtain ⟨m1, h1, _, _, hwf1, _, _⟩ := BP_spec L mrf RIGHT (by decide) hwf
  obtain ⟨m2, h2, _, _, hwf2, _, _⟩ := BP_spec L m1 LEFT (by decide) hwf1
  obtain ⟨m3, h3, _, _, hwf3, _, _⟩ := BP_spec L m2 UP (by decide) hwf2
  refine ⟨m1, m2, m3, h1, h2, h3, ?_⟩
  by_contra hc
  simp only [not_or] at hc
  exact h ⟨m1, m2, m3, h1, h2, h3,
    SweepSumsLe_of_not_reaches L RIGHT (by decide) mrf hwf N hc.1,
    SweepSumsLe_of_not_reaches L LEFT (by decide) m1 hwf1 N hc.2.1,
    SweepSumsLe_of_not_reaches L UP (by decide) m2 hwf2 N hc.2.2.1,
    SweepSumsLe_of_not_reaches L DOWN (by decide) m3 hwf3 N hc.2.2.2⟩

/-- For the `34 x 33` image pair with left bytes 255 and right bytes 0: as long as no sum
exceeds `UINT_MAX`, after `n + 1` iterations the Down entries of row 16 (`n` odd) or the Up
entries of row 17 (`n` even) are at least `255 * 33^n`. -/
theorem lower_bound_chain (mrf : MRF2D)
    (h : InitDataCost LABELS (constImage 33 34 255) (constImage 33 34 0) MRF2D.empty = some mrf)
    (n : Nat)
    (hno : ∀ j ≤ n, ∀ mj, BP_iterations LABELS j mrf = some mj →
      IterationSumsLe LABELS mj UINT_MAX) :
    ∃ m, BP_iterations LABELS (n + 1) mrf = some m ∧ m.WF ∧ m.width = 34 ∧ m.height = 33 ∧
      ∀ x : Nat, x < 34 → ∀ l < LABELS,
        (m.pix x 16).msg DOWN l ≤ UINT_MAX ∧
        (n % 2 = 1 → 255 * 33 ^ n ≤ (m.pix x 16).msg DOWN l) ∧
        (n % 2 = 0 → 255 * 33 ^ n ≤ (m.pix x 17).msg UP l) := by
  induction n with
  | zero =>
    obtain ⟨mrf', h', hw, hh, hwf, hpix⟩ := InitDataCost_eq LABELS (constImage 33 34 255)
      (constImage 33 34 0) MRF2D.empty rfl rfl
    rw [h] at h'
    obtain rfl := Option.some.inj h'
    have hW : mrf.width = ((34 : Nat) : Int) := hw
    have hH : mrf.height = 33 := hh
    have hdata : ∀ x : Nat, x < 34 → ∀ j < LABELS,
        (mrf.pix x 16).msg DATA j = if 16 ≤ x ∧ x < 18 then 255 else 0 := by
      intro x hx j hj
      have hin : mrf.InGrid x 16 := by unfold MRF2D.InGrid; rw [hW, hH]; omega
      rw [hpix x 16 hin DATA j hj, DataCostStereo_constImage]
      have e : Interior LABELS (constImage 33 34 255).cols (constImage 33 34 255).rows x 16
          ↔ (16 ≤ x ∧ x < 18) := by
        simp only [Interior, constImage, LABELS]; omega
      simp only [e, and_true]
      rfl
    obtain ⟨m4, h4, hw4, hh4, hwf4, hlow⟩ := iteration_lower LABELS (by decide) mrf hwf 34 hW
      (by rw [hH]; decide) (hno 0 (le_refl _) mrf rfl)
      (fun x => if 16 ≤ x ∧ x < 18 then 255 else 0)
      (fun x => if 16 < x then 255 else 0) (fun t => if 16 < t then 255 else 0)
      (fun _ => 0) (fun _ => 0) (fun _ => 0) rfl rfl rfl rfl
      (fun x => by simp only; split_ifs <;> omega)
      (fun t => by simp only; split_ifs <;> omega)
      (fun _ => Nat.zero_le _) (fun _ => Nat.zero_le _)
      (fun x hx j hj => by beta_reduce; rw [hdata x hx j hj]; omega)
      (fun _ _ _ _ => Nat.zero_le _)
    refine ⟨m4, by simp only [BP_iterations, h4], hwf4, by rw [hw4, hW]; rfl, by rw [hh4, hH],
      fun x hx l hl => ?_⟩
    obtain ⟨b1, _, b3⟩ := hlow x hx l hl
    refine ⟨b1, fun hodd => absurd hodd (by decide), fun _ => ?_⟩
    split_ifs at b3 <;> omega
  | succ n ih =>
    obtain ⟨m, hk, hwf, hw, hh, hb⟩ := ih (fun j hj => hno j (by omega))
    have hW : m.width = ((34 : Nat) : Int) := hw
    have hS := hno (n + 1) (le_refl _) m hk
    have e33 : ∀ (x Q : Nat), x < 34 → x * Q + (34 - 1 - x) * Q = 33 * Q := fun x Q hx => by
      have e : x + (34 - 1 - x) = 33 := by omega
      rw [← Nat.add_mul, e]
    rcases Nat.mod_two_eq_zero_or_one n with hpar | hpar
    · -- the Up entries of row 17 feed the Down entries of row 16
      obtain ⟨m4, h4, hw4, hh4, hwf4, hlow⟩ := iteration_lower LABELS (by decide) m hwf 34 hW
        (by rw [hh]; decide) hS
        (fun _ => 0) (fun _ => 0) (fun _ => 0)
        (fun _ => 255 * 33 ^ n) (fun x => x * (255 * 33 ^ n)) (fun t => t * (255 * 33 ^ n))
        rfl rfl (Nat.zero_mul _) (Nat.zero_mul _)
        (fun _ => Nat.zero_le _) (fun _ => Nat.zero_le _)
        (fun x => by simp only [Nat.add_mul, Nat.one_mul]; exact le_refl _)
        (fun t => by simp only [Nat.add_mul, Nat.one_mul]; exact le_refl _)
        (fun _ _ _ _ => Nat.zero_le _)
        (fun x hx j hj => by have := ((hb x hx j hj).2.2 hpar); beta_reduce; omega)
      refine ⟨m4, by rw [BP_iterations_succ, hk]; exact h4, hwf4, by rw [hw4, hw],
        by rw [hh4, hh], fun x hx l hl => ?_⟩
      obtain ⟨b1, b2, _⟩ := hlow x hx l hl
      refine ⟨b1, fun _ => ?_, fun heven => by omega⟩
      rw [e33 x _ hx] at b2
      rw [pow_succ]
      omega
    · -- the Down entries of row 16 feed the Up entries of row 17
      obtain ⟨m4, h4, hw4, hh4, hwf4, hlow⟩ := iteration_lower LABELS (by decide) m hwf 34 hW
        (by rw [hh]; decide) hS
        (fun _ => 255 * 33 ^ n) (fun x => x * (255 * 33 ^ n)) (fun t => t * (255 * 33 ^ n))
        (fun _ => 0) (fun _ => 0) (fun _ => 0)
        (Nat.zero_mul _) (Nat.zero_mul _) rfl rfl
        (fun x => by simp only [Nat.add_mul, Nat.one_mul]; exact le_refl _)
        (fun t => by simp only [Nat.add_mul, Nat.one_mul]; exact le_refl _)
        (fun _ => Nat.zero_le _) (fun _ => Nat.zero_le _)
        (fun x hx j hj => by have := ((hb x hx j hj).2.1 hpar); beta_reduce; omega)
        (fun _ _ _ _ => Nat.zero_le _)
      refine ⟨m4, by rw [BP_iterations_succ, hk]; exact h4, hwf4, by rw [hw4, hw],
        by rw [hh4, hh], fun x hx l hl => ?_⟩
      obtain ⟨b1, _, b3⟩ := hlow x hx l hl
      refine ⟨b1, fun hodd => by omega, fun _ => ?_⟩
      rw [e33 x _ hx] at b3
      rw [pow_succ]
      omega

/-- For the `34 x 33` image pair with left bytes 255 and right bytes 0, a sum formed by an
update reaches `2^32` in one of the first six iterations. -/
theorem sum_reaches_within_six (mrf : MRF2D)
    (h : InitDataCost LABELS (constImage 33 34 255) (constImage 33 34 0) MRF2D.empty
      = some mrf) :
    ∃ j < 6, ∃ mj, BP_iterations LABELS j mrf = some mj ∧
      IterationSumReaches LABELS mj (2 ^ 32) := by
  by_contra hcon
  have hwf : mrf.WF := by
    obtain ⟨mrf', h', _, _, hwf, _⟩ := InitDataCost_eq LABELS (constImage 33 34 255)
      (constImage 33 34 0) MRF2D.empty rfl rfl
    rw [h] at h'
    obtain rfl := Option.some.inj h'
    exact hwf
  have hno : ∀ j ≤ 5, ∀ mj, BP_iterations LABELS j mrf = some mj →
      IterationSumsLe LABELS mj UINT_MAX := by
    intro j hj mj hmj
    by_contra hle
    obtain ⟨m1, h1, _, _, hwf1, _⟩ := BP_iterations_spec LABELS j mrf hwf
    rw [hmj] at h1
    obtain rfl := Option.some.inj h1
    exact hcon ⟨j, by omega, mj, hmj, IterationSumReaches_of_not_le LABELS mj hwf1 UINT_MAX hle⟩
  obtain ⟨m, _, _, _, _, hb⟩ := lower_bound_chain mrf h 5 hno
  obtain ⟨b1, b2, _⟩ := hb 0 (by decide) 0 (by decide)
  have := b2 (by decide)
  unfold UINT_MAX at b1
  norm_num at this
  omega

/-- C9 (counterexample): for the `34 x 33` image pair with every left byte 255 and every
right byte 0, after one iteration entry 0 of the Left message of pixel `(18, 16)` is 510,
which exceeds `1 * (LAMBDA*SMOOTHNESS_TRUNC + 255) = 295`; and in one of the first six
iterations an update forms a sum that reaches `2^32`, so that an addition wraps. -/
theorem C9_bound_295_fails_and_sum_wraps :
    ∃ mrf mrf1, InitDataCost LABELS (constImage 33 34 255) (constImage 33 34 0) MRF2D.empty
        = some mrf ∧
      BP_iterations LABELS 1 mrf = some mrf1 ∧ mrf1.InGrid 18 16 ∧
      (mrf1.pix 18 16).msg LEFT 0 = 510 ∧
      ¬ (mrf1.pix 18 16).msg LEFT 0 ≤ 1 * (LAMBDA * SMOOTHNESS_TRUNC + 255) ∧
      ∃ j < 6, ∃ mrfj, BP_iterations LABELS j mrf = some mrfj ∧
        IterationSumReaches LABELS mrfj (2 ^ 32) := by
  obtain ⟨mrf, mrf1, h, h1, hin, h510, hnot⟩ := message_510_after_one_iteration
  exact ⟨mrf, mrf1, h, h1, hin, h510, hnot, sum_reaches_within_six mrf h⟩

end LBP
